import Mathlib

/-!
Verification development for the `voronoi-fortune` repository: a shallow
embedding, over exact rationals, of the Fortune-sweep Voronoi implementation
(`voronoi.py`, `event_priority_queue.py`, `point.py`, `line_segment.py`,
`parabolic_arc.py`, `event.py`), together with theorems about the embedded
code.

Modelling conventions:
* Python floats are modelled by `ℚ`.  Every place the source calls
  `math.sqrt` the embedding takes an explicit square-root interpretation
  `sq : ℚ → ℚ` as a parameter, so that statements which do not depend on the
  square root's value can be proved for every interpretation, and statements
  about the exact value are made against the squared quantities.
* Mutable Python objects that are aliased (line segments, beachline arcs,
  circle events) live in arenas (`List` indexed by allocation order) and
  references are indices.
* `heapq.heappush` / `heapq.heappop` are modelled by their documented
  contract: the heap is a bag of entries and `heappop` removes the
  lexicographically least entry `(x, counter, item)`; counters are unique so
  the item is never compared.
* Python `while` loops are modelled with explicit fuel; the fuel passed by
  callers dominates the number of iterations the source's loop performs on
  the runs analysed here.
-/

set_option linter.unusedSectionVars false

namespace Vor

/-- `EPSILON = 1e-10` from `voronoi.py`. -/
def EPS : ℚ := 1 / 10 ^ 10

/-- One-decimal canonicalization performed by `Point.__init__`
(`x = float(f"{x:.1f}")`): coordinates are rounded to one decimal place.
Rounding of the half-way cases is a modelling choice (round half up via a
floor division; the reference rounds the nearest binary float of the
decimal string): none of the analysed claims depends on the tie rule. -/
def canon (q : ℚ) : ℚ :=
  (((10 * q + 1 / 2 : ℚ).num.fdiv ((10 * q + 1 / 2 : ℚ).den : ℤ) : ℤ) : ℚ) / 10

/-- `point.py`: an immutable 2-d point; equality and hashing are by value on
the rounded coordinates. -/
structure Point where
  x : ℚ
  y : ℚ
deriving DecidableEq, Repr

/-- The `Point(x, y)` constructor: both coordinates canonicalized. -/
def Point.mk' (x y : ℚ) : Point := ⟨canon x, canon y⟩

/-- `Point.distance_to` squared (the source computes
`sqrt((x-x')**2 + (y-y')**2)`; we keep the radicand). -/
def distSq (p q : Point) : ℚ := (p.x - q.x) ^ 2 + (p.y - q.y) ^ 2

/-! ## `event_priority_queue.py`: the indexed priority schedule

State of an `EventPriorityQueue`.  An entry `[item.x, counter, item]` of the
Python heap is the triple `(x, counter, item)`; marking `entry[-1] = REMOVED`
is recorded by putting the entry's counter in `dead` (counters are unique and
never reused, so this is faithful).  `finder` models `_entry_finder`, an
insertion-ordered dict from the item's logical key to the counter of its live
entry. -/
structure QState (α κ : Type) where
  heap : List (ℚ × Nat × α)
  dead : List Nat
  finder : List (κ × Nat)
  counter : Nat
deriving DecidableEq, Repr

/-- `EventPriorityQueue.__init__`. -/
def initQ {α κ : Type} : QState α κ := ⟨[], [], [], 0⟩

/-- The comparison key of a heap entry: Python compares
`[x, counter, item]` lists lexicographically and counters are unique, so
only `(x, counter)` matters. -/
def entKey {α : Type} (e : ℚ × Nat × α) : ℚ × Nat := (e.1, e.2.1)

/-- Strict lexicographic order on `(x, counter)` keys. -/
def keyLt (a b : ℚ × Nat) : Prop := a.1 < b.1 ∨ (a.1 = b.1 ∧ a.2 < b.2)

/-- Lexicographic order (non-strict) on `(x, counter)` keys. -/
def keyLe (a b : ℚ × Nat) : Prop := a.1 < b.1 ∨ (a.1 = b.1 ∧ a.2 ≤ b.2)

instance (a b : ℚ × Nat) : Decidable (keyLt a b) := by unfold keyLt; infer_instance

instance (a b : ℚ × Nat) : Decidable (keyLe a b) := by unfold keyLe; infer_instance

theorem keyLe_refl (a : ℚ × Nat) : keyLe a a := Or.inr ⟨rfl, le_refl _⟩

theorem keyLe_total (a b : ℚ × Nat) : keyLe a b ∨ keyLe b a := by
  unfold keyLe
  rcases lt_trichotomy a.1 b.1 with h | h | h
  · exact Or.inl (Or.inl h)
  · rcases Nat.le_total a.2 b.2 with h2 | h2
    · exact Or.inl (Or.inr ⟨h, h2⟩)
    · exact Or.inr (Or.inr ⟨h.symm, h2⟩)
  · exact Or.inr (Or.inl h)

theorem keyLe_trans {a b c : ℚ × Nat} (h1 : keyLe a b) (h2 : keyLe b c) : keyLe a c := by
  unfold keyLe at *
  rcases h1 with h1 | ⟨h1, h1'⟩ <;> rcases h2 with h2 | ⟨h2, h2'⟩
  · exact Or.inl (h1.trans h2)
  · exact Or.inl (h2 ▸ h1)
  · exact Or.inl (h1 ▸ h2)
  · exact Or.inr ⟨h1.trans h2, h1'.trans h2'⟩

theorem keyLe_antisymm {a b : ℚ × Nat} (h1 : keyLe a b) (h2 : keyLe b a) : a = b := by
  unfold keyLe at *
  rcases h1 with h1 | ⟨h1, h1'⟩ <;> rcases h2 with h2 | ⟨h2, h2'⟩
  · exact absurd (h1.trans h2) (lt_irrefl _)
  · exact absurd h1 (h2 ▸ lt_irrefl _)
  · exact absurd h2 (h1 ▸ lt_irrefl _)
  · exact Prod.ext h1 (Nat.le_antisymm h1' h2')

theorem keyLe_of_not_keyLt {a b : ℚ × Nat} (h : ¬ keyLt a b) : keyLe b a := by
  unfold keyLt at h
  unfold keyLe
  rcases lt_trichotomy a.1 b.1 with hf | hf | hf
  · exact absurd (Or.inl hf) h
  · refine Or.inr ⟨hf.symm, ?_⟩
    rcases Nat.lt_or_ge a.2 b.2 with hl | hl
    · exact absurd (Or.inr ⟨hf, hl⟩) h
    · exact hl
  · exact Or.inl hf

/-- `heapq.heappop` modelled on the bag of entries: remove the
lexicographically least entry (the head is preferred on ties, which cannot
occur for reachable states since counters are unique). -/
def popMinH {α : Type} : List (ℚ × Nat × α) → Option ((ℚ × Nat × α) × List (ℚ × Nat × α))
  | [] => none
  | e :: rest =>
    match popMinH rest with
    | none => some (e, [])
    | some (m, rest') =>
      if keyLt (entKey m) (entKey e) then some (m, e :: rest') else some (e, rest)

theorem popMinH_eq_none {α : Type} {l : List (ℚ × Nat × α)} :
    popMinH l = none ↔ l = [] := by
  cases l with
  | nil => simp [popMinH]
  | cons e rest =>
    simp only [popMinH]
    constructor
    · intro h
      cases hr : popMinH rest <;> rw [hr] at h <;> simp at h
      · rename_i p
        obtain ⟨m, rest'⟩ := p
        by_cases hk : keyLt (entKey m) (entKey e) <;> simp [hk] at h
    · intro h; cases h

theorem popMinH_perm {α : Type} {l : List (ℚ × Nat × α)} {m rest} :
    popMinH l = some (m, rest) → l.Perm (m :: rest) := by
  induction l generalizing m rest with
  | nil => intro h; cases h
  | cons e t ih =>
    intro h
    simp only [popMinH] at h
    cases hr : popMinH t with
    | none =>
      rw [hr] at h
      rw [popMinH_eq_none.mp hr] at *
      cases h
      exact List.Perm.refl _
    | some p =>
      obtain ⟨m', rest'⟩ := p
      rw [hr] at h
      dsimp only at h
      by_cases hk : keyLt (entKey m') (entKey e)
      · rw [if_pos hk] at h
        cases h
        exact ((ih hr).cons e).trans (List.Perm.swap _ _ _)
      · rw [if_neg hk] at h
        cases h
        exact List.Perm.refl _

theorem popMinH_min {α : Type} {l : List (ℚ × Nat × α)} {m rest} :
    popMinH l = some (m, rest) → ∀ e ∈ l, keyLe (entKey m) (entKey e) := by
  induction l generalizing m rest with
  | nil => intro h; cases h
  | cons e t ih =>
    intro h f hf
    simp only [popMinH] at h
    cases hr : popMinH t with
    | none =>
      rw [hr] at h
      cases h
      rw [popMinH_eq_none.mp hr] at hf
      rcases List.mem_singleton.mp hf with rfl
      exact keyLe_refl _
    | some p =>
      obtain ⟨m', rest'⟩ := p
      rw [hr] at h
      dsimp only at h
      by_cases hk : keyLt (entKey m') (entKey e)
      · rw [if_pos hk] at h
        cases h
        rcases List.mem_cons.mp hf with rfl | hf'
        · rcases hk with hk | ⟨hk, hk'⟩
          · exact Or.inl hk
          · exact Or.inr ⟨hk, Nat.le_of_lt hk'⟩
        · exact ih hr _ hf'
      · rw [if_neg hk] at h
        cases h
        rcases List.mem_cons.mp hf with rfl | hf'
        · exact keyLe_refl _
        · exact keyLe_trans (keyLe_of_not_keyLt hk) (ih hr _ hf')

theorem popMinH_length {α : Type} {l : List (ℚ × Nat × α)} {m rest} :
    popMinH l = some (m, rest) → rest.length + 1 = l.length := by
  intro h
  have := (popMinH_perm h).length_eq
  simp at this
  omega

/-- Association-list lookup, modelling `item in dict` / `dict[item]` on the
key of the item. -/
def aFind {κ : Type} [DecidableEq κ] : List (κ × Nat) → κ → Option Nat
  | [], _ => none
  | (k, c) :: rest, k' => if k' = k then some c else aFind rest k'

/-- Association-list deletion, modelling `dict.pop(item)` /
`del dict[item]`: the (unique) binding for the key is removed, the
insertion order of the other bindings is preserved. -/
def aErase {κ : Type} [DecidableEq κ] : List (κ × Nat) → κ → List (κ × Nat)
  | [], _ => []
  | (k, c) :: rest, k' => if k' = k then rest else (k, c) :: aErase rest k'

section QOps

variable {α κ : Type} [DecidableEq κ] (xOf : α → ℚ) (keyOf : α → κ)

/-- `EventPriorityQueue.remove` (lines 46-49): pop the key's binding from
`_entry_finder` and mark the heap entry removed (tombstone its counter).
If the key is absent the source raises `KeyError`; `remove` is only ever
called from `push` under an `item in self._entry_finder` guard, so the
absent case (modelled as a no-op) is unreachable. -/
def removeQ (it : α) (s : QState α κ) : QState α κ :=
  match aFind s.finder (keyOf it) with
  | some c => { s with finder := aErase s.finder (keyOf it), dead := c :: s.dead }
  | none => s

/-- `EventPriorityQueue.push` (lines 29-36): replace-on-push, then create a
fresh entry `[item.x, counter, item]`, record it in `_entry_finder`
(appending at the end of the dict order, since `pop` deleted the old key),
and push it on the heap. -/
def pushQ (it : α) (s : QState α κ) : QState α κ :=
  let s1 := if aFind s.finder (keyOf it) = none then s else removeQ keyOf it s
  let c := s1.counter + 1
  { heap := (xOf it, c, it) :: s1.heap
    dead := s1.dead
    finder := s1.finder ++ [(keyOf it, c)]
    counter := c }

/-- `EventPriorityQueue.empty` (lines 16-18): `not bool(self._entry_finder)`. -/
def emptyQ (s : QState α κ) : Bool := s.finder.isEmpty

/-- `EventPriorityQueue.pop` (lines 38-44), with explicit fuel for the
tombstone-skipping `while` loop (one heap entry is consumed per iteration,
so `heap.length + 1` fuel always suffices).  When the heap is exhausted the
Python function falls off the loop and returns `None`. -/
def popQF : Nat → QState α κ → Option α × QState α κ
  | 0, s => (none, s)
  | fuel + 1, s =>
    match popMinH s.heap with
    | none => (none, s)
    | some (m, rest) =>
      if m.2.1 ∈ s.dead then popQF fuel { s with heap := rest }
      else (some m.2.2, { s with heap := rest, finder := aErase s.finder (keyOf m.2.2) })

/-- `EventPriorityQueue.pop`. -/
def popQ (s : QState α κ) : Option α × QState α κ :=
  popQF keyOf (s.heap.length + 1) s

/-- `EventPriorityQueue.top` (lines 20-27): pop entries until a live one is
found, then `push` the item back (which allocates a fresh counter) and
return it; `None` when the heap is exhausted. -/
def topQF : Nat → QState α κ → Option α × QState α κ
  | 0, s => (none, s)
  | fuel + 1, s =>
    match popMinH s.heap with
    | none => (none, s)
    | some (m, rest) =>
      if m.2.1 ∈ s.dead then topQF fuel { s with heap := rest }
      else (some m.2.2, pushQ xOf keyOf m.2.2 { s with heap := rest })

/-- `EventPriorityQueue.top`. -/
def topQ (s : QState α κ) : Option α × QState α κ :=
  topQF xOf keyOf (s.heap.length + 1) s

/-- Popping the whole queue (observation used to state the claims about
the schedule; each successful `pop` removes at least one heap entry, so
`heap.length` fuel suffices to drain the queue). -/
def popAllF : Nat → QState α κ → List α
  | 0, _ => []
  | fuel + 1, s =>
    match popQ keyOf s with
    | (none, _) => []
    | (some a, s') => a :: popAllF fuel s'

/-- Popping the whole queue. -/
def popAllQ (s : QState α κ) : List α := popAllF keyOf s.heap.length s

/-- The live heap entries: in the heap and not tombstoned. -/
def liveEntries (s : QState α κ) : List (ℚ × Nat × α) :=
  s.heap.filter (fun e => decide (e.2.1 ∉ s.dead))

/-- The live items. -/
def liveItems (s : QState α κ) : List α := (liveEntries s).map (fun e => e.2.2)

/-- Well-formedness invariant of reachable `EventPriorityQueue` states:
counters are unique and bounded by the allocation counter, dict keys and
dict values are unique, every heap entry's priority is its item's `x`, the
dict binds exactly the keys of the live heap entries, and tombstoned
counters are bounded (so a fresh counter is live). -/
def QWF (s : QState α κ) : Prop :=
  (s.heap.map (fun e => e.2.1)).Nodup ∧
  (s.finder.map Prod.fst).Nodup ∧
  (s.finder.map Prod.snd).Nodup ∧
  (∀ e ∈ s.heap, e.1 = xOf e.2.2 ∧ e.2.1 ≤ s.counter) ∧
  (∀ kc ∈ s.finder, ∃ e ∈ s.heap, e.2.1 = kc.2 ∧ keyOf e.2.2 = kc.1 ∧ kc.2 ∉ s.dead) ∧
  (∀ e ∈ s.heap, e.2.1 ∉ s.dead → (keyOf e.2.2, e.2.1) ∈ s.finder) ∧
  (∀ d ∈ s.dead, d ≤ s.counter)

instance (s : QState α κ) [DecidableEq α] : Decidable (QWF xOf keyOf s) := by
  unfold QWF; infer_instance

end QOps

section ALemmas

variable {κ : Type} [DecidableEq κ]

theorem aErase_sublist (l : List (κ × Nat)) (k : κ) : (aErase l k).Sublist l := by
  induction l with
  | nil => simp [aErase]
  | cons kc rest ih =>
    obtain ⟨k', c⟩ := kc
    by_cases h : k = k'
    · simp only [aErase, if_pos h]
      exact (List.sublist_cons_self _ _)
    · simp only [aErase, if_neg h]
      exact ih.cons₂ _

theorem mem_aErase_of_ne {l : List (κ × Nat)} {k : κ} {kc : κ × Nat}
    (hne : kc.1 ≠ k) (hm : kc ∈ l) : kc ∈ aErase l k := by
  induction l with
  | nil => cases hm
  | cons kc' rest ih =>
    obtain ⟨k', c⟩ := kc'
    by_cases h : k = k'
    · simp only [aErase, if_pos h]
      rcases List.mem_cons.mp hm with rfl | hm'
      · exact absurd (h ▸ rfl) hne
      · exact hm'
    · simp only [aErase, if_neg h]
      rcases List.mem_cons.mp hm with rfl | hm'
      · exact List.mem_cons_self _ _
      · exact List.mem_cons_of_mem _ (ih hm')

theorem ne_of_mem_aErase {l : List (κ × Nat)} {k : κ} {kc : κ × Nat}
    (hnd : (l.map Prod.fst).Nodup) (hm : kc ∈ aErase l k) : kc.1 ≠ k := by
  induction l with
  | nil => cases hm
  | cons kc' rest ih =>
    obtain ⟨k', c⟩ := kc'
    simp only [List.map_cons, List.nodup_cons] at hnd
    by_cases h : k = k'
    · simp only [aErase, if_pos h] at hm
      intro hk
      subst h
      exact hnd.1 (hk ▸ List.mem_map_of_mem Prod.fst hm)
    · simp only [aErase, if_neg h] at hm
      rcases List.mem_cons.mp hm with rfl | hm'
      · exact fun hk => h (hk ▸ rfl)
      · exact ih hnd.2 hm'

theorem notMem_map_fst_aErase {l : List (κ × Nat)} {k : κ}
    (hnd : (l.map Prod.fst).Nodup) : k ∉ (aErase l k).map Prod.fst := by
  intro h
  obtain ⟨kc, hm, hk⟩ := List.mem_map.mp h
  exact ne_of_mem_aErase hnd hm hk

theorem aFind_eq_some_iff_mem {l : List (κ × Nat)} {k : κ} {c : Nat}
    (hnd : (l.map Prod.fst).Nodup) : aFind l k = some c ↔ (k, c) ∈ l := by
  induction l with
  | nil => simp [aFind]
  | cons kc rest ih =>
    obtain ⟨k', c'⟩ := kc
    simp only [List.map_cons, List.nodup_cons] at hnd
    by_cases h : k = k'
    · subst h
      simp only [aFind, if_pos rfl, List.mem_cons]
      constructor
      · intro hc; cases hc; exact Or.inl rfl
      · rintro (hc | hc)
        · cases hc; rfl
        · exact absurd (List.mem_map_of_mem Prod.fst hc) hnd.1
    · simp only [aFind, if_neg h, List.mem_cons, ih hnd.2]
      constructor
      · exact Or.inr
      · rintro (hc | hc)
        · cases hc; exact absurd rfl h
        · exact hc

theorem aFind_eq_none_iff {l : List (κ × Nat)} {k : κ} :
    aFind l k = none ↔ k ∉ l.map Prod.fst := by
  induction l with
  | nil => simp [aFind]
  | cons kc rest ih =>
    obtain ⟨k', c'⟩ := kc
    by_cases h : k = k'
    · subst h
      simp [aFind]
    · simp [aFind, if_neg h, ih, h]

end ALemmas

section QLemmas

variable {α κ : Type} [DecidableEq κ] (xOf : α → ℚ) (keyOf : α → κ)

theorem liveEntries_sublist (s : QState α κ) : (liveEntries s).Sublist s.heap :=
  List.filter_sublist _

theorem mem_liveEntries {s : QState α κ} {e : ℚ × Nat × α} :
    e ∈ liveEntries s ↔ e ∈ s.heap ∧ e.2.1 ∉ s.dead := by
  simp [liveEntries, List.mem_filter]

theorem QWF_initQ : QWF xOf keyOf (initQ (α := α) (κ := κ)) := by
  refine ⟨?_, ?_, ?_, ?_, ?_, ?_, ?_⟩ <;> simp [initQ]

/-- Counters of distinct heap entries are distinct, so equal counters force
equal entries. -/
theorem heap_counter_inj {s : QState α κ} (h : QWF xOf keyOf s)
    {e1 e2 : ℚ × Nat × α} (h1 : e1 ∈ s.heap) (h2 : e2 ∈ s.heap)
    (hc : e1.2.1 = e2.2.1) : e1 = e2 :=
  List.inj_on_of_nodup_map h.1 h1 h2 hc

theorem finder_counter_le {s : QState α κ} (h : QWF xOf keyOf s)
    {kc : κ × Nat} (hm : kc ∈ s.finder) : kc.2 ≤ s.counter := by
  obtain ⟨e, he, hec, _, _⟩ := h.2.2.2.2.1 kc hm
  exact hec ▸ (h.2.2.2.1 e he).2

/-- `remove` preserves well-formedness (in the reachable, guarded case
where the key is present). -/
theorem QWF_removeQ {s : QState α κ} (h : QWF xOf keyOf s) (it : α) :
    QWF xOf keyOf (removeQ keyOf it s) := by
  unfold removeQ
  cases hf : aFind s.finder (keyOf it) with
  | none => exact h
  | some c =>
    obtain ⟨h1, h2, h3, h4, h5, h6, h7⟩ := h
    have hmem : (keyOf it, c) ∈ s.finder := (aFind_eq_some_iff_mem h2).mp hf
    refine ⟨h1, ?_, ?_, h4, ?_, ?_, ?_⟩
    · exact ((aErase_sublist _ _).map Prod.fst).nodup h2
    · exact ((aErase_sublist _ _).map Prod.snd).nodup h3
    · intro kc hkc
      have hkc' : kc ∈ s.finder := (aErase_sublist _ _).mem hkc
      obtain ⟨e, he, hec, hek, hed⟩ := h5 kc hkc'
      refine ⟨e, he, hec, hek, ?_⟩
      simp only [List.mem_cons]
      rintro (hcc | hcc)
      · -- the erased binding's counter cannot be another binding's counter
        have hne : kc.1 ≠ keyOf it := ne_of_mem_aErase h2 hkc
        have heq : kc = (keyOf it, c) := List.inj_on_of_nodup_map h3 hkc' hmem hcc
        exact hne (congrArg Prod.fst heq)
      · exact hed hcc
    · intro e he hed
      simp only [List.mem_cons] at hed
      push_neg at hed
      have := h6 e he hed.2
      refine mem_aErase_of_ne ?_ this
      intro hk
      have : (keyOf it, e.2.1) ∈ s.finder := hk ▸ this
      have := List.inj_on_of_nodup_map h2 this hmem rfl
      have : e.2.1 = c := congrArg Prod.snd this
      exact hed.1 this
    · intro d hd
      simp only [List.mem_cons] at hd
      rcases hd with rfl | hd
      · exact finder_counter_le xOf keyOf ⟨h1, h2, h3, h4, h5, h6, h7⟩ hmem
      · exact h7 d hd

/-- After `remove` the key's binding is gone. -/
theorem removeQ_finder (s : QState α κ) (it : α) {c : Nat}
    (hf : aFind s.finder (keyOf it) = some c) :
    (removeQ keyOf it s).finder = aErase s.finder (keyOf it) ∧
      (removeQ keyOf it s).dead = c :: s.dead ∧
      (removeQ keyOf it s).heap = s.heap ∧
      (removeQ keyOf it s).counter = s.counter := by
  unfold removeQ
  rw [hf]
  exact ⟨rfl, rfl, rfl, rfl⟩

theorem aFind_aErase_self {l : List (κ × Nat)} (hnd : (l.map Prod.fst).Nodup)
    (k : κ) : aFind (aErase l k) k = none := by
  rw [aFind_eq_none_iff]
  exact notMem_map_fst_aErase hnd

/-- Well-formedness of the state produced by the final lines of `push`
(fresh counter, entry on the heap, binding appended to the dict), for any
well-formed intermediate state that no longer binds the pushed key. -/
theorem QWF_push_shape {s1 : QState α κ} (h1 : QWF xOf keyOf s1) (it : α)
    (hk1 : aFind s1.finder (keyOf it) = none) :
    QWF xOf keyOf
      ⟨(xOf it, s1.counter + 1, it) :: s1.heap, s1.dead,
        s1.finder ++ [(keyOf it, s1.counter + 1)], s1.counter + 1⟩ := by
  have hknotin : keyOf it ∉ s1.finder.map Prod.fst := aFind_eq_none_iff.mp hk1
  obtain ⟨w1, w2, w3, w4, w5, w6, w7⟩ := h1
  refine ⟨?_, ?_, ?_, ?_, ?_, ?_, ?_⟩
  · simp only [List.map_cons, List.nodup_cons]
    refine ⟨?_, w1⟩
    intro hmem
    obtain ⟨e, he, hc⟩ := List.mem_map.mp hmem
    have := (w4 e he).2
    omega
  · simp only [List.map_append, List.map_cons, List.map_nil]
    rw [List.nodup_append]
    refine ⟨w2, List.nodup_singleton _, ?_⟩
    intro k hk hk'
    simp only [List.mem_singleton] at hk'
    subst hk'
    exact hknotin hk
  · simp only [List.map_append, List.map_cons, List.map_nil]
    rw [List.nodup_append]
    refine ⟨w3, List.nodup_singleton _, ?_⟩
    intro c hc hc'
    simp only [List.mem_singleton] at hc'
    subst hc'
    obtain ⟨kc, hkc, hkcc⟩ := List.mem_map.mp hc
    have := finder_counter_le xOf keyOf ⟨w1, w2, w3, w4, w5, w6, w7⟩ hkc
    omega
  · intro e he
    rcases List.mem_cons.mp he with rfl | he'
    · exact ⟨rfl, le_refl _⟩
    · exact ⟨(w4 e he').1, Nat.le_succ_of_le (w4 e he').2⟩
  · intro kc hkc
    rcases List.mem_append.mp hkc with hkc' | hkc'
    · obtain ⟨e, he, hec, hek, hed⟩ := w5 kc hkc'
      exact ⟨e, List.mem_cons_of_mem _ he, hec, hek, hed⟩
    · simp only [List.mem_singleton] at hkc'
      subst hkc'
      refine ⟨(xOf it, s1.counter + 1, it), List.mem_cons_self _ _, rfl, rfl, ?_⟩
      intro hd
      have := w7 _ hd
      omega
  · intro e he hed
    rcases List.mem_cons.mp he with rfl | he'
    · exact List.mem_append_right _ (List.mem_singleton.mpr rfl)
    · have hf := w6 e he' hed
      refine List.mem_append_left _ ?_
      exact hf
  · intro d hd
    exact Nat.le_succ_of_le (w7 d hd)

/-- Unfolding `push` when the key is absent. -/
theorem pushQ_eq_fresh {s : QState α κ} (it : α)
    (hf : aFind s.finder (keyOf it) = none) :
    pushQ xOf keyOf it s =
      ⟨(xOf it, s.counter + 1, it) :: s.heap, s.dead,
        s.finder ++ [(keyOf it, s.counter + 1)], s.counter + 1⟩ := by
  unfold pushQ
  rw [if_pos hf]

/-- Unfolding `push` when the key is present: the stale entry is tombstoned
first (`remove`), then the fresh entry is created. -/
theorem pushQ_eq_replace {s : QState α κ} (it : α) {c : Nat}
    (hf : aFind s.finder (keyOf it) = some c) :
    pushQ xOf keyOf it s =
      ⟨(xOf it, s.counter + 1, it) :: s.heap, c :: s.dead,
        aErase s.finder (keyOf it) ++ [(keyOf it, s.counter + 1)], s.counter + 1⟩ := by
  unfold pushQ removeQ
  rw [if_neg (by simp [hf]), hf]

/-- `push` preserves well-formedness. -/
theorem QWF_pushQ {s : QState α κ} (h : QWF xOf keyOf s) (it : α) :
    QWF xOf keyOf (pushQ xOf keyOf it s) := by
  cases hf : aFind s.finder (keyOf it) with
  | none =>
    rw [pushQ_eq_fresh xOf keyOf it hf]
    exact QWF_push_shape xOf keyOf h it hf
  | some c =>
    rw [pushQ_eq_replace xOf keyOf it hf]
    have hrm : removeQ keyOf it s =
        ⟨s.heap, c :: s.dead, aErase s.finder (keyOf it), s.counter⟩ := by
      unfold removeQ; rw [hf]
    have h1 : QWF xOf keyOf (⟨s.heap, c :: s.dead, aErase s.finder (keyOf it),
        s.counter⟩ : QState α κ) := by
      rw [hrm.symm]
      exact QWF_removeQ xOf keyOf h it
    have := QWF_push_shape xOf keyOf h1 it (aFind_aErase_self h.2.1 _)
    exact this

/-- The live entries after a fresh `push`: the new entry consed on. -/
theorem liveEntries_pushQ_fresh {s : QState α κ} (h : QWF xOf keyOf s) (it : α)
    (hf : aFind s.finder (keyOf it) = none) :
    liveEntries (pushQ xOf keyOf it s) =
      (xOf it, s.counter + 1, it) :: liveEntries s := by
  rw [pushQ_eq_fresh xOf keyOf it hf]
  unfold liveEntries
  simp only [List.filter_cons]
  have hc : decide ((s.counter + 1) ∉ s.dead) = true := by
    simp only [decide_eq_true_eq]
    intro hd
    have := h.2.2.2.2.2.2 _ hd
    omega
  rw [if_pos hc]

/-- The live entries after a replacing `push`: the new entry consed on the
previously live entries minus the replaced one. -/
theorem liveEntries_pushQ_replace {s : QState α κ} (h : QWF xOf keyOf s) (it : α)
    {c : Nat} (hf : aFind s.finder (keyOf it) = some c) :
    liveEntries (pushQ xOf keyOf it s) =
      (xOf it, s.counter + 1, it) ::
        (liveEntries s).filter (fun e => decide (e.2.1 ≠ c)) := by
  rw [pushQ_eq_replace xOf keyOf it hf]
  unfold liveEntries
  simp only [List.filter_cons]
  have hcnt : c ≤ s.counter :=
    finder_counter_le xOf keyOf h ((aFind_eq_some_iff_mem h.2.1).mp hf)
  have hc : decide ((s.counter + 1) ∉ (c :: s.dead)) = true := by
    simp only [decide_eq_true_eq, List.mem_cons]
    push_neg
    constructor
    · omega
    · intro hd
      have := h.2.2.2.2.2.2 _ hd
      omega
  rw [if_pos hc]
  simp only [List.cons.injEq, true_and]
  rw [List.filter_filter]
  apply List.filter_congr
  intro e he
  simp only [List.mem_cons, not_or, decide_eq_true_eq, ne_eq]
  rw [Bool.eq_iff_iff]
  simp only [Bool.and_eq_true, decide_eq_true_eq, ne_eq]

theorem liveEntries_eq_nil_iff {s : QState α κ} :
    liveEntries s = [] ↔ ∀ e ∈ s.heap, e.2.1 ∈ s.dead := by
  unfold liveEntries
  rw [List.filter_eq_nil_iff]
  constructor
  · intro h e he
    have := h e he
    simpa using this
  · intro h e he
    simpa using h e he

/-- A queue with no live entries pops `None` (the Python `while` falls
through and the function returns `None`). -/
theorem popQF_all_dead (fuel : Nat) {s : QState α κ}
    (hs : ∀ e ∈ s.heap, e.2.1 ∈ s.dead) : (popQF keyOf fuel s).1 = none := by
  induction fuel generalizing s with
  | zero => rfl
  | succ f ih =>
    simp only [popQF]
    cases hm : popMinH s.heap with
    | none => rfl
    | some p =>
      obtain ⟨m, rest⟩ := p
      have hperm := popMinH_perm hm
      have hmem : m ∈ s.heap := hperm.symm.mem_iff.mp (List.mem_cons_self _ _)
      dsimp only
      rw [if_pos (hs m hmem)]
      exact ih fun e he => hs e (hperm.symm.mem_iff.mp (List.mem_cons_of_mem _ he))

/-- A queue with no live entries peeks `None`. -/
theorem topQF_all_dead (fuel : Nat) {s : QState α κ}
    (hs : ∀ e ∈ s.heap, e.2.1 ∈ s.dead) : (topQF xOf keyOf fuel s).1 = none := by
  induction fuel generalizing s with
  | zero => rfl
  | succ f ih =>
    simp only [topQF]
    cases hm : popMinH s.heap with
    | none => rfl
    | some p =>
      obtain ⟨m, rest⟩ := p
      have hperm := popMinH_perm hm
      have hmem : m ∈ s.heap := hperm.symm.mem_iff.mp (List.mem_cons_self _ _)
      dsimp only
      rw [if_pos (hs m hmem)]
      exact ih fun e he => hs e (hperm.symm.mem_iff.mp (List.mem_cons_of_mem _ he))

/-- Any nonempty set of live entries has a `(x, counter)`-least element. -/
theorem exists_min_live {s : QState α κ} (h : liveEntries s ≠ []) :
    ∃ m ∈ liveEntries s, ∀ e ∈ liveEntries s, keyLe (entKey m) (entKey e) := by
  cases hm : popMinH (liveEntries s) with
  | none => exact absurd (popMinH_eq_none.mp hm) h
  | some p =>
    obtain ⟨m, rest⟩ := p
    exact ⟨m, (popMinH_perm hm).symm.mem_iff.mp (List.mem_cons_self _ _),
      popMinH_min hm⟩

theorem liveEntries_key_inj {s : QState α κ} (h : QWF xOf keyOf s)
    {e1 e2 : ℚ × Nat × α} (h1 : e1 ∈ liveEntries s) (h2 : e2 ∈ liveEntries s)
    (hk : keyOf e1.2.2 = keyOf e2.2.2) : e1 = e2 := by
  obtain ⟨m1, d1⟩ := mem_liveEntries.mp h1
  obtain ⟨m2, d2⟩ := mem_liveEntries.mp h2
  have f1 := h.2.2.2.2.2.1 e1 m1 d1
  have f2 := h.2.2.2.2.2.1 e2 m2 d2
  have f2' : (keyOf e1.2.2, e2.2.1) ∈ s.finder := by rw [hk]; exact f2
  have hpair := List.inj_on_of_nodup_map h.2.1 f1 f2' rfl
  have hc : e1.2.1 = e2.2.1 := congrArg Prod.snd hpair
  exact heap_counter_inj xOf keyOf h m1 m2 hc

theorem notMem_of_perm_cons {β γ : Type} {l lr : List β} {m : β} {f : β → γ}
    (hnd : (l.map f).Nodup) (hp : l.Perm (m :: lr)) : m ∉ lr := by
  have := (hp.map f).nodup_iff.mp hnd
  simp only [List.map_cons, List.nodup_cons] at this
  intro hm
  exact this.1 (List.mem_map_of_mem f hm)

/-- Core behaviour of `pop` on a well-formed state with at least one live
entry: the item of the `(x, counter)`-least live entry is returned, its
dict binding is removed, and the remaining live entries are the other
previously-live entries. -/
theorem popQF_live {s : QState α κ} (h : QWF xOf keyOf s) {m : ℚ × Nat × α}
    (hm : m ∈ liveEntries s)
    (hmin : ∀ e ∈ liveEntries s, keyLe (entKey m) (entKey e)) :
    ∀ fuel, s.heap.length < fuel →
    ∃ s' lr, popQF keyOf fuel s = (some m.2.2, s') ∧
      s'.finder = aErase s.finder (keyOf m.2.2) ∧
      s'.dead = s.dead ∧ s'.counter = s.counter ∧
      s'.heap.length < s.heap.length ∧
      (liveEntries s).Perm (m :: lr) ∧ liveEntries s' = lr ∧
      (∀ e ∈ lr, e ∈ liveEntries s) ∧
      QWF xOf keyOf s' := by
  intro fuel
  induction fuel generalizing s with
  | zero => omega
  | succ f ih =>
    intro hfuel
    have hheap : m ∈ s.heap := (mem_liveEntries.mp hm).1
    cases hpm : popMinH s.heap with
    | none =>
      rw [popMinH_eq_none.mp hpm] at hheap
      cases hheap
    | some p =>
      obtain ⟨m0, rest⟩ := p
      have hperm := popMinH_perm hpm
      have hm0mem : m0 ∈ s.heap := hperm.symm.mem_iff.mp (List.mem_cons_self _ _)
      have hlen : rest.length + 1 = s.heap.length := popMinH_length hpm
      have hnd_cons : ((m0 :: rest).map (fun e => e.2.1)).Nodup :=
        ((hperm.map _).nodup_iff).mp h.1
      simp only [popQF]
      rw [hpm]
      dsimp only
      by_cases hdead : m0.2.1 ∈ s.dead
      · -- skip the tombstone
        rw [if_pos hdead]
        set s1 : QState α κ := { s with heap := rest } with hs1
        have hlive_perm : (liveEntries s).Perm (liveEntries s1) := by
          have h1 : (liveEntries s).Perm
              ((m0 :: rest).filter (fun e => decide (e.2.1 ∉ s.dead))) :=
            hperm.filter _
          rw [List.filter_cons, if_neg (by simpa using hdead)] at h1
          exact h1
        have hQWF1 : QWF xOf keyOf s1 := by
          obtain ⟨w1, w2, w3, w4, w5, w6, w7⟩ := h
          refine ⟨?_, w2, w3, ?_, ?_, ?_, w7⟩
          · simp only [List.map_cons, List.nodup_cons] at hnd_cons
            exact hnd_cons.2
          · exact fun e he => w4 e (hperm.symm.mem_iff.mp (List.mem_cons_of_mem _ he))
          · intro kc hkc
            obtain ⟨e, he, hec, hek, hed⟩ := w5 kc hkc
            rcases List.mem_cons.mp (hperm.mem_iff.mp he) with rfl | he'
            · exact absurd (hec ▸ hdead) hed
            · exact ⟨e, he', hec, hek, hed⟩
          · intro e he hed
            exact w6 e (hperm.symm.mem_iff.mp (List.mem_cons_of_mem _ he)) hed
        have hm1 : m ∈ liveEntries s1 := hlive_perm.mem_iff.mp hm
        have hmin1 : ∀ e ∈ liveEntries s1, keyLe (entKey m) (entKey e) :=
          fun e he => hmin e (hlive_perm.mem_iff.mpr he)
        have hflen : s1.heap.length < f := by
          simp only [hs1]
          omega
        obtain ⟨s', lr, r1, r2, r3, r4, r5, r6, r7, r8, r9⟩ :=
          ih hQWF1 hm1 hmin1 hflen
        refine ⟨s', lr, r1, r2, r3, r4, ?_, hlive_perm.trans r6, r7,
          fun e he => hlive_perm.mem_iff.mpr (r8 e he), r9⟩
        simp only [hs1] at r5
        omega
      · -- the least entry is live: it is `m`, and it is returned
        rw [if_neg hdead]
        have hm0live : m0 ∈ liveEntries s := mem_liveEntries.mpr ⟨hm0mem, hdead⟩
        have hkey_eq : entKey m = entKey m0 :=
          keyLe_antisymm (hmin m0 hm0live) (popMinH_min hpm m hheap)
        have hmm0 : m = m0 :=
          heap_counter_inj xOf keyOf h hheap hm0mem (congrArg Prod.snd hkey_eq)
        subst hmm0
        set k := keyOf m.2.2 with hk
        set s' : QState α κ :=
          { s with heap := rest, finder := aErase s.finder k } with hs'
        set lr : List (ℚ × Nat × α) :=
          rest.filter (fun e => decide (e.2.1 ∉ s.dead)) with hlr
        have hcnt_notin : m.2.1 ∉ rest.map (fun e => e.2.1) := by
          simp only [List.map_cons, List.nodup_cons] at hnd_cons
          exact hnd_cons.1
        have hlive_perm : (liveEntries s).Perm (m :: lr) := by
          have h1 : (liveEntries s).Perm
              ((m :: rest).filter (fun e => decide (e.2.1 ∉ s.dead))) :=
            hperm.filter _
          rw [List.filter_cons, if_pos (by simpa using hdead)] at h1
          exact h1
        obtain ⟨w1, w2, w3, w4, w5, w6, w7⟩ := h
        have hlrmem : ∀ e ∈ lr, e ∈ liveEntries s := by
          intro e he
          rw [hlr, List.mem_filter] at he
          exact mem_liveEntries.mpr
            ⟨hperm.symm.mem_iff.mp (List.mem_cons_of_mem _ he.1), by simpa using he.2⟩
        have hrest_ne : ∀ e ∈ rest, keyOf e.2.2 ≠ k → True := fun _ _ _ => trivial
        refine ⟨s', lr, rfl, rfl, rfl, rfl, by simp only [hs']; omega,
          hlive_perm, rfl, hlrmem, ?_⟩
        -- well-formedness of the popped state
        refine ⟨?_, ?_, ?_, ?_, ?_, ?_, w7⟩
        · simp only [List.map_cons, List.nodup_cons] at hnd_cons
          exact hnd_cons.2
        · exact ((aErase_sublist _ _).map Prod.fst).nodup w2
        · exact ((aErase_sublist _ _).map Prod.snd).nodup w3
        · exact fun e he => w4 e (hperm.symm.mem_iff.mp (List.mem_cons_of_mem _ he))
        · intro kc hkc
          have hkc' : kc ∈ s.finder := (aErase_sublist _ _).mem hkc
          obtain ⟨e, he, hec, hek, hed⟩ := w5 kc hkc'
          have hne : kc.1 ≠ k := ne_of_mem_aErase w2 hkc
          rcases List.mem_cons.mp (hperm.mem_iff.mp he) with rfl | he'
          · exact absurd (hek.symm.trans hk.symm) hne
          · exact ⟨e, he', hec, hek, hed⟩
        · intro e he hed
          have heheap : e ∈ s.heap := hperm.symm.mem_iff.mp (List.mem_cons_of_mem _ he)
          have hf := w6 e heheap hed
          refine mem_aErase_of_ne ?_ hf
          intro hkk
          -- if the key matched, the counters would clash with the popped entry
          have hmf : (k, m.2.1) ∈ s.finder := w6 m hheap hdead
          have : (keyOf e.2.2, e.2.1) = (k, m.2.1) :=
            List.inj_on_of_nodup_map w2 hf hmf (by simpa using hkk)
          have hce : e.2.1 = m.2.1 := congrArg Prod.snd this
          exact hcnt_notin (hce ▸ List.mem_map_of_mem _ he)

/-- Core behaviour of `top` on a well-formed state with at least one live
entry: the least live item is returned and reinserted with a fresh counter
(the Python pop-then-reinsert), leaving the same live items but a renewed
entry for the returned one. -/
theorem topQF_live {s : QState α κ} (h : QWF xOf keyOf s) {m : ℚ × Nat × α}
    (hm : m ∈ liveEntries s)
    (hmin : ∀ e ∈ liveEntries s, keyLe (entKey m) (entKey e)) :
    ∀ fuel, s.heap.length < fuel →
    ∃ s' lr, topQF xOf keyOf fuel s = (some m.2.2, s') ∧
      (liveEntries s).Perm (m :: lr) ∧
      liveEntries s' = (xOf m.2.2, s.counter + 1, m.2.2) :: lr ∧
      (∀ e ∈ lr, e ∈ liveEntries s) ∧
      QWF xOf keyOf s' := by
  intro fuel
  induction fuel generalizing s with
  | zero => omega
  | succ f ih =>
    intro hfuel
    have hheap : m ∈ s.heap := (mem_liveEntries.mp hm).1
    cases hpm : popMinH s.heap with
    | none =>
      rw [popMinH_eq_none.mp hpm] at hheap
      cases hheap
    | some p =>
      obtain ⟨m0, rest⟩ := p
      have hperm := popMinH_perm hpm
      have hm0mem : m0 ∈ s.heap := hperm.symm.mem_iff.mp (List.mem_cons_self _ _)
      have hlen : rest.length + 1 = s.heap.length := popMinH_length hpm
      have hnd_cons : ((m0 :: rest).map (fun e => e.2.1)).Nodup :=
        ((hperm.map _).nodup_iff).mp h.1
      simp only [topQF]
      rw [hpm]
      dsimp only
      by_cases hdead : m0.2.1 ∈ s.dead
      · -- skip the tombstone
        rw [if_pos hdead]
        set s1 : QState α κ := { s with heap := rest } with hs1
        have hlive_perm : (liveEntries s).Perm (liveEntries s1) := by
          have h1 : (liveEntries s).Perm
              ((m0 :: rest).filter (fun e => decide (e.2.1 ∉ s.dead))) :=
            hperm.filter _
          rw [List.filter_cons, if_neg (by simpa using hdead)] at h1
          exact h1
        have hQWF1 : QWF xOf keyOf s1 := by
          obtain ⟨w1, w2, w3, w4, w5, w6, w7⟩ := h
          refine ⟨?_, w2, w3, ?_, ?_, ?_, w7⟩
          · simp only [List.map_cons, List.nodup_cons] at hnd_cons
            exact hnd_cons.2
          · exact fun e he => w4 e (hperm.symm.mem_iff.mp (List.mem_cons_of_mem _ he))
          · intro kc hkc
            obtain ⟨e, he, hec, hek, hed⟩ := w5 kc hkc
            rcases List.mem_cons.mp (hperm.mem_iff.mp he) with rfl | he'
            · exact absurd (hec ▸ hdead) hed
            · exact ⟨e, he', hec, hek, hed⟩
          · intro e he hed
            exact w6 e (hperm.symm.mem_iff.mp (List.mem_cons_of_mem _ he)) hed
        have hm1 : m ∈ liveEntries s1 := hlive_perm.mem_iff.mp hm
        have hmin1 : ∀ e ∈ liveEntries s1, keyLe (entKey m) (entKey e) :=
          fun e he => hmin e (hlive_perm.mem_iff.mpr he)
        have hflen : s1.heap.length < f := by
          simp only [hs1]
          omega
        obtain ⟨s', lr, r1, r2, r3, r4, r5⟩ := ih hQWF1 hm1 hmin1 hflen
        exact ⟨s', lr, r1, hlive_perm.trans r2, r3,
          fun e he => hlive_perm.mem_iff.mpr (r4 e he), r5⟩
      · -- the least entry is live: it is `m`; pop it and push it back
        rw [if_neg hdead]
        have hm0live : m0 ∈ liveEntries s := mem_liveEntries.mpr ⟨hm0mem, hdead⟩
        have hkey_eq : entKey m = entKey m0 :=
          keyLe_antisymm (hmin m0 hm0live) (popMinH_min hpm m hheap)
        have hmm0 : m = m0 :=
          heap_counter_inj xOf keyOf h hheap hm0mem (congrArg Prod.snd hkey_eq)
        subst hmm0
        obtain ⟨w1, w2, w3, w4, w5, w6, w7⟩ := h
        set k := keyOf m.2.2 with hk
        have hcnt_notin : m.2.1 ∉ rest.map (fun e => e.2.1) := by
          simp only [List.map_cons, List.nodup_cons] at hnd_cons
          exact hnd_cons.1
        have hmf : (k, m.2.1) ∈ s.finder := w6 m hheap hdead
        have hfind : aFind s.finder k = some m.2.1 := (aFind_eq_some_iff_mem w2).mpr hmf
        set sMid : QState α κ := { s with heap := rest } with hsMid
        have hpush := pushQ_eq_replace xOf keyOf (s := sMid) m.2.2 (c := m.2.1) hfind
        rw [hpush]
        set lr : List (ℚ × Nat × α) :=
          rest.filter (fun e => decide (e.2.1 ∉ s.dead)) with hlr
        have hlive_perm : (liveEntries s).Perm (m :: lr) := by
          have h1 : (liveEntries s).Perm
              ((m :: rest).filter (fun e => decide (e.2.1 ∉ s.dead))) :=
            hperm.filter _
          rw [List.filter_cons, if_pos (by simpa using hdead)] at h1
          exact h1
        have hlrmem : ∀ e ∈ lr, e ∈ liveEntries s := by
          intro e he
          rw [hlr, List.mem_filter] at he
          exact mem_liveEntries.mpr
            ⟨hperm.symm.mem_iff.mp (List.mem_cons_of_mem _ he.1), by simpa using he.2⟩
        have hmcnt : m.2.1 ≤ s.counter := (w4 m hheap).2
        refine ⟨_, lr, rfl, hlive_perm, ?_, hlrmem, ?_⟩
        · -- the live entries of the reinserted state
          unfold liveEntries
          simp only [List.filter_cons]
          have hcond : decide ((s.counter + 1) ∉ (m.2.1 :: s.dead)) = true := by
            simp only [decide_eq_true_eq, List.mem_cons]
            push_neg
            constructor
            · omega
            · intro hd
              have := w7 _ hd
              omega
          rw [if_pos hcond]
          simp only [List.cons.injEq, true_and]
          rw [hlr]
          apply List.filter_congr
          intro e he
          have hne : e.2.1 ≠ m.2.1 := by
            intro hce
            exact hcnt_notin (hce ▸ List.mem_map_of_mem _ he)
          simp only [List.mem_cons, decide_eq_true_eq]
          rw [Bool.eq_iff_iff]
          simp only [decide_eq_true_eq]
          constructor
          · intro hn
            exact fun hd => hn (Or.inr hd)
          · intro hn
            rintro (hc | hd)
            · exact hne hc
            · exact hn hd
        · -- well-formedness of the reinserted state
          have hQWFR : QWF xOf keyOf (⟨rest, m.2.1 :: s.dead,
              aErase s.finder k, s.counter⟩ : QState α κ) := by
            refine ⟨?_, ?_, ?_, ?_, ?_, ?_, ?_⟩
            · simp only [List.map_cons, List.nodup_cons] at hnd_cons
              exact hnd_cons.2
            · exact ((aErase_sublist _ _).map Prod.fst).nodup w2
            · exact ((aErase_sublist _ _).map Prod.snd).nodup w3
            · exact fun e he => w4 e (hperm.symm.mem_iff.mp (List.mem_cons_of_mem _ he))
            · intro kc hkc
              have hkc2 : kc ∈ s.finder := (aErase_sublist _ _).mem hkc
              obtain ⟨e, he, hec, hek, hed⟩ := w5 kc hkc2
              have hne : kc.1 ≠ k := ne_of_mem_aErase w2 hkc
              rcases List.mem_cons.mp (hperm.mem_iff.mp he) with rfl | he'
              · exact absurd (hek.symm.trans hk.symm) hne
              · refine ⟨e, he', hec, hek, ?_⟩
                simp only [List.mem_cons]
                rintro (hc | hd)
                · have hmm : e.2.1 ∈ rest.map (fun e => e.2.1) :=
                    List.mem_map_of_mem _ he'
                  rw [hec, hc] at hmm
                  exact hcnt_notin hmm
                · exact hed hd
            · intro e he hed
              simp only [List.mem_cons] at hed
              push_neg at hed
              have hf := w6 e (hperm.symm.mem_iff.mp (List.mem_cons_of_mem _ he)) hed.2
              refine mem_aErase_of_ne ?_ hf
              intro hkk
              have hpair : (keyOf e.2.2, e.2.1) = (k, m.2.1) :=
                List.inj_on_of_nodup_map w2 hf hmf (by simpa using hkk)
              exact hed.1 (congrArg Prod.snd hpair)
            · intro d hd
              rcases List.mem_cons.mp hd with rfl | hd'
              · exact hmcnt
              · exact w7 d hd'
          have := QWF_push_shape xOf keyOf hQWFR m.2.2
            (aFind_aErase_self w2 k)
          exact this

/-- Wrapper: `pop` on a well-formed state with a least live entry. -/
theorem popQ_live {s : QState α κ} (h : QWF xOf keyOf s) {m : ℚ × Nat × α}
    (hm : m ∈ liveEntries s)
    (hmin : ∀ e ∈ liveEntries s, keyLe (entKey m) (entKey e)) :
    ∃ s' lr, popQ keyOf s = (some m.2.2, s') ∧
      s'.finder = aErase s.finder (keyOf m.2.2) ∧
      s'.dead = s.dead ∧ s'.counter = s.counter ∧
      s'.heap.length < s.heap.length ∧
      (liveEntries s).Perm (m :: lr) ∧ liveEntries s' = lr ∧
      (∀ e ∈ lr, e ∈ liveEntries s) ∧
      QWF xOf keyOf s' :=
  popQF_live xOf keyOf h hm hmin (s.heap.length + 1) (Nat.lt_succ_self _)

/-- Wrapper: `top` on a well-formed state with a least live entry. -/
theorem topQ_live {s : QState α κ} (h : QWF xOf keyOf s) {m : ℚ × Nat × α}
    (hm : m ∈ liveEntries s)
    (hmin : ∀ e ∈ liveEntries s, keyLe (entKey m) (entKey e)) :
    ∃ s' lr, topQ xOf keyOf s = (some m.2.2, s') ∧
      (liveEntries s).Perm (m :: lr) ∧
      liveEntries s' = (xOf m.2.2, s.counter + 1, m.2.2) :: lr ∧
      (∀ e ∈ lr, e ∈ liveEntries s) ∧
      QWF xOf keyOf s' :=
  topQF_live xOf keyOf h hm hmin (s.heap.length + 1) (Nat.lt_succ_self _)

theorem popQ_heap_nil {s : QState α κ} (h : s.heap = []) :
    popQ keyOf s = (none, s) := by
  obtain ⟨hp, dd, fd, ct⟩ := s
  simp only at h
  subst h
  rfl

/-- `pop` never grows the heap, and shrinks it when it returns an item. -/
theorem popQF_heap_shrink (fuel : Nat) (s : QState α κ) :
    (popQF keyOf fuel s).2.heap.length ≤ s.heap.length ∧
      ((popQF keyOf fuel s).1.isSome →
        (popQF keyOf fuel s).2.heap.length < s.heap.length) := by
  induction fuel generalizing s with
  | zero => exact ⟨le_refl _, by intro h; simp [popQF] at h⟩
  | succ f ih =>
    simp only [popQF]
    cases hpm : popMinH s.heap with
    | none => exact ⟨le_refl _, by intro h; simp at h⟩
    | some p =>
      obtain ⟨m, rest⟩ := p
      have hlen : rest.length + 1 = s.heap.length := popMinH_length hpm
      dsimp only
      by_cases hdead : m.2.1 ∈ s.dead
      · rw [if_pos hdead]
        obtain ⟨h1, h2⟩ := ih { s with heap := rest }
        constructor
        · simp only at h1
          omega
        · intro h
          have := h2 h
          simp only at this
          omega
      · rw [if_neg hdead]
        exact ⟨by simp only; omega, fun _ => by simp only; omega⟩

theorem popQ_heap_shrink_of_some {s : QState α κ} {a : α} {s' : QState α κ}
    (h : popQ keyOf s = (some a, s')) : s'.heap.length < s.heap.length := by
  have := (popQF_heap_shrink keyOf (s.heap.length + 1) s).2
  rw [popQ] at h
  rw [h] at this
  exact this (by simp)

/-- With enough fuel, `pop` does not depend on the fuel. -/
theorem popQF_fuel_irrel (f1 f2 : Nat) (s : QState α κ)
    (h1 : s.heap.length < f1) (h2 : s.heap.length < f2) :
    popQF keyOf f1 s = popQF keyOf f2 s := by
  induction f1 generalizing f2 s with
  | zero => omega
  | succ a ih =>
    cases f2 with
    | zero => omega
    | succ b =>
      simp only [popQF]
      cases hpm : popMinH s.heap with
      | none => rfl
      | some p =>
        obtain ⟨m, rest⟩ := p
        have hlen : rest.length + 1 = s.heap.length := popMinH_length hpm
        dsimp only
        by_cases hdead : m.2.1 ∈ s.dead
        · rw [if_pos hdead, if_pos hdead]
          exact ih b { s with heap := rest } (by simp only; omega) (by simp only; omega)
        · rw [if_neg hdead, if_neg hdead]

/-- With enough fuel, draining the queue does not depend on the fuel. -/
theorem popAllF_fuel_irrel (f1 f2 : Nat) (s : QState α κ)
    (h1 : s.heap.length ≤ f1) (h2 : s.heap.length ≤ f2) :
    popAllF keyOf f1 s = popAllF keyOf f2 s := by
  induction f1 generalizing f2 s with
  | zero =>
    have hnil : s.heap = [] := List.length_eq_zero.mp (Nat.le_zero.mp h1)
    have hpop : popQ keyOf s = (none, s) := popQ_heap_nil keyOf hnil
    cases f2 with
    | zero => rfl
    | succ b =>
      simp only [popAllF, hpop]
  | succ a ih =>
    cases f2 with
    | zero =>
      have hnil : s.heap = [] := List.length_eq_zero.mp (Nat.le_zero.mp h2)
      have hpop : popQ keyOf s = (none, s) := popQ_heap_nil keyOf hnil
      simp only [popAllF, hpop]
    | succ b =>
      simp only [popAllF]
      cases hpop : popQ keyOf s with
      | mk o s' =>
        cases o with
        | none => rfl
        | some x =>
          dsimp only
          have hlt := popQ_heap_shrink_of_some keyOf hpop
          exact congrArg (x :: ·) (ih b s' (by omega) (by omega))

/-- Draining a queue whose entries are all tombstoned yields nothing. -/
theorem popAllQ_of_dead {s : QState α κ}
    (hs : ∀ e ∈ s.heap, e.2.1 ∈ s.dead) : popAllQ keyOf s = [] := by
  unfold popAllQ
  cases hl : s.heap.length with
  | zero => rfl
  | succ n =>
    simp only [popAllF]
    have := popQF_all_dead keyOf (s.heap.length + 1) hs
    cases hpop : popQ keyOf s with
    | mk o s' =>
      rw [popQ] at hpop
      rw [hpop] at this
      simp only at this
      subst this
      rfl

/-- One observable pop step of the drain. -/
theorem popAllQ_step {s : QState α κ} {a : α} {s' : QState α κ}
    (hpop : popQ keyOf s = (some a, s')) :
    popAllQ keyOf s = a :: popAllQ keyOf s' := by
  have hlt := popQ_heap_shrink_of_some keyOf hpop
  unfold popAllQ
  cases hl : s.heap.length with
  | zero =>
    have hnil : s.heap = [] := List.length_eq_zero.mp hl
    rw [popQ_heap_nil keyOf hnil] at hpop
    simp at hpop
  | succ n =>
    simp only [popAllF, hpop]
    exact congrArg (a :: ·) (popAllF_fuel_irrel keyOf n s'.heap.length s' (by omega) (le_refl _))

/-- Draining a well-formed queue returns exactly the live items (as a
multiset). -/
theorem popAllQ_perm {s : QState α κ} (h : QWF xOf keyOf s) :
    (popAllQ keyOf s).Perm (liveItems s) := by
  generalize hn : s.heap.length = n
  induction n using Nat.strong_induction_on generalizing s with
  | _ n ih =>
    by_cases hl : liveEntries s = []
    · rw [popAllQ_of_dead keyOf (liveEntries_eq_nil_iff.mp hl)]
      rw [liveItems, hl]
      rfl
    · obtain ⟨m, hm, hmin⟩ := exists_min_live hl
      obtain ⟨s', lr, r1, r2, r3, r4, r5, r6, r7, r8, r9⟩ := popQ_live xOf keyOf h hm hmin
      rw [popAllQ_step keyOf r1]
      have hih := ih s'.heap.length (by omega) r9 rfl
      have hih2 : (popAllQ keyOf s').Perm (lr.map (fun e => e.2.2)) := by
        rw [liveItems, r7] at hih
        exact hih
      have hmain : (m.2.2 :: popAllQ keyOf s').Perm
          ((m :: lr).map (fun e => e.2.2)) := by
        simpa using hih2.cons m.2.2
      exact hmain.trans ((r6.map (fun e => e.2.2)).symm)

/-- Draining depends only on the live entries (as a multiset), for
well-formed states. -/
theorem popAllQ_congr {s t : QState α κ} (hs : QWF xOf keyOf s)
    (ht : QWF xOf keyOf t) (hp : (liveEntries s).Perm (liveEntries t)) :
    popAllQ keyOf s = popAllQ keyOf t := by
  generalize hn : (liveEntries s).length = n
  induction n using Nat.strong_induction_on generalizing s t with
  | _ n ih =>
    by_cases hl : liveEntries s = []
    · have hlt : liveEntries t = [] := by
        have := hp.length_eq
        rw [hl] at this
        exact List.length_eq_zero.mp this.symm
      rw [popAllQ_of_dead keyOf (liveEntries_eq_nil_iff.mp hl),
        popAllQ_of_dead keyOf (liveEntries_eq_nil_iff.mp hlt)]
    · obtain ⟨m, hm, hmin⟩ := exists_min_live hl
      have hmt : m ∈ liveEntries t := hp.mem_iff.mp hm
      have hmint : ∀ e ∈ liveEntries t, keyLe (entKey m) (entKey e) :=
        fun e he => hmin e (hp.mem_iff.mpr he)
      obtain ⟨s', lrs, a1, a2, a3, a4, a5, a6, a7, a8, a9⟩ :=
        popQ_live xOf keyOf hs hm hmin
      obtain ⟨t', lrt, b1, b2, b3, b4, b5, b6, b7, b8, b9⟩ :=
        popQ_live xOf keyOf ht hmt hmint
      rw [popAllQ_step keyOf a1, popAllQ_step keyOf b1]
      have hlr : lrs.Perm lrt := by
        have h1 : (m :: lrs).Perm (m :: lrt) := a6.symm.trans (hp.trans b6)
        exact (List.perm_cons m).mp h1
      have hlive : (liveEntries s').Perm (liveEntries t') := by
        rw [a7, b7]
        exact hlr
      have hlen2 : (liveEntries s').length < n := by
        rw [a7]
        have := a6.length_eq
        simp only [List.length_cons] at this
        omega
      exact congrArg (m.2.2 :: ·) (ih _ hlen2 a9 b9 hlive rfl)

theorem liveEntries_counters_nodup {s : QState α κ} (h : QWF xOf keyOf s) :
    ((liveEntries s).map (fun e => e.2.1)).Nodup :=
  ((liveEntries_sublist s).map _).nodup h.1

/-- Claim C3 (amended): on a well-formed (reachable) queue state, `top` returns
the same item `pop` would return, and it preserves the live items as a
multiset; if no other live entry shares the returned item's priority `x`,
the sequence of items produced by draining the queue afterwards is exactly
the sequence obtained without the `top` call.  (On ties the reinsertion
gives the topped item a fresh, larger counter, so FIFO order among equal
`x` is not preserved; see the counterexample.) -/
theorem topQ_amended_spec {s : QState α κ} (h : QWF xOf keyOf s) {a : α}
    {s' : QState α κ} (ht : topQ xOf keyOf s = (some a, s')) :
    (popQ keyOf s).1 = some a ∧
    (liveItems s').Perm (liveItems s) ∧
    ((∀ e ∈ liveEntries s, e.1 = xOf a → e.2.2 = a) →
      popAllQ keyOf s' = popAllQ keyOf s) := by
  have hlive : liveEntries s ≠ [] := by
    intro hl
    have := topQF_all_dead xOf keyOf (s.heap.length + 1) (liveEntries_eq_nil_iff.mp hl)
    rw [topQ] at ht
    rw [ht] at this
    simp at this
  obtain ⟨m, hm, hmin⟩ := exists_min_live hlive
  obtain ⟨s0, lr, t1, t2, t3, t4, t5⟩ := topQ_live xOf keyOf h hm hmin
  rw [ht] at t1
  have ha : a = m.2.2 := by
    have h1 := congrArg Prod.fst t1
    simpa using h1
  have hs' : s' = s0 := by
    have h1 := congrArg Prod.snd t1
    simpa using h1
  subst ha
  subst hs'
  obtain ⟨s2, lr2, p1, p2, p3, p4, p5, p6, p7, p8, p9⟩ := popQ_live xOf keyOf h hm hmin
  have hmx : m.1 = xOf m.2.2 := ((h.2.2.2.1) m (mem_liveEntries.mp hm).1).1
  refine ⟨by rw [p1], ?_, ?_⟩
  · rw [liveItems, liveItems, t3]
    have h1 : ((xOf m.2.2, s.counter + 1, m.2.2) :: lr).map (fun e => e.2.2) =
        (m :: lr).map (fun e => e.2.2) := by
      simp
    rw [h1]
    exact (t2.map (fun e => e.2.2)).symm
  · intro hno
    have hmnotlr : m ∉ lr :=
      notMem_of_perm_cons (liveEntries_counters_nodup xOf keyOf h) t2
    -- the reinserted entry is the strict minimum of the new state
    have hminnew : ∀ e ∈ liveEntries s',
        keyLe (entKey (xOf m.2.2, s.counter + 1, m.2.2)) (entKey e) := by
      intro e he
      rw [t3] at he
      rcases List.mem_cons.mp he with rfl | he'
      · exact keyLe_refl _
      · have hes : e ∈ liveEntries s := t4 e he'
        have hle := hmin e hes
        rcases hle with hlt | ⟨heq, _⟩
        · exact Or.inl (by rw [entKey, entKey] at *; simpa [hmx] using hlt)
        · -- equal x would force e to be the topped entry itself
          exfalso
          have hex : e.1 = xOf m.2.2 := by rw [entKey] at heq; simpa [hmx] using heq.symm
          have := hno e hes hex
          have hkeq : keyOf e.2.2 = keyOf m.2.2 := by rw [this]
          have := liveEntries_key_inj xOf keyOf h hes hm hkeq
          subst this
          exact hmnotlr he'
    have hmemnew : (xOf m.2.2, s.counter + 1, m.2.2) ∈ liveEntries s' := by
      rw [t3]
      exact List.mem_cons_self _ _
    obtain ⟨s3, lr3, q1, q2, q3, q4, q5, q6, q7, q8, q9⟩ :=
      popQ_live xOf keyOf t5 hmemnew hminnew
    have hstep0 : popAllQ keyOf s' = m.2.2 :: popAllQ keyOf s3 := popAllQ_step keyOf q1
    have hstep : popAllQ keyOf s = m.2.2 :: popAllQ keyOf s2 := popAllQ_step keyOf p1
    rw [hstep0, hstep]
    -- the two remainders hold the same live entries
    have hlr3 : lr3.Perm lr := by
      rw [t3] at q6
      exact ((List.perm_cons _).mp q6).symm
    have hlr2 : lr.Perm lr2 := by
      have h1 : (m :: lr).Perm (m :: lr2) := t2.symm.trans p6
      exact (List.perm_cons m).mp h1
    have : (liveEntries s3).Perm (liveEntries s2) := by
      rw [q7, p7]
      exact hlr3.trans hlr2
    exact congrArg (m.2.2 :: ·) (popAllQ_congr xOf keyOf q9 p9 this)

/-- Claim C4: pushing an item whose logical key is already bound in a
well-formed (reachable) queue replaces the stale entry rather than
duplicating it: draining the queue afterwards yields exactly one item with
that key.  (Instantiated at `Point` items this is why duplicate input sites
collapse to a single processed site event.) -/
theorem pushQ_replace_spec {s : QState α κ} (h : QWF xOf keyOf s) (it : α)
    (c : Nat) (hf : aFind s.finder (keyOf it) = some c) :
    (popAllQ keyOf (pushQ xOf keyOf it s)).countP
      (fun b => decide (keyOf b = keyOf it)) = 1 := by
  have hperm := popAllQ_perm xOf keyOf (QWF_pushQ xOf keyOf h it)
  rw [hperm.countP_eq]
  rw [liveItems, liveEntries_pushQ_replace xOf keyOf h it hf, List.map_cons]
  rw [List.countP_cons_of_pos _ _ (by simp)]
  have hzero : (((liveEntries s).filter (fun e => decide (e.2.1 ≠ c))).map
      (fun e => e.2.2)).countP (fun b => decide (keyOf b = keyOf it)) = 0 := by
    rw [List.countP_eq_zero]
    intro b hb
    obtain ⟨e, he, rfl⟩ := List.mem_map.mp hb
    rw [List.mem_filter] at he
    simp only [decide_eq_true_eq] at he ⊢
    intro hkey
    have hef : (keyOf it, e.2.1) ∈ s.finder := by
      have := h.2.2.2.2.2.1 e (mem_liveEntries.mp he.1).1 (mem_liveEntries.mp he.1).2
      rw [hkey] at this
      exact this
    have hcf : (keyOf it, c) ∈ s.finder := (aFind_eq_some_iff_mem h.2.1).mp hf
    have hp := List.inj_on_of_nodup_map h.2.1 hef hcf rfl
    exact he.2 (congrArg Prod.snd hp)
  omega

/-- Claim C10: `pop` and `top` on a queue holding no live items (empty, or
containing only removed/tombstoned entries) return `None` rather than
raising an exception. -/
theorem pop_top_none_spec (s : QState α κ) (hl : liveEntries s = []) :
    (popQ keyOf s).1 = none ∧ (topQ xOf keyOf s).1 = none :=
  ⟨popQF_all_dead keyOf _ (liveEntries_eq_nil_iff.mp hl),
    topQF_all_dead xOf keyOf _ (liveEntries_eq_nil_iff.mp hl)⟩

end QLemmas

/-- Queue state for the C3 counterexample: two points with equal priority
`x = 1` pushed in order. -/
def c3state : QState Point Point :=
  pushQ Point.x id (Point.mk 1 2) (pushQ Point.x id (Point.mk 1 1) initQ)

/-- Claim C3, counterexample: on the reachable state holding `(1,1)` then
`(1,2)` (both with priority `x = 1`), `top` returns the minimum item
`(1,1)`, but draining afterwards yields `[(1,2), (1,1)]` instead of the
original FIFO order `[(1,1), (1,2)]`: the pop-then-reinsert of `top` gives
the topped item a fresh counter, so the queue is not left intact on ties. -/
theorem C3_counterexample :
    QWF Point.x id c3state ∧
    (topQ Point.x id c3state).1 = some (Point.mk 1 1) ∧
    popAllQ id c3state = [Point.mk 1 1, Point.mk 1 2] ∧
    popAllQ id (topQ Point.x id c3state).2 = [Point.mk 1 2, Point.mk 1 1] :=
  ⟨by decide, by decide, by decide, by decide⟩

/-- Queue state for the C3 witness: two points with distinct priorities. -/
def c3wstate : QState Point Point :=
  pushQ Point.x id (Point.mk 2 2) (pushQ Point.x id (Point.mk 1 1) initQ)

/-- Claim C3, witness: at a concrete two-item state with distinct
priorities, `top` returns what `pop` would, preserves the live items, and
the drain sequence is unchanged. -/
theorem C3_witness :
    (QWF Point.x id c3wstate ∧
      topQ Point.x id c3wstate = (some (Point.mk 1 1), (topQ Point.x id c3wstate).2)) ∧
    ((popQ id c3wstate).1 = some (Point.mk 1 1) ∧
      (liveItems (topQ Point.x id c3wstate).2).Perm (liveItems c3wstate) ∧
      popAllQ id (topQ Point.x id c3wstate).2 = popAllQ id c3wstate) := by
  refine ⟨⟨by decide, by decide⟩, ?_⟩
  obtain ⟨h1, h2, h3⟩ := topQ_amended_spec Point.x id
    (by decide : QWF Point.x id c3wstate)
    (by decide : topQ Point.x id c3wstate =
      (some (Point.mk 1 1), (topQ Point.x id c3wstate).2))
  exact ⟨h1, h2, h3 (by decide)⟩

/-- Queue state for the C4 witness: one point pushed once. -/
def c4state : QState Point Point := pushQ Point.x id (Point.mk 1 1) initQ

/-- Claim C4, witness: pushing `(1,1)` into a queue already holding `(1,1)`
leaves exactly one `(1,1)` in the drained output. -/
theorem C4_witness :
    (QWF Point.x id c4state ∧ aFind c4state.finder (Point.mk 1 1) = some 1) ∧
    (popAllQ id (pushQ Point.x id (Point.mk 1 1) c4state)).countP
      (fun b => decide (id b = id (Point.mk 1 1))) = 1 := by
  refine ⟨⟨by decide, by decide⟩, ?_⟩
  exact pushQ_replace_spec Point.x id (by decide) (Point.mk 1 1) 1 (by decide)

/-- Queue state for the C10 witness: one tombstoned entry, nothing live. -/
def c10state : QState Point Point := ⟨[(1, 1, Point.mk 1 1)], [1], [], 1⟩

/-- Claim C10, witness: on a queue whose only entry is tombstoned, both
`pop` and `top` return `None`. -/
theorem C10_witness :
    liveEntries c10state = [] ∧
    ((popQ id c10state).1 = none ∧ (topQ Point.x id c10state).1 = none) :=
  ⟨by decide, pop_top_none_spec Point.x id c10state (by decide)⟩

/-! ## `line_segment.py`, `parabolic_arc.py`, `event.py`: the data model -/

/-- `line_segment.py`: a diagram edge; `finish` is idempotent
(first-writer-wins). -/
structure Seg where
  start : Point
  endP : Option Point
  done : Bool
deriving DecidableEq, Repr

/-- `LineSegment.finish` (lines 12-17). -/
def Seg.finish (s : Seg) (p : Point) : Seg :=
  if s.done then s else { s with endP := some p, done := true }

/-- `parabolic_arc.py`: a beachline arc.  Arcs are mutable, aliased Python
objects; here they live in the engine's arena (`VS.arcs`) and all
references (`pprev`, `pnext`, the segment fields and the event field) are
indices into the respective arenas. -/
structure Arc where
  p : Point
  pprev : Option Nat
  pnext : Option Nat
  e : Option Nat
  s0 : Option Nat
  s1 : Option Nat
deriving DecidableEq, Repr

/-- `event.py`: a circle event.  `x`, `p` and `a` are set at construction
and never reassigned; `valid` is the lazy-cancellation flag.  Events are
aliased (queue plus `Arc.e`), so they live in the arena `VS.evs`. -/
structure EvRec where
  x : ℚ
  p : Point
  a : Nat
  valid : Bool
deriving DecidableEq, Repr

/-- One recorded largest-empty-circle: `(center, radius, defining sites)`. -/
abbrev CircleRec := Point × ℚ × (Point × Point × Point)

/-- `voronoi.py`: the sweep-engine state (`Voronoi.__init__` attributes).
`output` holds segment-arena indices in append order. -/
structure VS where
  output : List Nat
  segs : List Seg
  arcs : List Arc
  parabolicArc : Option Nat
  points : QState Point Point
  events : QState (ℚ × Point × Nat) (ℚ × Point)
  evs : List EvRec
  largest : List CircleRec
  max_circle_radius : ℚ
  x0 : ℚ
  y0 : ℚ
  x1 : ℚ
  y1 : ℚ
deriving DecidableEq, Repr

/-- Priority of a site item: `Point.x`. -/
def pX : Point → ℚ := Point.x

/-- Logical identity of a site item: the (rounded) point itself. -/
def pKey : Point → Point := fun p => p

/-- Priority of a circle-event item `(x, p, id)`: its `x`. -/
def evX : ℚ × Point × Nat → ℚ := fun e => e.1

/-- Logical identity of a circle-event item: `(x, p)`
(`Event.__eq__` / `Event.__hash__`). -/
def evKey : ℚ × Point × Nat → ℚ × Point := fun e => (e.1, e.2.1)

/-- Attribute assignment on an arena arc (`obj.field = v` in Python). -/
def modArc (arcs : List Arc) (i : Nat) (f : Arc → Arc) : List Arc :=
  match arcs[i]? with
  | some a => arcs.set i (f a)
  | none => arcs

/-- Attribute assignment on an arena segment. -/
def modSeg (segs : List Seg) (i : Nat) (f : Seg → Seg) : List Seg :=
  match segs[i]? with
  | some s => segs.set i (f s)
  | none => segs

/-- Attribute assignment on an arena event. -/
def modEv (evs : List EvRec) (i : Nat) (f : EvRec → EvRec) : List EvRec :=
  match evs[i]? with
  | some v => evs.set i (f v)
  | none => evs

/-! ## `voronoi.py`: geometry primitives -/

/-- The cross product tested at `voronoi.py:60`. -/
def crossABC (a b c : Point) : ℚ :=
  (b.x - a.x) * (c.y - a.y) - (c.x - a.x) * (b.y - a.y)

/-- The determinant `G` computed at `voronoi.py:70`. -/
def Gval (a b c : Point) : ℚ :=
  2 * ((b.x - a.x) * (c.y - b.y) - (b.y - a.y) * (c.x - b.x))

/-- The raw circumcentre data computed by `_check_circle`: unrounded centre
coordinates and the radicand of line 81 (the squared circumradius). -/
structure CircleData where
  ox : ℚ
  oy : ℚ
  r2 : ℚ
deriving DecidableEq, Repr

/-- `_check_circle` (voronoi.py lines 57-83), up to the square root: reject
unless `b→c` is a right turn from `a→b` (cross ≤ 0) and the linear system
is non-singular (`G ≠ 0`); otherwise return the circumcentre and the
radicand `(a.x-ox)**2 + (a.y-oy)**2` of line 81. -/
def checkCircleData (a b c : Point) : Option CircleData :=
  if crossABC a b c > 0 then none
  else
    let A := b.x - a.x
    let B := b.y - a.y
    let C := c.x - a.x
    let D := c.y - a.y
    let E := A * (a.x + b.x) + B * (a.y + b.y)
    let F := C * (a.x + c.x) + D * (a.y + c.y)
    let G := Gval a b c
    if G = 0 then none
    else
      let ox := (D * E - B * F) / G
      let oy := (A * F - C * E) / G
      some ⟨ox, oy, (a.x - ox) ^ 2 + (a.y - oy) ^ 2⟩

/-- `_check_circle` final result `(x, o)`: the predicted event abscissa
`x = ox + sqrt(r2)` (line 81, under the square-root interpretation `sq`)
and the canonicalized event point `o = Point(ox, oy)` (line 78). -/
def checkCircle (sq : ℚ → ℚ) (a b c : Point) : Option (ℚ × Point) :=
  (checkCircleData a b c).map fun d => (d.ox + sq d.r2, Point.mk' d.ox d.oy)

/-- The largest-empty-circle bookkeeping of
`_check_potential_circle_event` (voronoi.py lines 113-120): same radius
within `EPSILON` appends, a strictly larger radius resets the list. -/
def updateLargestCircles (maxR : ℚ) (largest : List CircleRec) (o : Point)
    (radius : ℚ) (trip : Point × Point × Point) : ℚ × List CircleRec :=
  if |radius - maxR| < EPS then (maxR, largest ++ [(o, radius, trip)])
  else if radius > maxR then (radius, [(o, radius, trip)])
  else (maxR, largest)

/-- `_check_potential_circle_event` (voronoi.py lines 85-120).  The second
argument of the Python method is the sweep position `x0` (shadowing the box
bound; line 88 explicitly reads `self.x0`, line 97 the parameter). -/
def checkPotentialCircleEvent (sq : ℚ → ℚ) (st : VS) (iId : Nat) (x0ev : ℚ) : VS :=
  match st.arcs[iId]? with
  | none => st
  | some i =>
    -- lines 88-89: invalidate the old event unless its key x equals self.x0
    let st1 :=
      match i.e with
      | some eid =>
        match st.evs[eid]? with
        | some ev =>
          if ev.x ≠ st.x0 then
            { st with evs := modEv st.evs eid (fun v => { v with valid := false }) }
          else st
        | none => st
      | none => st
    -- line 90: `i.e = None`
    let st2 := { st1 with arcs := modArc st1.arcs iId (fun a => { a with e := none }) }
    -- lines 92-93: need both neighbours
    match i.pprev, i.pnext with
    | some prId, some nxId =>
      match st2.arcs[prId]?, st2.arcs[nxId]? with
      | some pa, some na =>
        -- line 96
        match checkCircleData pa.p i.p na.p with
        | none => st2
        | some d =>
          let x := d.ox + sq d.r2
          let o := Point.mk' d.ox d.oy
          if x > x0ev then
            -- lines 98-99: schedule the event, stash it on the arc
            let eid := st2.evs.length
            let st3 := { st2 with
              evs := st2.evs ++ [(⟨x, o, iId, true⟩ : EvRec)],
              arcs := modArc st2.arcs iId (fun a => { a with e := some eid }),
              events := pushQ evX evKey (x, o, eid) st2.events }
            -- line 102: radius from the rounded event point
            let radius := sq (distSq o i.p)
            -- lines 105-111: emptiness over the pending site schedule
            let isEmp := st3.points.finder.all fun kc =>
              decide (kc.1 = pa.p ∨ kc.1 = i.p ∨ kc.1 = na.p) ||
                ! decide (sq (distSq kc.1 o) < radius - EPS)
            if isEmp then
              let r := updateLargestCircles st3.max_circle_radius st3.largest o
                radius (pa.p, i.p, na.p)
              { st3 with max_circle_radius := r.1, largest := r.2 }
            else st3
          else st2
      | _, _ => st2
    | _, _ => st2

/-- `_find_intersection` (voronoi.py lines 178-201): intersection of the
parabolas with foci `p0`, `p1` and directrix `l`, with the degenerate
sub-cases of the source, under the square-root interpretation `sq`. -/
def findIntersection (sq : ℚ → ℚ) (p0 p1 : Point) (l : ℚ) : Point :=
  let pp : Point × ℚ :=
    if p0.x = p1.x then (p0, (p0.y + p1.y) / 2)
    else if p1.x = l then (p0, p1.y)
    else if p0.x = l then (p1, p0.y)
    else
      let z0 := 2 * (p0.x - l)
      let z1 := 2 * (p1.x - l)
      let a := 1 / z0 - 1 / z1
      let b := -2 * (p0.y / z0 - p1.y / z1)
      let c := (p0.y ^ 2 + p0.x ^ 2 - l ^ 2) / z0 - (p1.y ^ 2 + p1.x ^ 2 - l ^ 2) / z1
      (p0, (-b - sq (b * b - 4 * a * c)) / (2 * a))
  let p := pp.1
  let py := pp.2
  let px := (p.x ^ 2 + (p.y - py) ^ 2 - l ^ 2) / (2 * p.x - 2 * l)
  Point.mk' px py

/-- `_check_intersection` (voronoi.py lines 203-221): does the new parabola
at `p` intersect arc `i` within its breakpoint span?  Returns the
intersection point `z` on success. -/
def checkIntersection (sq : ℚ → ℚ) (p : Point) (iOpt : Option Nat) (st : VS) :
    Option Point :=
  match iOpt with
  | none => none
  | some iId =>
    match st.arcs[iId]? with
    | none => none
    | some i =>
      if p.x = i.p.x then none
      else
        let condA : Bool :=
          match i.pprev with
          | none => true
          | some prId =>
            match st.arcs[prId]? with
            | some pa => decide ((findIntersection sq pa.p i.p p.x).y ≤ p.y)
            | none => true
        let condB : Bool :=
          match i.pnext with
          | none => true
          | some nxId =>
            match st.arcs[nxId]? with
            | some na => decide (p.y ≤ (findIntersection sq i.p na.p p.x).y)
            | none => true
        if condA && condB then
          let py := p.y
          let px := (i.p.x ^ 2 + (i.p.y - py) ^ 2 - p.x ^ 2) / (2 * i.p.x - 2 * p.x)
          some (Point.mk' px py)
        else none

/-! ## `voronoi.py`: beachline mutations -/

/-- The site-event split (voronoi.py lines 133-160): found the spanning arc
`iId` with intersection point `z`; `flag2` is the line-134 test of whether
`p` also intersects `i.pnext`.  Duplicates the spanning arc, inserts the
new site's arc between, opens the two edges anchored at `z`, and
re-evaluates circle events for the trio. -/
def splitStep (sq : ℚ → ℚ) (st : VS) (iId : Nat) (p : Point) (z : Point)
    (flag2 : Bool) : VS :=
  match st.arcs[iId]? with
  | none => st
  | some ia =>
    let dupId := st.arcs.length
    -- lines 135-139
    let stA : VS :=
      match ia.pnext with
      | some oldNx =>
        if ¬ flag2 then
          let arcs1 := st.arcs ++ [⟨ia.p, some iId, some oldNx, none, none, none⟩]
          let arcs2 := modArc arcs1 oldNx (fun a => { a with pprev := some dupId })
          let arcs3 := modArc arcs2 iId (fun a => { a with pnext := some dupId })
          { st with arcs := arcs3 }
        else
          -- the old successor is dropped from the linked structure
          let arcs1 := st.arcs ++ [⟨ia.p, some iId, none, none, none, none⟩]
          let arcs2 := modArc arcs1 iId (fun a => { a with pnext := some dupId })
          { st with arcs := arcs2 }
      | none =>
        let arcs1 := st.arcs ++ [⟨ia.p, some iId, none, none, none, none⟩]
        let arcs2 := modArc arcs1 iId (fun a => { a with pnext := some dupId })
        { st with arcs := arcs2 }
    -- line 140: `i.pnext.s1 = i.s1`
    let stB := { stA with arcs := modArc stA.arcs dupId (fun a => { a with s1 := ia.s1 }) }
    -- lines 143-145: insert the new arc and step onto it
    let newId := stB.arcs.length
    let stC := { stB with arcs := stB.arcs ++ [(⟨p, some iId, some dupId, none, none, none⟩ : Arc)] }
    let stD := { stC with arcs := modArc stC.arcs dupId (fun a => { a with pprev := some newId }) }
    let stE := { stD with arcs := modArc stD.arcs iId (fun a => { a with pnext := some newId }) }
    -- lines 148-154: two edges anchored at z
    let s1id := stE.segs.length
    let stF := { stE with
      segs := stE.segs ++ [(⟨z, none, false⟩ : Seg)]
      output := stE.output ++ [s1id] }
    let stG := { stF with arcs := modArc stF.arcs iId (fun a => { a with s1 := some s1id }) }
    let stH := { stG with arcs := modArc stG.arcs newId (fun a => { a with s0 := some s1id }) }
    let s2id := stH.segs.length
    let stI := { stH with
      segs := stH.segs ++ [(⟨z, none, false⟩ : Seg)]
      output := stH.output ++ [s2id] }
    let stJ := { stI with arcs := modArc stI.arcs dupId (fun a => { a with s0 := some s2id }) }
    let stK := { stJ with arcs := modArc stJ.arcs newId (fun a => { a with s1 := some s2id }) }
    -- lines 156-159
    let stL := checkPotentialCircleEvent sq stK newId p.x
    let stM := checkPotentialCircleEvent sq stL iId p.x
    checkPotentialCircleEvent sq stM dupId p.x

/-- The tail append of a site event (voronoi.py lines 164-176): `p`
intersected no arc; append its arc after the tail `tailId` and open one
edge at the left boundary. -/
def appendStep (st : VS) (tailId : Nat) (p : Point) : VS :=
  match st.arcs[tailId]? with
  | none => st
  | some ta =>
    let newId := st.arcs.length
    let arcs1 := st.arcs ++ [⟨p, some tailId, none, none, none, none⟩]
    let arcs2 := modArc arcs1 tailId (fun a => { a with pnext := some newId })
    -- lines 171-176
    let y := (p.y + ta.p.y) / 2
    let start := Point.mk' st.x0 y
    let sid := st.segs.length
    let arcs3 := modArc arcs2 tailId (fun a => { a with s1 := some sid })
    let arcs4 := modArc arcs3 newId (fun a => { a with s0 := some sid })
    { st with
      arcs := arcs4
      segs := st.segs ++ [(⟨start, none, false⟩ : Seg)]
      output := st.output ++ [sid] }

/-- Walk to the beachline tail (`while i.pnext: i = i.pnext`). -/
def findTail (st : VS) : Nat → Nat → Nat
  | 0, i => i
  | fuel + 1, i =>
    match st.arcs[i]? with
    | none => i
    | some a =>
      match a.pnext with
      | none => i
      | some j => findTail st fuel j

/-- The arc-scanning loop of `_add_parabolic_parabolicArc`
(voronoi.py lines 129-162) plus the fall-through append (164-176). -/
def addArcWalk (sq : ℚ → ℚ) (p : Point) : Nat → Option Nat → VS → VS
  | 0, _, st => st
  | fuel + 1, iOpt, st =>
    match iOpt with
    | none =>
      match st.parabolicArc with
      | none => st
      | some h => appendStep st (findTail st (st.arcs.length + 1) h) p
    | some iId =>
      match checkIntersection sq p (some iId) st with
      | some z =>
        let flag2 := (checkIntersection sq p ((st.arcs[iId]?).bind (fun a => a.pnext)) st).isSome
        splitStep sq st iId p z flag2
      | none => addArcWalk sq p fuel ((st.arcs[iId]?).bind (fun a => a.pnext)) st

/-- `_add_parabolic_parabolicArc` (voronoi.py lines 122-176). -/
def addArc (sq : ℚ → ℚ) (p : Point) (st : VS) : VS :=
  match st.parabolicArc with
  | none =>
    -- line 124-126: first arc becomes the beachline root
    { st with
      arcs := st.arcs ++ [⟨p, none, none, none, none, none⟩]
      parabolicArc := some st.arcs.length }
  | some h => addArcWalk sq p (st.arcs.length + 1) (some h) st

/-- The circle-event unlink (voronoi.py lines 371-394): create the new edge
at the circle centre, unlink the collapsing arc `aId`, finish its two
edges, and re-evaluate the former neighbours. -/
def unlinkStep (sq : ℚ → ℚ) (st : VS) (ex : ℚ) (ep : Point) (aId : Nat) : VS :=
  let sid := st.segs.length
  let st1 := { st with
    segs := st.segs ++ [(⟨ep, none, false⟩ : Seg)]
    output := st.output ++ [sid] }
  match st1.arcs[aId]? with
  | none => st1
  | some a =>
    let st2 :=
      match a.pprev with
      | some pr => { st1 with arcs := modArc st1.arcs pr (fun x => { x with pnext := a.pnext, s1 := some sid }) }
      | none => st1
    let st3 :=
      match a.pnext with
      | some nx => { st2 with arcs := modArc st2.arcs nx (fun x => { x with pprev := a.pprev, s0 := some sid }) }
      | none => st2
    let st4 :=
      match a.s0 with
      | some s0id => { st3 with segs := modSeg st3.segs s0id (fun s => s.finish ep) }
      | none => st3
    let st5 :=
      match a.s1 with
      | some s1id => { st4 with segs := modSeg st4.segs s1id (fun s => s.finish ep) }
      | none => st4
    let st6 :=
      match a.pprev with
      | some pr => checkPotentialCircleEvent sq st5 pr ex
      | none => st5
    match a.pnext with
    | some nx => checkPotentialCircleEvent sq st6 nx ex
    | none => st6

/-- `_process_circle_event` (voronoi.py lines 365-394): pop, discard if
lazily invalidated, otherwise unlink. -/
def processCircleEvent (sq : ℚ → ℚ) (st : VS) : VS :=
  let r := popQ evKey st.events
  let st1 := { st with events := r.2 }
  match r.1 with
  | none => st1
  | some it =>
    match st1.evs[it.2.2]? with
    | none => st1
    | some ev =>
      if ¬ ev.valid then st1
      else unlinkStep sq st1 it.1 it.2.1 ev.a

/-- `_process_site_event` (voronoi.py lines 360-363). -/
def processSiteEvent (sq : ℚ → ℚ) (st : VS) : VS :=
  let r := popQ pKey st.points
  let st1 := { st with points := r.2 }
  match r.1 with
  | none => st1
  | some p => addArc sq p st1

/-- `_process_all_events` (voronoi.py lines 346-353).  Note the Python
condition `not self.events.empty() and self.events.top().x <=
self.points.top().x` short-circuits, and both `top()` calls mutate their
queues (tombstone reclamation and reinsertion); the mutated queues are
threaded into whichever branch runs. -/
def processAllEvents (sq : ℚ → ℚ) : Nat → VS → VS
  | 0, st => st
  | fuel + 1, st =>
    if st.points.finder.isEmpty then st
    else
      if st.events.finder.isEmpty then
        processAllEvents sq fuel (processSiteEvent sq st)
      else
        let re := topQ evX evKey st.events
        let rp := topQ pX pKey st.points
        let st1 := { st with events := re.2, points := rp.2 }
        match re.1, rp.1 with
        | some e, some p =>
          if e.1 ≤ p.x then processAllEvents sq fuel (processCircleEvent sq st1)
          else processAllEvents sq fuel (processSiteEvent sq st1)
        | _, _ => processAllEvents sq fuel (processSiteEvent sq st1)

/-- `_process_remaining_events` (voronoi.py lines 355-358). -/
def processRemainingEvents (sq : ℚ → ℚ) : Nat → VS → VS
  | 0, st => st
  | fuel + 1, st =>
    if st.events.finder.isEmpty then st
    else processRemainingEvents sq fuel (processCircleEvent sq st)

/-- The positive-direction clip of `_complete_unfinished_edges`
(voronoi.py lines 257-274): extend from the midpoint `(mx,my)` along
`(nx,ny)` by `margin`, clipped against the box. -/
def clipPos (x0 y0 x1 y1 mx my nx ny margin : ℚ) : ℚ × ℚ :=
  let px := mx + nx * margin
  let py := my + ny * margin
  let t1 := if px < x0 then (x0 - mx) / nx
            else if px > x1 then (x1 - mx) / nx
            else margin
  let t2 := if py < y0 then min t1 ((y0 - my) / ny)
            else if py > y1 then min t1 ((y1 - my) / ny)
            else t1
  (mx + nx * t2, my + ny * t2)

/-- The negative-direction clip (voronoi.py lines 276-293). -/
def clipNeg (x0 y0 x1 y1 mx my nx ny margin : ℚ) : ℚ × ℚ :=
  let px := mx - nx * margin
  let py := my - ny * margin
  let t1 := if px < x0 then (mx - x0) / nx
            else if px > x1 then (mx - x1) / nx
            else margin
  let t2 := if py < y0 then min t1 ((my - y0) / ny)
            else if py > y1 then min t1 ((my - y1) / ny)
            else t1
  (mx - nx * t2, my - ny * t2)

/-- The walk of `_complete_unfinished_edges` (voronoi.py lines 223-306):
for each adjacent pair with an unfinished shared edge, clip the
perpendicular bisector to the box and finish the edge at the endpoint that
differs from its start. -/
def completeWalk (sq : ℚ → ℚ) : Nat → Option Nat → VS → VS
  | 0, _, st => st
  | fuel + 1, iOpt, st =>
    match iOpt with
    | none => st
    | some i =>
      match st.arcs[i]? with
      | none => st
      | some a =>
        match a.pnext with
        | none => st
        | some ni =>
          match a.s1 with
          | none => completeWalk sq fuel (some ni) st
          | some sid =>
            match st.arcs[ni]? with
            | none => completeWalk sq fuel (some ni) st
            | some an =>
              let p1 := a.p
              let p2 := an.p
              let mx := (p1.x + p2.x) / 2
              let my := (p1.y + p2.y) / 2
              let dx := p2.x - p1.x
              let dy := p2.y - p1.y
              -- line 243: skip if the sites coincide (within EPSILON)
              if |dx| < EPS ∧ |dy| < EPS then completeWalk sq fuel (some ni) st
              else
                let margin := max (st.x1 - st.x0) (st.y1 - st.y0)
                let len := sq (dx * dx + dy * dy)
                let nx := -dy / len
                let ny := dx / len
                let e1 := clipPos st.x0 st.y0 st.x1 st.y1 mx my nx ny margin
                let e2 := clipNeg st.x0 st.y0 st.x1 st.y1 mx my nx ny margin
                -- lines 296-302
                let pfin :=
                  match st.segs[sid]? with
                  | some s =>
                    if s.start.x = e2.1 ∧ s.start.y = e2.2 then Point.mk' e1.1 e1.2
                    else Point.mk' e2.1 e2.2
                  | none => Point.mk' e2.1 e2.2
                let st1 := { st with segs := modSeg st.segs sid (fun s => s.finish pfin) }
                completeWalk sq fuel (some ni) st1

/-- `_complete_unfinished_edges` (voronoi.py lines 223-306). -/
def completeUnfinishedEdges (sq : ℚ → ℚ) (st : VS) : VS :=
  completeWalk sq (st.arcs.length + 1) st.parabolicArc st

/-- `_handle_two_points_case` (voronoi.py lines 308-344): `p1` is the first
key of the site dict, then the minimum site is popped, `p2` is the first
remaining key; the perpendicular bisector of `p1`,`p2` is emitted as one
finished edge (not clipped to the box). -/
def handleTwoPoints (sq : ℚ → ℚ) (st : VS) : VS :=
  match st.points.finder.head? with
  | none => st
  | some kc1 =>
    let p1 := kc1.1
    let r := popQ pKey st.points
    let st1 := { st with points := r.2 }
    match st1.points.finder.head? with
    | none => st1
    | some kc2 =>
      let p2 := kc2.1
      let mx := (p1.x + p2.x) / 2
      let my := (p1.y + p2.y) / 2
      let dx := p2.x - p1.x
      let dy := p2.y - p1.y
      if |dx| < EPS then
        -- lines 323-325: vertically aligned sites
        let s := Seg.finish ⟨Point.mk' (mx - st.x1) my, none, false⟩ (Point.mk' (mx + st.x1) my)
        { st1 with segs := st1.segs ++ [s], output := st1.output ++ [st1.segs.length] }
      else if |dy| < EPS then
        -- lines 326-328: horizontally aligned sites
        let s := Seg.finish ⟨Point.mk' mx (my - st.y1), none, false⟩ (Point.mk' mx (my + st.y1))
        { st1 with segs := st1.segs ++ [s], output := st1.output ++ [st1.segs.length] }
      else
        -- lines 330-339
        let len := sq (dx * dx + dy * dy)
        if len < EPS then st1
        else
          let dx2 := -dy / len
          let dy2 := dx / len
          let margin := max (st.x1 - st.x0) (st.y1 - st.y0)
          let s := Seg.finish ⟨Point.mk' (mx + dx2 * margin) (my + dy2 * margin), none, false⟩
            (Point.mk' (mx - dx2 * margin) (my - dy2 * margin))
          { st1 with segs := st1.segs ++ [s], output := st1.output ++ [st1.segs.length] }

/-- Fuel dominating the iteration count of `_process_all_events` (each
iteration pops one schedule entry; pushes are bounded by a small multiple
of the arc count, itself bounded by the sites processed). -/
def fuelFor (st : VS) : Nat := (st.points.heap.length + st.arcs.length + 4) ^ 3

/-- Fuel dominating the iteration count of `_process_remaining_events`. -/
def fuelRem (st : VS) : Nat := (st.events.heap.length + st.arcs.length + 4) ^ 3

/-- `generate_voronoi_diagram` (voronoi.py lines 396-416): the dedicated
two-distinct-sites path, otherwise the sweep, the drain, and the clip. -/
def generateVoronoiDiagram (sq : ℚ → ℚ) (st : VS) : VS :=
  if st.points.finder.length = 2 then handleTwoPoints sq st
  else
    let st1 := processAllEvents sq (fuelFor st) st
    let st2 := processRemainingEvents sq (fuelRem st1) st1
    completeUnfinishedEdges sq st2

/-- `_initialize_structures` and `_setup_bounds`
(voronoi.py lines 38-50). -/
def initVS (w h : ℚ) : VS :=
  ⟨[], [], [], none, initQ, initQ, [], [], 0, 0, 0, w, h⟩

/-- `_add_points` (voronoi.py lines 52-55). -/
def addPoints (pts : List (ℚ × ℚ)) (st : VS) : VS :=
  pts.foldl (fun s xy => { s with points := pushQ pX pKey (Point.mk' xy.1 xy.2) s.points }) st

/-- `Voronoi.__init__` (voronoi.py lines 32-36). -/
def mkVoronoi (pts : List (ℚ × ℚ)) (w h : ℚ) : VS := addPoints pts (initVS w h)

/-- `get_voronoi_line_segments` (voronoi.py lines 418-420). -/
def getVoronoiLineSegments (st : VS) : List (ℚ × ℚ × ℚ × ℚ) :=
  st.output.filterMap fun sid =>
    (st.segs[sid]?).bind fun s =>
      if s.done then s.endP.map (fun e => (s.start.x, s.start.y, e.x, e.y)) else none

/-- `get_largest_empty_circles` (voronoi.py lines 422-424). -/
def getLargestEmptyCircles (st : VS) : List CircleRec := st.largest

/-! ## Claims about the sweep engine -/

unseal Rat.add Rat.mul Rat.inv Rat.sub in
/-- Claim C5: for sites `(0,0)` and `(10,0)` on a 10 by 10 box — for every
square-root interpretation, since the horizontally-aligned branch takes no
square root — `generate_voronoi_diagram` takes the dedicated two-site path
(it equals `_handle_two_points_case` on this input) and produces exactly
one finished edge `(5,-10)-(5,10)`: the perpendicular bisector of the two
sites, with midpoint `(5,0)` and vertical direction. -/
theorem twoSites_bisector_spec (sq : ℚ → ℚ) :
    generateVoronoiDiagram sq (mkVoronoi [(0, 0), (10, 0)] 10 10) =
      handleTwoPoints sq (mkVoronoi [(0, 0), (10, 0)] 10 10) ∧
    getVoronoiLineSegments (generateVoronoiDiagram sq (mkVoronoi [(0, 0), (10, 0)] 10 10)) =
      [(5, -10, 5, 10)] ∧
    ∀ e ∈ getVoronoiLineSegments
        (generateVoronoiDiagram sq (mkVoronoi [(0, 0), (10, 0)] 10 10)),
      (e.1 + e.2.2.1) / 2 = 5 ∧ (e.2.1 + e.2.2.2) / 2 = 0 ∧ e.1 = e.2.2.1 := by
  have hseg : getVoronoiLineSegments
      (generateVoronoiDiagram sq (mkVoronoi [(0, 0), (10, 0)] 10 10)) =
      [(5, -10, 5, 10)] := rfl
  refine ⟨rfl, hseg, ?_⟩
  intro e he
  rw [hseg] at he
  simp only [List.mem_singleton] at he
  subst he
  norm_num

/-- `_add_points` only touches the site schedule. -/
theorem addPoints_max_radius (pts : List (ℚ × ℚ)) :
    ∀ st : VS, (addPoints pts st).max_circle_radius = st.max_circle_radius := by
  induction pts with
  | nil => intro st; rfl
  | cons xy rest ih =>
    intro st
    exact ih _

/-- Claim C9: the running maximum empty-circle radius starts at `0`
(`_initialize_structures`), and the update performed when an empty circle
is recorded (`_check_potential_circle_event` lines 113-120, embedded as
`updateLargestCircles`) either leaves the maximum unchanged or strictly
increases it — so over a construction the maximum is non-decreasing. -/
theorem max_radius_monotone_spec :
    (∀ pts (w h : ℚ), (mkVoronoi pts w h).max_circle_radius = 0) ∧
    (∀ (m : ℚ) (L : List CircleRec) (o : Point) (r : ℚ) (t : Point × Point × Point),
      (updateLargestCircles m L o r t).1 = m ∨ m < (updateLargestCircles m L o r t).1) ∧
    (∀ (m : ℚ) (L : List CircleRec) (o : Point) (r : ℚ) (t : Point × Point × Point),
      m ≤ (updateLargestCircles m L o r t).1) := by
  refine ⟨fun pts w h => addPoints_max_radius pts (initVS w h), ?_, ?_⟩
  · intro m L o r t
    unfold updateLargestCircles
    split_ifs with h1 h2
    · exact Or.inl rfl
    · exact Or.inr h2
    · exact Or.inl rfl
  · intro m L o r t
    unfold updateLargestCircles
    split_ifs with h1 h2
    · exact le_refl m
    · exact le_of_lt h2
    · exact le_refl m

/-- Claim C7: `_check_circle` rejects exactly when `b→c` fails to be a
right turn relative to `a→b` (cross product `> 0`) or the system is
singular (`G = 0`); otherwise the returned data is the circumcentre of the
three points (equidistant from all three, the squared distance being the
returned radicand `r2`), the returned event point is the canonicalized
circumcentre, and the predicted event abscissa is `ox + sqrt r2`, i.e. the
centre's x plus the circumradius (`sqrt r2` is nonnegative and squares to
the squared circumradius). -/
theorem checkCircle_spec :
    ∀ a b c : Point,
      (checkCircleData a b c = none ↔ (crossABC a b c > 0 ∨ Gval a b c = 0)) ∧
      (∀ d, checkCircleData a b c = some d →
        (a.x - d.ox) ^ 2 + (a.y - d.oy) ^ 2 = d.r2 ∧
        (b.x - d.ox) ^ 2 + (b.y - d.oy) ^ 2 = d.r2 ∧
        (c.x - d.ox) ^ 2 + (c.y - d.oy) ^ 2 = d.r2 ∧
        (∀ sq : ℚ → ℚ, checkCircle sq a b c = some (d.ox + sq d.r2, Point.mk' d.ox d.oy)) ∧
        (0 : ℝ) ≤ (d.r2 : ℝ) ∧ Real.sqrt (d.r2 : ℝ) ^ 2 = (d.r2 : ℝ)) := by
  intro a b c
  constructor
  · by_cases h1 : crossABC a b c > 0
    · simp [checkCircleData, h1]
    · by_cases h2 : Gval a b c = 0
      · simp [checkCircleData, h1, h2]
      · simp [checkCircleData, h1, h2]
  · intro d hd
    have hd0 := hd
    unfold checkCircleData at hd
    by_cases h1 : crossABC a b c > 0
    · rw [if_pos h1] at hd
      exact Option.noConfusion hd
    · rw [if_neg h1] at hd
      dsimp only at hd
      by_cases h2 : Gval a b c = 0
      · rw [if_pos h2] at hd
        exact Option.noConfusion hd
      · rw [if_neg h2] at hd
        have hd' := Option.some.inj hd
        subst hd'
        refine ⟨rfl, ?_, ?_, ?_, ?_, ?_⟩
        · dsimp only
          unfold Gval at h2 ⊢
          field_simp
          ring
        · dsimp only
          unfold Gval at h2 ⊢
          field_simp
          ring
        · intro sq
          unfold checkCircle
          rw [hd0]
          rfl
        · dsimp only
          have hnn : (0 : ℚ) ≤ (a.x - ((c.y - a.y) * ((b.x - a.x) * (a.x + b.x) +
              (b.y - a.y) * (a.y + b.y)) - (b.y - a.y) * ((c.x - a.x) * (a.x + c.x) +
              (c.y - a.y) * (a.y + c.y))) / Gval a b c) ^ 2 +
              (a.y - ((b.x - a.x) * ((c.x - a.x) * (a.x + c.x) + (c.y - a.y) * (a.y + c.y)) -
              (c.x - a.x) * ((b.x - a.x) * (a.x + b.x) + (b.y - a.y) * (a.y + b.y))) /
              Gval a b c) ^ 2 := by positivity
          exact_mod_cast hnn
        · dsimp only
          have hnn : (0 : ℚ) ≤ (a.x - ((c.y - a.y) * ((b.x - a.x) * (a.x + b.x) +
              (b.y - a.y) * (a.y + b.y)) - (b.y - a.y) * ((c.x - a.x) * (a.x + c.x) +
              (c.y - a.y) * (a.y + c.y))) / Gval a b c) ^ 2 +
              (a.y - ((b.x - a.x) * ((c.x - a.x) * (a.x + c.x) + (c.y - a.y) * (a.y + c.y)) -
              (c.x - a.x) * ((b.x - a.x) * (a.x + b.x) + (b.y - a.y) * (a.y + b.y))) /
              Gval a b c) ^ 2 := by positivity
          refine Real.sq_sqrt ?_
          exact_mod_cast hnn

unseal Rat.add Rat.mul Rat.inv Rat.sub in
/-- Claim C7, witness: for the sites `(0,0)`, `(5,10)`, `(10,0)` the triple
is accepted with circumcentre `(5, 15/4)` and squared circumradius
`625/16`, equidistant from the sites. -/
theorem C7_witness :
    checkCircleData (Point.mk 0 0) (Point.mk 5 10) (Point.mk 10 0) =
      some ⟨5, 15 / 4, 625 / 16⟩ ∧
    (((Point.mk 5 10).x - (5 : ℚ)) ^ 2 + ((Point.mk 5 10).y - 15 / 4) ^ 2 = 625 / 16 ∧
      Real.sqrt ((625 / 16 : ℚ) : ℝ) ^ 2 = ((625 / 16 : ℚ) : ℝ)) := by
  have h := (checkCircle_spec (Point.mk 0 0) (Point.mk 5 10) (Point.mk 10 0)).2
    ⟨5, 15 / 4, 625 / 16⟩ (by decide)
  exact ⟨by decide, h.2.1, h.2.2.2.2.2⟩

/-- A point on the segment from `(mx)` towards `mx + v * tmax` stays inside
`[lo, hi]` when both ends do. -/
theorem seg_bound {lo hi mx v t tmax : ℚ} (hm : lo ≤ mx ∧ mx ≤ hi)
    (h0 : 0 ≤ t) (ht : t ≤ tmax) (hsafe : lo ≤ mx + v * tmax ∧ mx + v * tmax ≤ hi) :
    lo ≤ mx + v * t ∧ mx + v * t ≤ hi := by
  rcases le_or_lt 0 v with hv | hv
  · constructor
    · nlinarith
    · nlinarith
  · constructor
    · nlinarith
    · nlinarith

/-- The first clip of the positive direction (voronoi.py lines 262-266):
the clipped parameter is nonnegative, at most `margin`, and lands the x
coordinate inside `[x0, x1]`. -/
theorem clip_t1_facts (x0 x1 mx nx margin : ℚ) (hmx : x0 ≤ mx ∧ mx ≤ x1)
    (hm : 0 < margin) :
    0 ≤ (if mx + nx * margin < x0 then (x0 - mx) / nx
         else if mx + nx * margin > x1 then (x1 - mx) / nx else margin) ∧
    (if mx + nx * margin < x0 then (x0 - mx) / nx
     else if mx + nx * margin > x1 then (x1 - mx) / nx else margin) ≤ margin ∧
    x0 ≤ mx + nx * (if mx + nx * margin < x0 then (x0 - mx) / nx
         else if mx + nx * margin > x1 then (x1 - mx) / nx else margin) ∧
    mx + nx * (if mx + nx * margin < x0 then (x0 - mx) / nx
         else if mx + nx * margin > x1 then (x1 - mx) / nx else margin) ≤ x1 := by
  split_ifs with hb1 hb2
  · -- the ray exits on the left: nx < 0 and the clip lands exactly on x0
    have hnx : nx < 0 := by nlinarith
    have hdiv : nx * ((x0 - mx) / nx) = x0 - mx := by
      rw [mul_comm]
      exact div_mul_cancel₀ _ (ne_of_lt hnx)
    refine ⟨?_, ?_, ?_, ?_⟩
    · apply div_nonneg_of_nonpos <;> nlinarith
    · rw [div_le_iff_of_neg hnx]
      nlinarith
    · nlinarith
    · nlinarith
  · -- the ray exits on the right: nx > 0 and the clip lands exactly on x1
    have hnx : 0 < nx := by nlinarith
    have hdiv : nx * ((x1 - mx) / nx) = x1 - mx := by
      rw [mul_comm]
      exact div_mul_cancel₀ _ (ne_of_gt hnx)
    refine ⟨?_, ?_, ?_, ?_⟩
    · apply div_nonneg <;> nlinarith
    · rw [div_le_iff₀ hnx]
      nlinarith
    · nlinarith
    · nlinarith
  · push_neg at hb1 hb2
    exact ⟨le_of_lt hm, le_refl _, by nlinarith, by nlinarith⟩

/-- The second clip of the positive direction (voronoi.py lines 268-274):
starting from any parameter `t1` between `0` and `margin` whose endpoint
may be anywhere, the y-clip keeps the parameter in `[0, t1]` and lands the
y coordinate inside `[y0, y1]`. -/
theorem clip_t2_facts (y0 y1 my ny margin t1 : ℚ) (hmy : y0 ≤ my ∧ my ≤ y1)
    (h0 : 0 ≤ t1) (hle : t1 ≤ margin) :
    0 ≤ (if my + ny * margin < y0 then min t1 ((y0 - my) / ny)
         else if my + ny * margin > y1 then min t1 ((y1 - my) / ny) else t1) ∧
    (if my + ny * margin < y0 then min t1 ((y0 - my) / ny)
     else if my + ny * margin > y1 then min t1 ((y1 - my) / ny) else t1) ≤ t1 ∧
    y0 ≤ my + ny * (if my + ny * margin < y0 then min t1 ((y0 - my) / ny)
         else if my + ny * margin > y1 then min t1 ((y1 - my) / ny) else t1) ∧
    my + ny * (if my + ny * margin < y0 then min t1 ((y0 - my) / ny)
         else if my + ny * margin > y1 then min t1 ((y1 - my) / ny) else t1) ≤ y1 := by
  split_ifs with hb1 hb2
  · -- the ray exits below: ny < 0 and the y-clip lands at or above y0
    have hmar : 0 ≤ margin := le_trans h0 hle
    have hny : ny < 0 := by nlinarith
    have hty : 0 ≤ (y0 - my) / ny := by
      apply div_nonneg_of_nonpos <;> nlinarith
    have hdiv : ny * ((y0 - my) / ny) = y0 - my := by
      rw [mul_comm]
      exact div_mul_cancel₀ _ (ne_of_lt hny)
    have hminr : min t1 ((y0 - my) / ny) ≤ (y0 - my) / ny := min_le_right _ _
    have hmin0 : 0 ≤ min t1 ((y0 - my) / ny) := le_min h0 hty
    refine ⟨hmin0, min_le_left _ _, ?_, ?_⟩
    · nlinarith
    · nlinarith
  · -- the ray exits above: ny > 0 and the y-clip lands at or below y1
    have hmar : 0 ≤ margin := le_trans h0 hle
    have hny : 0 < ny := by nlinarith
    have hty : 0 ≤ (y1 - my) / ny := by
      apply div_nonneg <;> nlinarith
    have hdiv : ny * ((y1 - my) / ny) = y1 - my := by
      rw [mul_comm]
      exact div_mul_cancel₀ _ (ne_of_gt hny)
    have hminr : min t1 ((y1 - my) / ny) ≤ (y1 - my) / ny := min_le_right _ _
    have hmin0 : 0 ≤ min t1 ((y1 - my) / ny) := le_min h0 hty
    refine ⟨hmin0, min_le_left _ _, ?_, ?_⟩
    · nlinarith
    · nlinarith
  · -- the endpoint stays in the strip: keep t1, apply the segment bound
    push_neg at hb1 hb2
    have hseg := seg_bound hmy h0 hle ⟨hb1, hb2⟩
    exact ⟨h0, le_refl _, hseg.1, hseg.2⟩

/-- The one-decimal canonicalization `float(f"{x:.1f}")` of `Point.__init__`
moves a value by at most `1/20`. -/
theorem canon_bounds (q : ℚ) : q - 1 / 20 < canon q ∧ canon q ≤ q + 1 / 20 := by
  have hfd : (10 * q + 1 / 2 : ℚ).num.fdiv ((10 * q + 1 / 2 : ℚ).den : ℤ) =
      ⌊(10 * q + 1 / 2 : ℚ)⌋ := by
    rw [Rat.floor_def, Int.fdiv_eq_ediv]
    exact_mod_cast Nat.zero_le _
  have hc : canon q = ((⌊(10 * q + 1 / 2 : ℚ)⌋ : ℤ) : ℚ) / 10 := by
    rw [canon, hfd]
  have h1 : ((⌊(10 * q + 1 / 2 : ℚ)⌋ : ℤ) : ℚ) ≤ 10 * q + 1 / 2 := Int.floor_le _
  have h2 : (10 * q + 1 / 2 : ℚ) < ((⌊(10 * q + 1 / 2 : ℚ)⌋ : ℤ) : ℚ) + 1 :=
    Int.lt_floor_add_one _
  rw [hc]
  constructor
  · linarith
  · linarith

/-- Claim C2 (amended): with both sites that define the edge inside the box
and a positive clipping margin, both clip points computed by the
bounding-box clipping step of `_complete_unfinished_edges` (lines 257-293,
embedded as `clipPos`/`clipNeg` applied at the midpoint of the two sites)
lie inside the box for every direction vector; consequently both candidate
finishing points — the one-decimal roundings `Point(e1)`/`Point(e2)` of
lines 296-302, one of which the step writes as the edge's final
endpoint — lie within the box enlarged by `1/20` in each direction.
Nothing else is clipped: an edge's start point and a circle event's
finishing point are written verbatim, and the dedicated two-site path
performs no clipping at all; see the counterexample. -/
theorem clip_in_box (x0 y0 x1 y1 p1x p1y p2x p2y nx ny margin : ℚ)
    (hp1 : x0 ≤ p1x ∧ p1x ≤ x1 ∧ y0 ≤ p1y ∧ p1y ≤ y1)
    (hp2 : x0 ≤ p2x ∧ p2x ≤ x1 ∧ y0 ≤ p2y ∧ p2y ≤ y1)
    (hm : 0 < margin) :
    (x0 ≤ (clipPos x0 y0 x1 y1 ((p1x + p2x) / 2) ((p1y + p2y) / 2) nx ny margin).1 ∧ (clipPos x0 y0 x1 y1 ((p1x + p2x) / 2) ((p1y + p2y) / 2) nx ny margin).1 ≤ x1 ∧ y0 ≤ (clipPos x0 y0 x1 y1 ((p1x + p2x) / 2) ((p1y + p2y) / 2) nx ny margin).2 ∧ (clipPos x0 y0 x1 y1 ((p1x + p2x) / 2) ((p1y + p2y) / 2) nx ny margin).2 ≤ y1) ∧
    (x0 ≤ (clipNeg x0 y0 x1 y1 ((p1x + p2x) / 2) ((p1y + p2y) / 2) nx ny margin).1 ∧ (clipNeg x0 y0 x1 y1 ((p1x + p2x) / 2) ((p1y + p2y) / 2) nx ny margin).1 ≤ x1 ∧ y0 ≤ (clipNeg x0 y0 x1 y1 ((p1x + p2x) / 2) ((p1y + p2y) / 2) nx ny margin).2 ∧ (clipNeg x0 y0 x1 y1 ((p1x + p2x) / 2) ((p1y + p2y) / 2) nx ny margin).2 ≤ y1) ∧
    (x0 - 1 / 20 < (Point.mk' (clipPos x0 y0 x1 y1 ((p1x + p2x) / 2) ((p1y + p2y) / 2) nx ny margin).1 (clipPos x0 y0 x1 y1 ((p1x + p2x) / 2) ((p1y + p2y) / 2) nx ny margin).2).x ∧
      (Point.mk' (clipPos x0 y0 x1 y1 ((p1x + p2x) / 2) ((p1y + p2y) / 2) nx ny margin).1 (clipPos x0 y0 x1 y1 ((p1x + p2x) / 2) ((p1y + p2y) / 2) nx ny margin).2).x ≤ x1 + 1 / 20 ∧
      y0 - 1 / 20 < (Point.mk' (clipPos x0 y0 x1 y1 ((p1x + p2x) / 2) ((p1y + p2y) / 2) nx ny margin).1 (clipPos x0 y0 x1 y1 ((p1x + p2x) / 2) ((p1y + p2y) / 2) nx ny margin).2).y ∧
      (Point.mk' (clipPos x0 y0 x1 y1 ((p1x + p2x) / 2) ((p1y + p2y) / 2) nx ny margin).1 (clipPos x0 y0 x1 y1 ((p1x + p2x) / 2) ((p1y + p2y) / 2) nx ny margin).2).y ≤ y1 + 1 / 20) ∧
    (x0 - 1 / 20 < (Point.mk' (clipNeg x0 y0 x1 y1 ((p1x + p2x) / 2) ((p1y + p2y) / 2) nx ny margin).1 (clipNeg x0 y0 x1 y1 ((p1x + p2x) / 2) ((p1y + p2y) / 2) nx ny margin).2).x ∧
      (Point.mk' (clipNeg x0 y0 x1 y1 ((p1x + p2x) / 2) ((p1y + p2y) / 2) nx ny margin).1 (clipNeg x0 y0 x1 y1 ((p1x + p2x) / 2) ((p1y + p2y) / 2) nx ny margin).2).x ≤ x1 + 1 / 20 ∧
      y0 - 1 / 20 < (Point.mk' (clipNeg x0 y0 x1 y1 ((p1x + p2x) / 2) ((p1y + p2y) / 2) nx ny margin).1 (clipNeg x0 y0 x1 y1 ((p1x + p2x) / 2) ((p1y + p2y) / 2) nx ny margin).2).y ∧
      (Point.mk' (clipNeg x0 y0 x1 y1 ((p1x + p2x) / 2) ((p1y + p2y) / 2) nx ny margin).1 (clipNeg x0 y0 x1 y1 ((p1x + p2x) / 2) ((p1y + p2y) / 2) nx ny margin).2).y ≤ y1 + 1 / 20) := by
  obtain ⟨p11, p12, p13, p14⟩ := hp1
  obtain ⟨p21, p22, p23, p24⟩ := hp2
  have hmx : x0 ≤ (p1x + p2x) / 2 ∧ (p1x + p2x) / 2 ≤ x1 := ⟨by linarith, by linarith⟩
  have hmy : y0 ≤ (p1y + p2y) / 2 ∧ (p1y + p2y) / 2 ≤ y1 := ⟨by linarith, by linarith⟩
  have hposneg : clipNeg x0 y0 x1 y1 ((p1x + p2x) / 2) ((p1y + p2y) / 2) nx ny margin =
      clipPos x0 y0 x1 y1 ((p1x + p2x) / 2) ((p1y + p2y) / 2) (-nx) (-ny) margin := by
    unfold clipPos clipNeg
    have e1 : (p1x + p2x) / 2 - nx * margin = (p1x + p2x) / 2 + -nx * margin := by ring
    have e2 : (p1y + p2y) / 2 - ny * margin = (p1y + p2y) / 2 + -ny * margin := by ring
    have e3 : ((p1x + p2x) / 2 - x0) / nx = (x0 - (p1x + p2x) / 2) / -nx := by
      rw [div_neg, ← neg_div, neg_sub]
    have e4 : ((p1x + p2x) / 2 - x1) / nx = (x1 - (p1x + p2x) / 2) / -nx := by
      rw [div_neg, ← neg_div, neg_sub]
    have e5 : ((p1y + p2y) / 2 - y0) / ny = (y0 - (p1y + p2y) / 2) / -ny := by
      rw [div_neg, ← neg_div, neg_sub]
    have e6 : ((p1y + p2y) / 2 - y1) / ny = (y1 - (p1y + p2y) / 2) / -ny := by
      rw [div_neg, ← neg_div, neg_sub]
    rw [e1, e2, e3, e4, e5, e6]
    dsimp only
    simp only [Prod.mk.injEq]
    constructor <;> ring
  have main : ∀ vx vy : ℚ,
      x0 ≤ (clipPos x0 y0 x1 y1 ((p1x + p2x) / 2) ((p1y + p2y) / 2) vx vy margin).1 ∧
      (clipPos x0 y0 x1 y1 ((p1x + p2x) / 2) ((p1y + p2y) / 2) vx vy margin).1 ≤ x1 ∧
      y0 ≤ (clipPos x0 y0 x1 y1 ((p1x + p2x) / 2) ((p1y + p2y) / 2) vx vy margin).2 ∧
      (clipPos x0 y0 x1 y1 ((p1x + p2x) / 2) ((p1y + p2y) / 2) vx vy margin).2 ≤ y1 := by
    intro vx vy
    obtain ⟨a1, a2, a3, a4⟩ := clip_t1_facts x0 x1 ((p1x + p2x) / 2) vx margin hmx hm
    obtain ⟨b1, b2, b3, b4⟩ := clip_t2_facts y0 y1 ((p1y + p2y) / 2) vy margin
      (if (p1x + p2x) / 2 + vx * margin < x0 then (x0 - (p1x + p2x) / 2) / vx
       else if (p1x + p2x) / 2 + vx * margin > x1 then (x1 - (p1x + p2x) / 2) / vx
       else margin) hmy a1 a2
    have hx := seg_bound hmx b1 b2 ⟨a3, a4⟩
    exact ⟨hx.1, hx.2, b3, b4⟩
  have hP := main nx ny
  have hN : x0 ≤ (clipNeg x0 y0 x1 y1 ((p1x + p2x) / 2) ((p1y + p2y) / 2) nx ny margin).1 ∧ (clipNeg x0 y0 x1 y1 ((p1x + p2x) / 2) ((p1y + p2y) / 2) nx ny margin).1 ≤ x1 ∧ y0 ≤ (clipNeg x0 y0 x1 y1 ((p1x + p2x) / 2) ((p1y + p2y) / 2) nx ny margin).2 ∧ (clipNeg x0 y0 x1 y1 ((p1x + p2x) / 2) ((p1y + p2y) / 2) nx ny margin).2 ≤ y1 := by
    rw [hposneg]
    exact main (-nx) (-ny)
  refine ⟨hP, hN, ?_, ?_⟩
  · obtain ⟨c1, c2, c3, c4⟩ := hP
    have bx := canon_bounds (clipPos x0 y0 x1 y1 ((p1x + p2x) / 2) ((p1y + p2y) / 2) nx ny margin).1
    have bv := canon_bounds (clipPos x0 y0 x1 y1 ((p1x + p2x) / 2) ((p1y + p2y) / 2) nx ny margin).2
    exact ⟨show x0 - 1 / 20 < canon (clipPos x0 y0 x1 y1 ((p1x + p2x) / 2) ((p1y + p2y) / 2) nx ny margin).1 by linarith [bx.1],
      show canon (clipPos x0 y0 x1 y1 ((p1x + p2x) / 2) ((p1y + p2y) / 2) nx ny margin).1 ≤ x1 + 1 / 20 by linarith [bx.2],
      show y0 - 1 / 20 < canon (clipPos x0 y0 x1 y1 ((p1x + p2x) / 2) ((p1y + p2y) / 2) nx ny margin).2 by linarith [bv.1],
      show canon (clipPos x0 y0 x1 y1 ((p1x + p2x) / 2) ((p1y + p2y) / 2) nx ny margin).2 ≤ y1 + 1 / 20 by linarith [bv.2]⟩
  · obtain ⟨c1, c2, c3, c4⟩ := hN
    have bx := canon_bounds (clipNeg x0 y0 x1 y1 ((p1x + p2x) / 2) ((p1y + p2y) / 2) nx ny margin).1
    have bv := canon_bounds (clipNeg x0 y0 x1 y1 ((p1x + p2x) / 2) ((p1y + p2y) / 2) nx ny margin).2
    exact ⟨show x0 - 1 / 20 < canon (clipNeg x0 y0 x1 y1 ((p1x + p2x) / 2) ((p1y + p2y) / 2) nx ny margin).1 by linarith [bx.1],
      show canon (clipNeg x0 y0 x1 y1 ((p1x + p2x) / 2) ((p1y + p2y) / 2) nx ny margin).1 ≤ x1 + 1 / 20 by linarith [bx.2],
      show y0 - 1 / 20 < canon (clipNeg x0 y0 x1 y1 ((p1x + p2x) / 2) ((p1y + p2y) / 2) nx ny margin).2 by linarith [bv.1],
      show canon (clipNeg x0 y0 x1 y1 ((p1x + p2x) / 2) ((p1y + p2y) / 2) nx ny margin).2 ≤ y1 + 1 / 20 by linarith [bv.2]⟩

/-- A beachline with the single arc of site `(5,0)` on the 10 by 10 box,
as after the first site event of a run. -/
def c2bstate : VS :=
  { output := []
    segs := []
    arcs := [(⟨Point.mk 5 0, none, none, none, none, none⟩ : Arc)]
    parabolicArc := some 0
    points := initQ
    events := initQ
    evs := []
    largest := []
    max_circle_radius := 0
    x0 := 0
    y0 := 0
    x1 := 10
    y1 := 10 }

/-- A beachline whose middle arc (site `(5, 9.5)`, neighbours `(1,9)` and
`(9,9)`, all strictly inside the 10 by 10 box) is about to collapse: its
shared edge `0` is open and listed in the output. -/
def c2estate : VS :=
  { output := [0]
    segs := [(⟨Point.mk 1 1, none, false⟩ : Seg)]
    arcs := [(⟨Point.mk 1 9, none, some 1, none, none, none⟩ : Arc),
      (⟨Point.mk 5 (19 / 2), some 0, some 2, none, some 0, some 0⟩ : Arc),
      (⟨Point.mk 9 9, some 1, none, none, none, none⟩ : Arc)]
    parabolicArc := some 0
    points := initQ
    events := initQ
    evs := []
    largest := []
    max_circle_radius := 0
    x0 := 0
    y0 := 0
    x1 := 10
    y1 := 10 }

unseal Rat.add Rat.mul Rat.inv Rat.sub in
/-- Claim C2, counterexample, in three parts.  (1) For sites `(0.2, 5)` and
`(9.8, 5)` — both strictly inside the 10 by 10 box, so no site lies on the
boundary — the dedicated two-site path emits the single finished edge
`(5,-5)-(5,15)`, whose endpoints lie outside the box by far more than the
`1e-10` tolerance.  (The horizontally-aligned branch takes no square root,
so the square-root interpretation `fun q => 0` is never consulted on this
run.)  (2) Edge start points are never clipped: inserting the interior
site `(5.1, 9.9)` into a beachline holding the interior site `(5,0)` opens
its two edges at the breakpoint `(-485, 9.9)`, far left of the box.
(3) Circle-event finishing points are never clipped: the circumcentre of
the interior sites `(1,9)`, `(5,9.5)`, `(9,9)` is `(5, -6.75)` (rounded to
`(5, -6.7)`), below the box, and the unlink step finishes the collapsing
arc's edge there verbatim, so the output contains the edge
`(1,1)-(5,-6.7)`. -/
theorem C2_counterexample :
    getVoronoiLineSegments (generateVoronoiDiagram (fun _q => 0)
      (mkVoronoi [(2 / 10, 5), (98 / 10, 5)] 10 10)) = [(5, -5, 5, 15)] ∧
    (mkVoronoi [(2 / 10, 5), (98 / 10, 5)] 10 10).points.finder.map Prod.fst =
      [Point.mk (2 / 10) 5, Point.mk (98 / 10) 5] ∧
    ((0 : ℚ) < 2 / 10 ∧ (2 / 10 : ℚ) < 10 ∧ (0 : ℚ) < 98 / 10 ∧
      (98 / 10 : ℚ) < 10 ∧ (0 : ℚ) < 5 ∧ (5 : ℚ) < 10) ∧
    ((-5 : ℚ) < 0 - EPS ∧ (10 : ℚ) + EPS < 15) ∧
    ((addArc (fun _q => 0) (Point.mk' (51 / 10) (99 / 10)) c2bstate).segs.map
        (fun s => (s.start.x, s.start.y)) = [(-485, 99 / 10), (-485, 99 / 10)] ∧
      ((0 : ℚ) < 51 / 10 ∧ (51 / 10 : ℚ) < 10 ∧ (0 : ℚ) < 99 / 10 ∧
        (99 / 10 : ℚ) < 10) ∧
      (-485 : ℚ) < 0 - EPS) ∧
    (checkCircleData (Point.mk 1 9) (Point.mk 5 (19 / 2)) (Point.mk 9 9) =
        some ⟨5, -27 / 4, 4225 / 16⟩ ∧
      Point.mk' 5 (-27 / 4) = Point.mk 5 (-67 / 10) ∧
      getVoronoiLineSegments
        (unlinkStep (fun _q => 0) c2estate 0 (Point.mk' 5 (-27 / 4)) 1) =
        [(1, 1, 5, -67 / 10)] ∧
      (-67 / 10 : ℚ) < 0 - EPS) := by
  decide

/-- Claim C2, witness for the amended theorem: sites `(2,1)` and `(8,9)`
inside the 10 by 10 box, direction `(3,4)`, margin `10`: both clip points
lie in the box and both rounded finishing candidates lie in the enlarged
box. -/
theorem C2_witness :
    (((0 : ℚ) ≤ 2 ∧ (2 : ℚ) ≤ 10 ∧ (0 : ℚ) ≤ 1 ∧ (1 : ℚ) ≤ 10) ∧
      ((0 : ℚ) ≤ 8 ∧ (8 : ℚ) ≤ 10 ∧ (0 : ℚ) ≤ 9 ∧ (9 : ℚ) ≤ 10) ∧ (0 : ℚ) < 10) ∧
    (((0 : ℚ) ≤ (clipPos 0 0 10 10 ((2 + 8) / 2) ((1 + 9) / 2) 3 4 10).1 ∧ (clipPos 0 0 10 10 ((2 + 8) / 2) ((1 + 9) / 2) 3 4 10).1 ≤ 10 ∧ (0 : ℚ) ≤ (clipPos 0 0 10 10 ((2 + 8) / 2) ((1 + 9) / 2) 3 4 10).2 ∧ (clipPos 0 0 10 10 ((2 + 8) / 2) ((1 + 9) / 2) 3 4 10).2 ≤ 10) ∧
      ((0 : ℚ) ≤ (clipNeg 0 0 10 10 ((2 + 8) / 2) ((1 + 9) / 2) 3 4 10).1 ∧ (clipNeg 0 0 10 10 ((2 + 8) / 2) ((1 + 9) / 2) 3 4 10).1 ≤ 10 ∧ (0 : ℚ) ≤ (clipNeg 0 0 10 10 ((2 + 8) / 2) ((1 + 9) / 2) 3 4 10).2 ∧ (clipNeg 0 0 10 10 ((2 + 8) / 2) ((1 + 9) / 2) 3 4 10).2 ≤ 10) ∧
      ((0 : ℚ) - 1 / 20 < (Point.mk' (clipPos 0 0 10 10 ((2 + 8) / 2) ((1 + 9) / 2) 3 4 10).1 (clipPos 0 0 10 10 ((2 + 8) / 2) ((1 + 9) / 2) 3 4 10).2).x ∧
        (Point.mk' (clipPos 0 0 10 10 ((2 + 8) / 2) ((1 + 9) / 2) 3 4 10).1 (clipPos 0 0 10 10 ((2 + 8) / 2) ((1 + 9) / 2) 3 4 10).2).x ≤ 10 + 1 / 20 ∧
        (0 : ℚ) - 1 / 20 < (Point.mk' (clipPos 0 0 10 10 ((2 + 8) / 2) ((1 + 9) / 2) 3 4 10).1 (clipPos 0 0 10 10 ((2 + 8) / 2) ((1 + 9) / 2) 3 4 10).2).y ∧
        (Point.mk' (clipPos 0 0 10 10 ((2 + 8) / 2) ((1 + 9) / 2) 3 4 10).1 (clipPos 0 0 10 10 ((2 + 8) / 2) ((1 + 9) / 2) 3 4 10).2).y ≤ 10 + 1 / 20) ∧
      ((0 : ℚ) - 1 / 20 < (Point.mk' (clipNeg 0 0 10 10 ((2 + 8) / 2) ((1 + 9) / 2) 3 4 10).1 (clipNeg 0 0 10 10 ((2 + 8) / 2) ((1 + 9) / 2) 3 4 10).2).x ∧
        (Point.mk' (clipNeg 0 0 10 10 ((2 + 8) / 2) ((1 + 9) / 2) 3 4 10).1 (clipNeg 0 0 10 10 ((2 + 8) / 2) ((1 + 9) / 2) 3 4 10).2).x ≤ 10 + 1 / 20 ∧
        (0 : ℚ) - 1 / 20 < (Point.mk' (clipNeg 0 0 10 10 ((2 + 8) / 2) ((1 + 9) / 2) 3 4 10).1 (clipNeg 0 0 10 10 ((2 + 8) / 2) ((1 + 9) / 2) 3 4 10).2).y ∧
        (Point.mk' (clipNeg 0 0 10 10 ((2 + 8) / 2) ((1 + 9) / 2) 3 4 10).1 (clipNeg 0 0 10 10 ((2 + 8) / 2) ((1 + 9) / 2) 3 4 10).2).y ≤ 10 + 1 / 20)) := by
  refine ⟨⟨⟨by norm_num, by norm_num, by norm_num, by norm_num⟩,
    ⟨by norm_num, by norm_num, by norm_num, by norm_num⟩, by norm_num⟩, ?_⟩
  exact clip_in_box 0 0 10 10 2 1 8 9 3 4 10
    ⟨by norm_num, by norm_num, by norm_num, by norm_num⟩
    ⟨by norm_num, by norm_num, by norm_num, by norm_num⟩ (by norm_num)

/-- `_add_points` only writes the site schedule. -/
theorem addPoints_eq (pts : List (ℚ × ℚ)) :
    ∀ st : VS, addPoints pts st = { st with points := (addPoints pts st).points } := by
  induction pts with
  | nil => intro st; rfl
  | cons xy rest ih =>
    intro st
    show addPoints rest _ = _
    rw [ih { st with points := pushQ pX pKey (Point.mk' xy.1 xy.2) st.points }]
    rfl

/-- The site schedule built by `_add_points` stays well-formed. -/
theorem QWF_addPoints (pts : List (ℚ × ℚ)) :
    ∀ st : VS, QWF pX pKey st.points → QWF pX pKey (addPoints pts st).points := by
  induction pts with
  | nil => intro st h; exact h
  | cons xy rest ih =>
    intro st h
    exact ih _ (QWF_pushQ pX pKey h _)

theorem keys_mem_pushQ {α κ : Type} [DecidableEq κ] (xOf : α → ℚ) (keyOf : α → κ)
    (it : α) (s : QState α κ) (k' : κ) :
    k' ∈ (pushQ xOf keyOf it s).finder.map Prod.fst ↔
      k' = keyOf it ∨ k' ∈ s.finder.map Prod.fst := by
  constructor
  · intro hm
    cases hf : aFind s.finder (keyOf it) with
    | none =>
      rw [pushQ_eq_fresh xOf keyOf it hf] at hm
      simp only [List.map_append, List.map_cons, List.map_nil, List.mem_append,
        List.mem_singleton] at hm
      rcases hm with hm | hm
      · exact Or.inr hm
      · exact Or.inl hm
    | some c =>
      rw [pushQ_eq_replace xOf keyOf it hf] at hm
      simp only [List.map_append, List.map_cons, List.map_nil, List.mem_append,
        List.mem_singleton] at hm
      rcases hm with hm | hm
      · obtain ⟨kc, hkc, rfl⟩ := List.mem_map.mp hm
        exact Or.inr (List.mem_map_of_mem _ ((aErase_sublist _ _).mem hkc))
      · exact Or.inl hm
  · intro hm
    have htail : keyOf it ∈ (pushQ xOf keyOf it s).finder.map Prod.fst := by
      cases hf : aFind s.finder (keyOf it) with
      | none =>
        rw [pushQ_eq_fresh xOf keyOf it hf]
        simp
      | some c =>
        rw [pushQ_eq_replace xOf keyOf it hf]
        simp
    rcases hm with rfl | hm
    · exact htail
    · by_cases hk : k' = keyOf it
      · exact hk ▸ htail
      · obtain ⟨kc, hkc, rfl⟩ := List.mem_map.mp hm
        cases hf : aFind s.finder (keyOf it) with
        | none =>
          rw [pushQ_eq_fresh xOf keyOf it hf]
          simp only [List.map_append, List.map_cons, List.map_nil, List.mem_append,
            List.mem_singleton]
          exact Or.inl (List.mem_map_of_mem _ hkc)
        | some c =>
          rw [pushQ_eq_replace xOf keyOf it hf]
          simp only [List.map_append, List.map_cons, List.map_nil, List.mem_append,
            List.mem_singleton]
          exact Or.inl (List.mem_map_of_mem _ (mem_aErase_of_ne hk hkc))

/-- The keys bound in the site schedule after `_add_points` are the old
keys plus the canonicalized input points. -/
theorem keys_addPoints (pts : List (ℚ × ℚ)) :
    ∀ (st : VS) (k' : Point),
      k' ∈ (addPoints pts st).points.finder.map Prod.fst ↔
        k' ∈ st.points.finder.map Prod.fst ∨
          k' ∈ pts.map (fun q => Point.mk' q.1 q.2) := by
  induction pts with
  | nil => intro st k'; simp [addPoints]
  | cons xy rest ih =>
    intro st k'
    show k' ∈ (addPoints rest _).points.finder.map Prod.fst ↔ _
    rw [ih]
    simp only [List.map_cons, List.mem_cons]
    rw [keys_mem_pushQ]
    constructor
    · rintro ((h | h) | h)
      · exact Or.inr (Or.inl h)
      · exact Or.inl h
      · exact Or.inr (Or.inr h)
    · rintro (h | h | h)
      · exact Or.inl (Or.inr h)
      · exact Or.inl (Or.inl h)
      · exact Or.inr h

theorem eq_singleton_of_unique {β : Type} {l : List β} {e : β} (he : e ∈ l)
    (hall : ∀ x ∈ l, x = e) (hnd : l.Nodup) : l = [e] := by
  cases l with
  | nil => cases he
  | cons a t =>
    have ha : a = e := hall a (List.mem_cons_self _ _)
    subst ha
    cases t with
    | nil => rfl
    | cons b t' =>
      have hb : b = a := hall b (List.mem_cons_of_mem _ (List.mem_cons_self _ _))
      subst hb
      simp at hnd

/-- A well-formed queue whose dict holds exactly one binding has exactly
one live entry, carrying that binding's key. -/
theorem live_of_finder_singleton {α κ : Type} [DecidableEq κ] (xOf : α → ℚ)
    (keyOf : α → κ) {s : QState α κ} (h : QWF xOf keyOf s) {k : κ} {c : Nat}
    (hf : s.finder = [(k, c)]) :
    ∃ e, liveEntries s = [e] ∧ keyOf e.2.2 = k ∧ e.2.1 = c := by
  obtain ⟨e, he, hec, hek, hed⟩ := h.2.2.2.2.1 (k, c) (by rw [hf]; exact List.mem_cons_self _ _)
  have helive : e ∈ liveEntries s := mem_liveEntries.mpr ⟨he, hec ▸ hed⟩
  refine ⟨e, ?_, hek, hec⟩
  refine eq_singleton_of_unique helive ?_ ?_
  · intro x hx
    obtain ⟨hxh, hxd⟩ := mem_liveEntries.mp hx
    have := h.2.2.2.2.2.1 x hxh hxd
    rw [hf] at this
    simp only [List.mem_singleton] at this
    have hcx : x.2.1 = c := congrArg Prod.snd this
    exact heap_counter_inj xOf keyOf h hxh he (hcx.trans hec.symm)
  · exact (liveEntries_counters_nodup xOf keyOf h).of_map

/-- A state whose site schedule is drained is a fixed point of
`_process_all_events`. -/
theorem processAll_points_empty (sq : ℚ → ℚ) (st : VS)
    (h : st.points.finder = []) : ∀ f, processAllEvents sq f st = st := by
  intro f
  cases f with
  | zero => rfl
  | succ n =>
    simp only [processAllEvents, h]
    rfl

/-- A state whose circle schedule is drained is a fixed point of
`_process_remaining_events`. -/
theorem processRemaining_events_empty (sq : ℚ → ℚ) (st : VS)
    (h : st.events.finder = []) : ∀ f, processRemainingEvents sq f st = st := by
  intro f
  cases f with
  | zero => rfl
  | succ n =>
    simp only [processRemainingEvents, h]
    rfl

/-- The clip walk stops at once when the first arc has no successor. -/
theorem completeWalk_pnext_none (sq : ℚ → ℚ) (f : Nat) (i : Nat) (st : VS)
    {a : Arc} (ha : st.arcs[i]? = some a) (hn : a.pnext = none) :
    completeWalk sq (f + 1) (some i) st = st := by
  simp only [completeWalk, ha, hn]

unseal Rat.add Rat.mul Rat.inv Rat.sub in
/-- Claim C6: for every input that leaves fewer than 2 distinct sites after
one-decimal canonicalization (no sites, one site, or any number of
duplicates of a single site collapsing in the schedule), the construction
completes (the embedding is total on this path, which takes no square root
and raises nothing) and both outputs are empty. -/
theorem fewSites_empty_spec (sq : ℚ → ℚ) (pts : List (ℚ × ℚ)) (w h : ℚ)
    (hdist : ((pts.map (fun q => Point.mk' q.1 q.2)).dedup).length ≤ 1) :
    getVoronoiLineSegments (generateVoronoiDiagram sq (mkVoronoi pts w h)) = [] ∧
    getLargestEmptyCircles (generateVoronoiDiagram sq (mkVoronoi pts w h)) = [] := by
  have hstf : mkVoronoi pts w h =
      { initVS w h with points := (mkVoronoi pts w h).points } :=
    addPoints_eq pts (initVS w h)
  have hQ : QWF pX pKey (mkVoronoi pts w h).points :=
    QWF_addPoints pts (initVS w h) (QWF_initQ pX pKey)
  have hkeys : ∀ k', k' ∈ (mkVoronoi pts w h).points.finder.map Prod.fst ↔
      k' ∈ pts.map (fun q => Point.mk' q.1 q.2) := by
    intro k'
    have := keys_addPoints pts (initVS w h) k'
    simpa [initVS, initQ] using this
  -- the schedule binds zero keys or exactly one
  have hfin : (mkVoronoi pts w h).points.finder = [] ∨
      ∃ kp c, (mkVoronoi pts w h).points.finder = [(kp, c)] := by
    cases hd : (pts.map (fun q => Point.mk' q.1 q.2)).dedup with
    | nil =>
      left
      have hnil : pts.map (fun q => Point.mk' q.1 q.2) = [] :=
        (List.dedup_eq_nil _).mp hd
      have : (mkVoronoi pts w h).points.finder.map Prod.fst = [] := by
        rw [List.eq_nil_iff_forall_not_mem]
        intro k' hk'
        rw [hkeys k', hnil] at hk'
        cases hk'
      exact List.map_eq_nil_iff.mp this
    | cons kp tl =>
      cases tl with
      | cons b tl2 => rw [hd] at hdist; simp at hdist
      | nil =>
        right
        have hmem : ∀ x ∈ pts.map (fun q => Point.mk' q.1 q.2), x = kp := by
          intro x hx
          have : x ∈ (pts.map (fun q => Point.mk' q.1 q.2)).dedup :=
            List.mem_dedup.mpr hx
          rw [hd] at this
          simpa using this
        have hkp : kp ∈ pts.map (fun q => Point.mk' q.1 q.2) := by
          have : kp ∈ (pts.map (fun q => Point.mk' q.1 q.2)).dedup := by
            rw [hd]; exact List.mem_cons_self _ _
          exact List.mem_dedup.mp this
        have hkeyseq : (mkVoronoi pts w h).points.finder.map Prod.fst = [kp] := by
          refine eq_singleton_of_unique ((hkeys kp).mpr hkp) ?_ hQ.2.1
          intro x hx
          exact hmem x ((hkeys x).mp hx)
        cases hfin2 : (mkVoronoi pts w h).points.finder with
        | nil => rw [hfin2] at hkeyseq; cases hkeyseq
        | cons kc rest =>
          cases rest with
          | cons kc2 rest2 => rw [hfin2] at hkeyseq; simp at hkeyseq
          | nil =>
            obtain ⟨k1, c1⟩ := kc
            exact ⟨k1, c1, rfl⟩
  rcases hfin with hfin | ⟨kp, c, hfin⟩
  · -- no distinct site at all: nothing runs
    have hne2 : ¬ ((mkVoronoi pts w h).points.finder.length = 2) := by
      rw [hfin]; simp
    rw [generateVoronoiDiagram, if_neg hne2]
    dsimp only
    rw [processAll_points_empty sq _ hfin]
    have hev : (mkVoronoi pts w h).events.finder = [] := by
      rw [hstf]; rfl
    rw [processRemaining_events_empty sq _ hev]
    have hpar : (mkVoronoi pts w h).parabolicArc = none := by
      rw [hstf]; rfl
    rw [completeUnfinishedEdges, hpar]
    have hout : (mkVoronoi pts w h).output = [] := by
      rw [hstf]; rfl
    have hlar : (mkVoronoi pts w h).largest = [] := by
      rw [hstf]; rfl
    have hwnone : ∀ f, completeWalk sq f none (mkVoronoi pts w h) = mkVoronoi pts w h := by
      intro f
      cases f with
      | zero => rfl
      | succ n => rfl
    rw [hwnone]
    constructor
    · rw [getVoronoiLineSegments, hout]; exact List.filterMap_nil _
    · rw [getLargestEmptyCircles, hlar]
  · -- exactly one distinct site: one site event builds the root arc
    have hne2 : ¬ ((mkVoronoi pts w h).points.finder.length = 2) := by
      rw [hfin]; simp
    rw [generateVoronoiDiagram, if_neg hne2]
    dsimp only
    -- the single live entry and its pop
    obtain ⟨e, helive, hek, hec⟩ := live_of_finder_singleton pX pKey hQ hfin
    have hmin : ∀ x ∈ liveEntries (mkVoronoi pts w h).points,
        keyLe (entKey e) (entKey x) := by
      intro x hx
      rw [helive] at hx
      simp only [List.mem_singleton] at hx
      subst hx
      exact keyLe_refl _
    obtain ⟨s', lr, p1, p2, p3, p4, p5, p6, p7, p8, p9⟩ :=
      popQ_live pX pKey hQ (helive ▸ List.mem_cons_self e []) hmin
    have hs'fin : s'.finder = [] := by
      rw [p2, hfin]
      show aErase [(kp, c)] (pKey e.2.2) = []
      have : pKey e.2.2 = kp := hek
      rw [this]
      simp [aErase]
    -- the site event: pop then create the root arc
    have hsite : processSiteEvent sq (mkVoronoi pts w h) =
        { mkVoronoi pts w h with
            points := s'
            arcs := (mkVoronoi pts w h).arcs ++ [⟨e.2.2, none, none, none, none, none⟩]
            parabolicArc := some (mkVoronoi pts w h).arcs.length } := by
      rw [processSiteEvent, p1]
      have hpar : (mkVoronoi pts w h).parabolicArc = none := by
        rw [hstf]; rfl
      show addArc sq e.2.2 { mkVoronoi pts w h with points := s' } =  _
      rw [addArc]
      have hpar2 : ({ mkVoronoi pts w h with points := s' } : VS).parabolicArc = none := hpar
      rw [hpar2]
    -- two steps of the event loop reach the drained state
    have hF : ∃ m, fuelFor (mkVoronoi pts w h) = m + 2 := by
      refine ⟨fuelFor (mkVoronoi pts w h) - 2, ?_⟩
      have h64 : 4 ^ 3 ≤ ((mkVoronoi pts w h).points.heap.length +
          (mkVoronoi pts w h).arcs.length + 4) ^ 3 :=
        Nat.pow_le_pow_left (by omega) 3
      unfold fuelFor
      omega
    obtain ⟨m, hm⟩ := hF
    rw [hm]
    have hc1 : (mkVoronoi pts w h).points.finder.isEmpty = false := by
      rw [hfin]; rfl
    have hc2 : (mkVoronoi pts w h).events.finder.isEmpty = true := by
      have : (mkVoronoi pts w h).events.finder = [] := by rw [hstf]; rfl
      rw [this]; rfl
    have hstep1 : processAllEvents sq (m + 2) (mkVoronoi pts w h) =
        processAllEvents sq (m + 1) (processSiteEvent sq (mkVoronoi pts w h)) := by
      simp only [processAllEvents, hc1, hc2]
      rfl
    rw [hstep1, hsite]
    set stB : VS :=
      { mkVoronoi pts w h with
          points := s'
          arcs := (mkVoronoi pts w h).arcs ++ [⟨e.2.2, none, none, none, none, none⟩]
          parabolicArc := some (mkVoronoi pts w h).arcs.length } with hstB
    have hstBpts : stB.points.finder = [] := hs'fin
    rw [processAll_points_empty sq stB hstBpts]
    have hstBev : stB.events.finder = [] := by
      rw [hstB]
      show (mkVoronoi pts w h).events.finder = []
      rw [hstf]; rfl
    rw [processRemaining_events_empty sq stB hstBev]
    -- the clip walk stops at the single root arc
    have harcs : (mkVoronoi pts w h).arcs = [] := by
      rw [hstf]; rfl
    have harc0 : stB.arcs[((mkVoronoi pts w h).arcs.length)]? =
        some ⟨e.2.2, none, none, none, none, none⟩ := by
      rw [hstB]
      show ((mkVoronoi pts w h).arcs ++ [⟨e.2.2, none, none, none, none, none⟩])[(mkVoronoi pts w h).arcs.length]? = _
      rw [List.getElem?_append_right (le_refl _)]
      simp
    have hwalk : completeUnfinishedEdges sq stB = stB := by
      rw [completeUnfinishedEdges]
      have hpar : stB.parabolicArc = some ((mkVoronoi pts w h).arcs.length) := rfl
      rw [hpar]
      cases hfl : stB.arcs.length + 1 with
      | zero => rfl
      | succ n => exact completeWalk_pnext_none sq n _ stB harc0 rfl
    rw [hwalk]
    have hout : stB.output = [] := by
      rw [hstB]
      show (mkVoronoi pts w h).output = []
      rw [hstf]; rfl
    have hlar : stB.largest = [] := by
      rw [hstB]
      show (mkVoronoi pts w h).largest = []
      rw [hstf]; rfl
    constructor
    · rw [getVoronoiLineSegments, hout]; exact List.filterMap_nil _
    · rw [getLargestEmptyCircles, hlar]

unseal Rat.add Rat.mul Rat.inv Rat.sub in
/-- Witness for C6: the duplicate input `[(1,1),(1,1)]` on a 10 by 10 box
canonicalizes to one distinct site, and both outputs are empty. -/
theorem C6_witness :
    ((([((1:ℚ),(1:ℚ)), (1,1)].map (fun q => Point.mk' q.1 q.2)).dedup).length ≤ 1) ∧
    (getVoronoiLineSegments (generateVoronoiDiagram (fun _ => 0)
        (mkVoronoi [((1:ℚ),(1:ℚ)), (1,1)] 10 10)) = [] ∧
      getLargestEmptyCircles (generateVoronoiDiagram (fun _ => 0)
        (mkVoronoi [((1:ℚ),(1:ℚ)), (1,1)] 10 10)) = []) :=
  ⟨by decide, fewSites_empty_spec (fun _ => 0) [((1:ℚ),(1:ℚ)), (1,1)] 10 10 (by decide)⟩

/-! ## Claim C8: the beachline doubly-linked-list invariant -/

/-- The link profile of an arena slot: its `pprev` and `pnext` fields. -/
def linkOf (a : Arc) : Option Nat × Option Nat := (a.pprev, a.pnext)

/-- The first slot a chain fragment links into: its head, or `out` when the
fragment is empty. -/
def hd' : List Nat → Option Nat → Option Nat
  | [], out => out
  | j :: _, _ => some j

/-- The last slot of a chain fragment, or `prev` when it is empty. -/
def pv' : List Nat → Option Nat → Option Nat
  | [], prev => prev
  | i :: rest, _ => pv' rest (some i)

/-- `chainB arcs prev l out`: the slots `l` form a doubly linked chain in
the arena `arcs`, entered from `prev` and exiting to `out`: each listed
slot holds an arc whose `pprev` is the preceding slot (or `prev` at the
head) and whose `pnext` is the following slot (or `out` at the tail). -/
def chainB (arcs : List Arc) : Option Nat → List Nat → Option Nat → Bool
  | _, [], _ => true
  | prev, i :: rest, out =>
    ((arcs[i]?).map fun a =>
      decide (a.pprev = prev) && decide (a.pnext = hd' rest out) &&
        chainB arcs (some i) rest out).getD false

/-- The doubly-linked-list invariant on the beachline, witnessed by the
slot list `l`: the engine head is the head of `l`, no slot repeats (so the
chain cannot cycle), and the `pprev`/`pnext` links along `l` are mutually
consistent with `pprev = none` at the head and `pnext = none` at the
tail. -/
def BeachInvL (st : VS) (l : List Nat) : Prop :=
  st.parabolicArc = l.head? ∧ l.Nodup ∧ chainB st.arcs none l none = true

/-- The beachline invariant: some slot list witnesses `BeachInvL`. -/
def BeachInv (st : VS) : Prop := ∃ l, BeachInvL st l

theorem chainB_cons (arcs : List Arc) (prev : Option Nat) (i : Nat)
    (rest : List Nat) (out : Option Nat) :
    chainB arcs prev (i :: rest) out =
      ((arcs[i]?).map fun a =>
        decide (a.pprev = prev) && decide (a.pnext = hd' rest out) &&
          chainB arcs (some i) rest out).getD false := rfl

theorem lt_of_getElem?_some {α : Type} {xs : List α} {i : Nat} {a : α}
    (h : xs[i]? = some a) : i < xs.length := by
  by_contra hlt
  rw [List.getElem?_eq_none (by omega)] at h
  cases h

theorem hd'_append (l₁ l₂ : List Nat) (out : Option Nat) :
    hd' (l₁ ++ l₂) out = hd' l₁ (hd' l₂ out) := by
  cases l₁ with
  | nil => rfl
  | cons i t => rfl

/-- Splitting a chain: a concatenated fragment chains iff the left part
chains into the right part's head and the right part chains from the left
part's last slot. -/
theorem chainB_append (arcs : List Arc) (l₁ l₂ : List Nat) :
    ∀ prev out, chainB arcs prev (l₁ ++ l₂) out =
      (chainB arcs prev l₁ (hd' l₂ out) && chainB arcs (pv' l₁ prev) l₂ out) := by
  induction l₁ with
  | nil =>
    intro prev out
    rw [List.nil_append]
    show chainB arcs prev l₂ out = (true && chainB arcs (pv' [] prev) l₂ out)
    rw [Bool.true_and]
    rfl
  | cons i t ih =>
    intro prev out
    rw [List.cons_append, chainB_cons, chainB_cons]
    rw [show pv' (i :: t) prev = pv' t (some i) from rfl]
    cases h1 : arcs[i]? with
    | none =>
      rw [Option.map_none', Option.getD_none, Option.map_none', Option.getD_none,
        Bool.false_and]
    | some a =>
      rw [Option.map_some', Option.getD_some, Option.map_some', Option.getD_some]
      rw [ih (some i) out, hd'_append]
      simp only [Bool.and_assoc]

/-- `chainB` reads only the link profiles of the listed slots. -/
theorem chainB_congrOn (arcs arcs' : List Arc) (l : List Nat)
    (hagree : ∀ i ∈ l, (arcs[i]?).map linkOf = (arcs'[i]?).map linkOf) :
    ∀ prev out, chainB arcs prev l out = chainB arcs' prev l out := by
  induction l with
  | nil => intro prev out; rfl
  | cons i rest ih =>
    intro prev out
    have hi := hagree i (List.mem_cons_self _ _)
    rw [chainB_cons, chainB_cons]
    cases h1 : arcs[i]? with
    | none =>
      cases h2 : arcs'[i]? with
      | none => rfl
      | some b => rw [h1, h2] at hi; cases hi
    | some a =>
      cases h2 : arcs'[i]? with
      | none => rw [h1, h2] at hi; cases hi
      | some b =>
        rw [h1, h2] at hi
        simp only [Option.map_some', Option.some.injEq] at hi
        have hp : a.pprev = b.pprev := congrArg Prod.fst hi
        have hn : a.pnext = b.pnext := congrArg Prod.snd hi
        rw [Option.map_some', Option.getD_some, Option.map_some', Option.getD_some]
        rw [hp, hn, ih (fun j hj => hagree j (List.mem_cons_of_mem _ hj)) (some i) out]

/-- Every slot on a valid chain is a live arena index. -/
theorem chainB_mem_lt (arcs : List Arc) :
    ∀ l prev out, chainB arcs prev l out = true → ∀ i ∈ l, i < arcs.length := by
  intro l
  induction l with
  | nil => intro prev out hc i hi; cases hi
  | cons j rest ih =>
    intro prev out hc i hi
    rw [chainB_cons] at hc
    cases h1 : arcs[j]? with
    | none => rw [h1, Option.map_none', Option.getD_none] at hc; cases hc
    | some a =>
      rw [h1, Option.map_some', Option.getD_some] at hc
      simp only [Bool.and_eq_true] at hc
      rcases List.mem_cons.mp hi with rfl | hi2
      · exact lt_of_getElem?_some h1
      · exact ih (some j) out hc.2 i hi2

/-- Two arenas with identical link profiles at every index. -/
def linksAgree (arcs arcs' : List Arc) : Prop :=
  ∀ i : Nat, (arcs[i]?).map linkOf = (arcs'[i]?).map linkOf

theorem linksAgree_refl (arcs : List Arc) : linksAgree arcs arcs := fun _ => rfl

theorem linksAgree_trans {a b c : List Arc} (h1 : linksAgree a b)
    (h2 : linksAgree b c) : linksAgree a c := fun i => (h1 i).trans (h2 i)

theorem modArc_length (arcs : List Arc) (i : Nat) (f : Arc → Arc) :
    (modArc arcs i f).length = arcs.length := by
  rw [modArc]
  cases h : arcs[i]? with
  | none => rfl
  | some a => exact List.length_set arcs i (f a)

theorem getElem?_modArc_self (arcs : List Arc) (i : Nat) (f : Arc → Arc) {a : Arc}
    (h : arcs[i]? = some a) : (modArc arcs i f)[i]? = some (f a) := by
  rw [modArc, h, List.getElem?_set_self', h]
  rfl

theorem getElem?_modArc_ne (arcs : List Arc) (i : Nat) (f : Arc → Arc) {j : Nat}
    (h : i ≠ j) : (modArc arcs i f)[j]? = arcs[j]? := by
  rw [modArc]
  cases h1 : arcs[i]? with
  | none => rfl
  | some a => exact List.getElem?_set_ne h

/-- A field update that keeps both links agrees with the original arena. -/
theorem linksAgree_modArc (arcs : List Arc) (i : Nat) (f : Arc → Arc)
    (hf : ∀ a, linkOf (f a) = linkOf a) : linksAgree arcs (modArc arcs i f) := by
  intro j
  rcases eq_or_ne i j with rfl | hne
  · cases h1 : arcs[i]? with
    | none =>
      have hm : modArc arcs i f = arcs := by rw [modArc, h1]
      rw [hm, h1]
    | some a =>
      rw [getElem?_modArc_self arcs i f h1]
      simp [hf a]
  · rw [getElem?_modArc_ne arcs i f hne]

/-- The tail append of `_add_parabolic_parabolicArc` (voronoi.py lines
164-176) preserves the beachline invariant: performed at the chain's tail,
it makes the fresh slot the new tail. -/
theorem appendStep_beach (st : VS) (tId : Nat) (p : Point) (l : List Nat)
    (hinv : BeachInvL st (l ++ [tId])) :
    BeachInvL (appendStep st tId p) (l ++ [tId, st.arcs.length]) := by
  obtain ⟨hhead, hnodup, hchain⟩ := hinv
  have hlt := chainB_mem_lt st.arcs (l ++ [tId]) none none hchain
  have htlt : tId < st.arcs.length := hlt tId (by simp)
  rw [chainB_append, Bool.and_eq_true] at hchain
  obtain ⟨hcl, hct⟩ := hchain
  rw [chainB_cons] at hct
  cases hta : st.arcs[tId]? with
  | none => rw [hta, Option.map_none', Option.getD_none] at hct; cases hct
  | some ta =>
  rw [hta, Option.map_some', Option.getD_some] at hct
  simp only [Bool.and_eq_true, decide_eq_true_eq] at hct
  obtain ⟨⟨htp, htn⟩, -⟩ := hct
  set newId := st.arcs.length with hnewId
  set newArc : Arc := ⟨p, some tId, none, none, none, none⟩ with hnewArc
  have hpar : (appendStep st tId p).parabolicArc = st.parabolicArc := by
    rw [appendStep, hta]
  have harcs : (appendStep st tId p).arcs =
      modArc (modArc (modArc (st.arcs ++ [newArc]) tId
        (fun a => { a with pnext := some newId })) tId
        (fun a => { a with s1 := some st.segs.length })) newId
        (fun a => { a with s0 := some st.segs.length }) := by
    rw [appendStep, hta]
  have h1 : (st.arcs ++ [newArc])[tId]? = some ta := by
    rw [List.getElem?_append_left htlt]; exact hta
  have h2 := getElem?_modArc_self (st.arcs ++ [newArc]) tId
    (fun a => { a with pnext := some newId }) h1
  have h4 : (st.arcs ++ [newArc])[newId]? = some newArc := by
    rw [hnewId, List.getElem?_append_right (le_refl _)]
    simp
  have h5 := getElem?_modArc_ne (st.arcs ++ [newArc]) tId
    (fun a => { a with pnext := some newId }) (show tId ≠ newId by omega)
  have h6 := getElem?_modArc_ne (modArc (st.arcs ++ [newArc]) tId
    (fun a => { a with pnext := some newId })) tId
    (fun a => { a with s1 := some st.segs.length }) (show tId ≠ newId by omega)
  have h8 : (appendStep st tId p).arcs[tId]? =
      some { ta with pnext := some newId, s1 := some st.segs.length } := by
    rw [harcs]
    rw [getElem?_modArc_ne _ _ _ (show newId ≠ tId by omega)]
    rw [getElem?_modArc_self _ _ _ h2]
  have h9 : (appendStep st tId p).arcs[newId]? =
      some { newArc with s0 := some st.segs.length } := by
    rw [harcs]
    rw [getElem?_modArc_self _ _ _ (h6.trans (h5.trans h4))]
  have htnotl : tId ∉ l := by
    rw [List.nodup_append] at hnodup
    intro hmem
    exact hnodup.2.2 hmem (by simp)
  have hagree : ∀ j ∈ l,
      ((appendStep st tId p).arcs[j]?).map linkOf = (st.arcs[j]?).map linkOf := by
    intro j hj
    have hjlt : j < st.arcs.length := hlt j (by simp [hj])
    have hjt : tId ≠ j := fun he => htnotl (he ▸ hj)
    rw [harcs]
    rw [getElem?_modArc_ne _ _ _ (show newId ≠ j by omega)]
    rw [getElem?_modArc_ne _ _ _ hjt, getElem?_modArc_ne _ _ _ hjt]
    rw [List.getElem?_append_left hjlt]
  refine ⟨?_, ?_, ?_⟩
  · rw [hpar, hhead]
    cases l with
    | nil => rfl
    | cons x xs => rfl
  · have hnmem : newId ∉ l ++ [tId] := fun hmem => absurd (hlt _ hmem) (by omega)
    have hnd : ((l ++ [tId]) ++ [newId]).Nodup := by
      rw [List.nodup_append]
      refine ⟨hnodup, List.nodup_singleton _, ?_⟩
      intro a ha hb
      have hab : a = newId := by simpa using hb
      subst hab
      exact hnmem ha
    rw [List.append_assoc, List.singleton_append] at hnd
    exact hnd
  · rw [chainB_append, Bool.and_eq_true]
    constructor
    · show chainB (appendStep st tId p).arcs none l (some tId) = true
      rw [chainB_congrOn _ _ l hagree none (some tId)]
      exact hcl
    · rw [chainB_cons, h8, Option.map_some', Option.getD_some]
      rw [chainB_cons, h9, Option.map_some', Option.getD_some]
      simp [htp, hd', chainB]

set_option maxHeartbeats 1000000 in
/-- `_check_potential_circle_event` never moves the engine head. -/
theorem cPCE_parabolicArc (sq : ℚ → ℚ) (st : VS) (iId : Nat) (x0ev : ℚ) :
    (checkPotentialCircleEvent sq st iId x0ev).parabolicArc = st.parabolicArc := by
  rw [checkPotentialCircleEvent]
  dsimp only
  repeat' split
  all_goals rfl

set_option maxHeartbeats 1000000 in
/-- `_check_potential_circle_event` writes only event bookkeeping fields:
every link profile in the arena is untouched. -/
theorem cPCE_links (sq : ℚ → ℚ) (st : VS) (iId : Nat) (x0ev : ℚ) :
    linksAgree st.arcs (checkPotentialCircleEvent sq st iId x0ev).arcs := by
  rw [checkPotentialCircleEvent]
  dsimp only
  repeat' split
  all_goals first
    | exact linksAgree_refl _
    | exact linksAgree_modArc _ _ _ (fun a => rfl)
    | (refine linksAgree_trans ?_ (linksAgree_modArc _ _ _ (fun a => rfl))
       exact linksAgree_modArc _ _ _ (fun a => rfl))

/-- Transport of the invariant along a head-preserving, link-preserving
state change. -/
theorem BeachInvL_agree {st st' : VS} (l : List Nat)
    (hpar : st'.parabolicArc = st.parabolicArc)
    (hla : linksAgree st.arcs st'.arcs) (h : BeachInvL st l) : BeachInvL st' l := by
  obtain ⟨h1, h2, h3⟩ := h
  refine ⟨hpar.trans h1, h2, ?_⟩
  rw [← chainB_congrOn st.arcs st'.arcs l (fun i hi => hla i) none none]
  exact h3

/-- `_check_potential_circle_event` preserves the invariant with the same
slot list. -/
theorem BeachInvL_cPCE (sq : ℚ → ℚ) (st : VS) (iId : Nat) (x : ℚ)
    (l : List Nat) (h : BeachInvL st l) :
    BeachInvL (checkPotentialCircleEvent sq st iId x) l :=
  BeachInvL_agree l (cPCE_parabolicArc sq st iId x) (cPCE_links sq st iId x) h

/-- Arena profile after the common tail of the site-event split
(voronoi.py lines 140-154): duplicate slot `D` already appended (arena
`X`), the new site's arc is appended at slot `X.length` and wired between
`iId` and `D`, and the four edge stubs are attached. -/
theorem splitTail_profiles (X : List Arc) (iId D : Nat) (p : Point)
    (s1id s2id : Nat) {xi xd : Arc} (hxi : X[iId]? = some xi)
    (hxd : X[D]? = some xd) (hiD : iId ≠ D) :
    (modArc (modArc (modArc (modArc (modArc (modArc
      (X ++ [(⟨p, some iId, some D, none, none, none⟩ : Arc)]) D
      (fun a => { a with pprev := some X.length })) iId
      (fun a => { a with pnext := some X.length })) iId
      (fun a => { a with s1 := some s1id })) X.length
      (fun a => { a with s0 := some s1id })) D
      (fun a => { a with s0 := some s2id })) X.length
      (fun a => { a with s1 := some s2id }))[iId]? = some { xi with pnext := some X.length, s1 := some s1id } ∧
    (modArc (modArc (modArc (modArc (modArc (modArc
      (X ++ [(⟨p, some iId, some D, none, none, none⟩ : Arc)]) D
      (fun a => { a with pprev := some X.length })) iId
      (fun a => { a with pnext := some X.length })) iId
      (fun a => { a with s1 := some s1id })) X.length
      (fun a => { a with s0 := some s1id })) D
      (fun a => { a with s0 := some s2id })) X.length
      (fun a => { a with s1 := some s2id }))[X.length]? =
      some (⟨p, some iId, some D, none, some s1id, some s2id⟩ : Arc) ∧
    (modArc (modArc (modArc (modArc (modArc (modArc
      (X ++ [(⟨p, some iId, some D, none, none, none⟩ : Arc)]) D
      (fun a => { a with pprev := some X.length })) iId
      (fun a => { a with pnext := some X.length })) iId
      (fun a => { a with s1 := some s1id })) X.length
      (fun a => { a with s0 := some s1id })) D
      (fun a => { a with s0 := some s2id })) X.length
      (fun a => { a with s1 := some s2id }))[D]? = some { xd with pprev := some X.length, s0 := some s2id } ∧
    ∀ j, j ≠ iId → j ≠ D → j < X.length →
      (modArc (modArc (modArc (modArc (modArc (modArc
      (X ++ [(⟨p, some iId, some D, none, none, none⟩ : Arc)]) D
      (fun a => { a with pprev := some X.length })) iId
      (fun a => { a with pnext := some X.length })) iId
      (fun a => { a with s1 := some s1id })) X.length
      (fun a => { a with s0 := some s1id })) D
      (fun a => { a with s0 := some s2id })) X.length
      (fun a => { a with s1 := some s2id }))[j]? = X[j]? := by
  have hilt : iId < X.length := lt_of_getElem?_some hxi
  have hDlt : D < X.length := lt_of_getElem?_some hxd
  refine ⟨?_, ?_, ?_, ?_⟩
  · have e0 : (X ++ [(⟨p, some iId, some D, none, none, none⟩ : Arc)])[iId]? =
        some xi := by rw [List.getElem?_append_left hilt]; exact hxi
    have e1 := (getElem?_modArc_ne _ D (fun a => { a with pprev := some X.length })
      (fun h => hiD h.symm)).trans e0
    have e2 := getElem?_modArc_self _ iId (fun a => { a with pnext := some X.length }) e1
    have e3 := getElem?_modArc_self _ iId (fun a => { a with s1 := some s1id }) e2
    have e4 := (getElem?_modArc_ne _ X.length (fun a => { a with s0 := some s1id })
      (show X.length ≠ iId by omega)).trans e3
    have e5 := (getElem?_modArc_ne _ D (fun a => { a with s0 := some s2id })
      (fun h => hiD h.symm)).trans e4
    exact (getElem?_modArc_ne _ X.length (fun a => { a with s1 := some s2id })
      (show X.length ≠ iId by omega)).trans e5
  · have e0 : (X ++ [(⟨p, some iId, some D, none, none, none⟩ : Arc)])[X.length]? =
        some (⟨p, some iId, some D, none, none, none⟩ : Arc) := by
      rw [List.getElem?_append_right (le_refl _)]
      simp
    have e1 := (getElem?_modArc_ne _ D (fun a => { a with pprev := some X.length })
      (show D ≠ X.length by omega)).trans e0
    have e2 := (getElem?_modArc_ne _ iId (fun a => { a with pnext := some X.length })
      (show iId ≠ X.length by omega)).trans e1
    have e3 := (getElem?_modArc_ne _ iId (fun a => { a with s1 := some s1id })
      (show iId ≠ X.length by omega)).trans e2
    have e4 := getElem?_modArc_self _ X.length (fun a => { a with s0 := some s1id }) e3
    have e5 := (getElem?_modArc_ne _ D (fun a => { a with s0 := some s2id })
      (show D ≠ X.length by omega)).trans e4
    exact getElem?_modArc_self _ X.length (fun a => { a with s1 := some s2id }) e5
  · have e0 : (X ++ [(⟨p, some iId, some D, none, none, none⟩ : Arc)])[D]? =
        some xd := by rw [List.getElem?_append_left hDlt]; exact hxd
    have e1 := getElem?_modArc_self _ D (fun a => { a with pprev := some X.length }) e0
    have e2 := (getElem?_modArc_ne _ iId (fun a => { a with pnext := some X.length })
      hiD).trans e1
    have e3 := (getElem?_modArc_ne _ iId (fun a => { a with s1 := some s1id })
      hiD).trans e2
    have e4 := (getElem?_modArc_ne _ X.length (fun a => { a with s0 := some s1id })
      (show X.length ≠ D by omega)).trans e3
    have e5 := getElem?_modArc_self _ D (fun a => { a with s0 := some s2id }) e4
    exact (getElem?_modArc_ne _ X.length (fun a => { a with s1 := some s2id })
      (show X.length ≠ D by omega)).trans e5
  · intro j hji hjD hjlt
    have e0 : (X ++ [(⟨p, some iId, some D, none, none, none⟩ : Arc)])[j]? = X[j]? :=
      List.getElem?_append_left hjlt
    have e1 := (getElem?_modArc_ne _ D (fun a => { a with pprev := some X.length })
      (fun h => hjD h.symm)).trans e0
    have e2 := (getElem?_modArc_ne _ iId (fun a => { a with pnext := some X.length })
      (fun h => hji h.symm)).trans e1
    have e3 := (getElem?_modArc_ne _ iId (fun a => { a with s1 := some s1id })
      (fun h => hji h.symm)).trans e2
    have e4 := (getElem?_modArc_ne _ X.length (fun a => { a with s0 := some s1id })
      (show X.length ≠ j by omega)).trans e3
    have e5 := (getElem?_modArc_ne _ D (fun a => { a with s0 := some s2id })
      (fun h => hjD h.symm)).trans e4
    exact (getElem?_modArc_ne _ X.length (fun a => { a with s1 := some s2id })
      (show X.length ≠ j by omega)).trans e5

set_option maxHeartbeats 1000000 in
/-- The site-event split performed on the chain's tail arc (no successor:
`i.pnext` is `None`, voronoi.py line 139 else-branch via the 135 match)
preserves the beachline invariant: the chain gains the new arc and the
duplicate as new tail. -/
theorem splitStep_beach_nil (sq : ℚ → ℚ) (st : VS) (iId : Nat) (p z : Point)
    (flag2 : Bool) (l₁ : List Nat) (hinv : BeachInvL st (l₁ ++ [iId])) :
    BeachInv (splitStep sq st iId p z flag2) := by
  obtain ⟨hhead, hnodup, hchain⟩ := hinv
  have hlt := chainB_mem_lt st.arcs (l₁ ++ [iId]) none none hchain
  have hilt : iId < st.arcs.length := hlt iId (by simp)
  rw [chainB_append, Bool.and_eq_true] at hchain
  obtain ⟨hcl, hcr⟩ := hchain
  rw [chainB_cons] at hcr
  cases hia : st.arcs[iId]? with
  | none => rw [hia, Option.map_none', Option.getD_none] at hcr; cases hcr
  | some ia =>
  rw [hia, Option.map_some', Option.getD_some] at hcr
  simp only [Bool.and_eq_true, decide_eq_true_eq] at hcr
  obtain ⟨⟨hip, hin⟩, -⟩ := hcr
  set X : List Arc := modArc (modArc
      (st.arcs ++ [(⟨ia.p, some iId, none, none, none, none⟩ : Arc)]) iId
      (fun a => { a with pnext := some st.arcs.length })) st.arcs.length
      (fun a => { a with s1 := ia.s1 }) with hXdef
  have hXlen : X.length = st.arcs.length + 1 := by
    rw [hXdef, modArc_length, modArc_length, List.length_append]
    rfl
  have hXi : X[iId]? = some { ia with pnext := some st.arcs.length } := by
    rw [hXdef]
    have e0 : (st.arcs ++ [(⟨ia.p, some iId, none, none, none, none⟩ : Arc)])[iId]? =
        some ia := by rw [List.getElem?_append_left hilt]; exact hia
    have e1 := getElem?_modArc_self _ iId
      (fun a => { a with pnext := some st.arcs.length }) e0
    exact (getElem?_modArc_ne _ st.arcs.length
      (fun a => { a with s1 := ia.s1 }) (show st.arcs.length ≠ iId by omega)).trans e1
  have hXd : X[st.arcs.length]? =
      some { (⟨ia.p, some iId, none, none, none, none⟩ : Arc) with s1 := ia.s1 } := by
    rw [hXdef]
    have e0 : (st.arcs ++ [(⟨ia.p, some iId, none, none, none, none⟩ : Arc)])[st.arcs.length]? =
        some (⟨ia.p, some iId, none, none, none, none⟩ : Arc) := by
      rw [List.getElem?_append_right (le_refl _)]
      simp
    have e1 := (getElem?_modArc_ne _ iId
      (fun a => { a with pnext := some st.arcs.length })
      (show iId ≠ st.arcs.length by omega)).trans e0
    exact getElem?_modArc_self _ st.arcs.length (fun a => { a with s1 := ia.s1 }) e1
  have hXj : ∀ j, j ≠ iId → j < st.arcs.length → X[j]? = st.arcs[j]? := by
    intro j hji hjlt
    rw [hXdef]
    have e0 : (st.arcs ++ [(⟨ia.p, some iId, none, none, none, none⟩ : Arc)])[j]? =
        st.arcs[j]? := List.getElem?_append_left hjlt
    have e1 := (getElem?_modArc_ne _ iId
      (fun a => { a with pnext := some st.arcs.length })
      (fun h => hji h.symm)).trans e0
    exact (getElem?_modArc_ne _ st.arcs.length
      (fun a => { a with s1 := ia.s1 }) (show st.arcs.length ≠ j by omega)).trans e1
  obtain ⟨hYi, hYn, hYd, hYj⟩ := splitTail_profiles X iId st.arcs.length p
    st.segs.length (st.segs ++ [(⟨z, none, false⟩ : Seg)]).length hXi hXd
    (show iId ≠ st.arcs.length by omega)
  have hK : splitStep sq st iId p z flag2 =
      checkPotentialCircleEvent sq (checkPotentialCircleEvent sq
        (checkPotentialCircleEvent sq
          { st with
              arcs := modArc (modArc (modArc (modArc (modArc (modArc
                (X ++ [(⟨p, some iId, some st.arcs.length, none, none, none⟩ : Arc)])
                  st.arcs.length
                  (fun a => { a with pprev := some X.length })) iId
                  (fun a => { a with pnext := some X.length })) iId
                  (fun a => { a with s1 := some st.segs.length })) X.length
                  (fun a => { a with s0 := some st.segs.length })) st.arcs.length
                  (fun a => { a with s0 := some (st.segs ++ [(⟨z, none, false⟩ : Seg)]).length })) X.length
                  (fun a => { a with s1 := some (st.segs ++ [(⟨z, none, false⟩ : Seg)]).length })
              segs := (st.segs ++ [(⟨z, none, false⟩ : Seg)]) ++ [(⟨z, none, false⟩ : Seg)]
              output := (st.output ++ [st.segs.length]) ++
                [(st.segs ++ [(⟨z, none, false⟩ : Seg)]).length] }
          X.length p.x) iId p.x) st.arcs.length p.x := by
    rw [splitStep, hia]
    dsimp only
    rw [show ia.pnext = none from hin]
  refine ⟨l₁ ++ [iId, X.length, st.arcs.length], ?_⟩
  rw [hK]
  refine BeachInvL_cPCE _ _ _ _ _ (BeachInvL_cPCE _ _ _ _ _ (BeachInvL_cPCE _ _ _ _ _ ?_))
  refine ⟨?_, ?_, ?_⟩
  · show st.parabolicArc = (l₁ ++ [iId, X.length, st.arcs.length]).head?
    rw [hhead]
    cases l₁ with
    | nil => rfl
    | cons x xs => rfl
  · show (l₁ ++ [iId, X.length, st.arcs.length]).Nodup
    have h1 : (l₁ ++ [iId]) ++ [X.length, st.arcs.length] =
        l₁ ++ [iId, X.length, st.arcs.length] := by
      rw [List.append_assoc, List.singleton_append]
    rw [← h1, List.nodup_append]
    refine ⟨hnodup, ?_, ?_⟩
    · rw [hXlen]
      simp
    · intro a ha hb
      have halt : a < st.arcs.length := hlt a ha
      have : a = X.length ∨ a = st.arcs.length := by simpa using hb
      omega
  · show chainB _ none (l₁ ++ [iId, X.length, st.arcs.length]) none = true
    rw [show (l₁ ++ [iId, X.length, st.arcs.length] : List Nat) =
      l₁ ++ iId :: X.length :: st.arcs.length :: [] from rfl]
    rw [chainB_append, Bool.and_eq_true]
    constructor
    · have hagree : ∀ j ∈ l₁, ((modArc (modArc (modArc (modArc (modArc (modArc
          (X ++ [(⟨p, some iId, some st.arcs.length, none, none, none⟩ : Arc)])
            st.arcs.length
            (fun a => { a with pprev := some X.length })) iId
            (fun a => { a with pnext := some X.length })) iId
            (fun a => { a with s1 := some st.segs.length })) X.length
            (fun a => { a with s0 := some st.segs.length })) st.arcs.length
            (fun a => { a with s0 := some (st.segs ++ [(⟨z, none, false⟩ : Seg)]).length })) X.length
            (fun a => { a with s1 := some (st.segs ++ [(⟨z, none, false⟩ : Seg)]).length }))[j]?).map linkOf =
          (st.arcs[j]?).map linkOf := by
        intro j hj
        have hjiId : j ≠ iId := by
          intro he
          rw [List.nodup_append] at hnodup
          exact hnodup.2.2 hj (by simp [he])
        have hjlt : j < st.arcs.length := hlt j (by simp [hj])
        rw [hYj j hjiId (by omega) (by omega), hXj j hjiId hjlt]
      rw [chainB_congrOn _ st.arcs l₁ hagree none _]
      exact hcl
    · rw [chainB_cons, hYi, Option.map_some', Option.getD_some]
      rw [chainB_cons, hYn, Option.map_some', Option.getD_some]
      rw [chainB_cons, hYd, Option.map_some', Option.getD_some]
      simp [hip, hd', chainB]

set_option maxHeartbeats 1000000 in
/-- The site-event split in the line-139 branch (the successor exists but
the new parabola also intersects it, so the duplicate is created with no
successor): the old successor and everything after it drop out of the
chain, and the invariant holds on the shortened chain. -/
theorem splitStep_beach_drop (sq : ℚ → ℚ) (st : VS) (iId : Nat) (p z : Point)
    (l₁ l₃ : List Nat) (oldNx : Nat)
    (hinv : BeachInvL st (l₁ ++ iId :: oldNx :: l₃)) :
    BeachInv (splitStep sq st iId p z true) := by
  obtain ⟨hhead, hnodup, hchain⟩ := hinv
  have hlt := chainB_mem_lt st.arcs (l₁ ++ iId :: oldNx :: l₃) none none hchain
  have hilt : iId < st.arcs.length := hlt iId (by simp)
  rw [chainB_append, Bool.and_eq_true] at hchain
  obtain ⟨hcl, hcr⟩ := hchain
  rw [chainB_cons] at hcr
  cases hia : st.arcs[iId]? with
  | none => rw [hia, Option.map_none', Option.getD_none] at hcr; cases hcr
  | some ia =>
  rw [hia, Option.map_some', Option.getD_some] at hcr
  simp only [Bool.and_eq_true, decide_eq_true_eq] at hcr
  obtain ⟨⟨hip, hin⟩, -⟩ := hcr
  have hnd1 : (l₁ ++ [iId]).Nodup := by
    have hsub : List.Sublist (l₁ ++ [iId]) (l₁ ++ iId :: oldNx :: l₃) :=
      List.Sublist.append_left ((List.nil_sublist _).cons₂ iId) l₁
    exact hsub.nodup hnodup
  set X : List Arc := modArc (modArc
      (st.arcs ++ [(⟨ia.p, some iId, none, none, none, none⟩ : Arc)]) iId
      (fun a => { a with pnext := some st.arcs.length })) st.arcs.length
      (fun a => { a with s1 := ia.s1 }) with hXdef
  have hXlen : X.length = st.arcs.length + 1 := by
    rw [hXdef, modArc_length, modArc_length, List.length_append]
    rfl
  have hXi : X[iId]? = some { ia with pnext := some st.arcs.length } := by
    rw [hXdef]
    have e0 : (st.arcs ++ [(⟨ia.p, some iId, none, none, none, none⟩ : Arc)])[iId]? =
        some ia := by rw [List.getElem?_append_left hilt]; exact hia
    have e1 := getElem?_modArc_self _ iId
      (fun a => { a with pnext := some st.arcs.length }) e0
    exact (getElem?_modArc_ne _ st.arcs.length
      (fun a => { a with s1 := ia.s1 }) (show st.arcs.length ≠ iId by omega)).trans e1
  have hXd : X[st.arcs.length]? =
      some { (⟨ia.p, some iId, none, none, none, none⟩ : Arc) with s1 := ia.s1 } := by
    rw [hXdef]
    have e0 : (st.arcs ++ [(⟨ia.p, some iId, none, none, none, none⟩ : Arc)])[st.arcs.length]? =
        some (⟨ia.p, some iId, none, none, none, none⟩ : Arc) := by
      rw [List.getElem?_append_right (le_refl _)]
      simp
    have e1 := (getElem?_modArc_ne _ iId
      (fun a => { a with pnext := some st.arcs.length })
      (show iId ≠ st.arcs.length by omega)).trans e0
    exact getElem?_modArc_self _ st.arcs.length (fun a => { a with s1 := ia.s1 }) e1
  have hXj : ∀ j, j ≠ iId → j < st.arcs.length → X[j]? = st.arcs[j]? := by
    intro j hji hjlt
    rw [hXdef]
    have e0 : (st.arcs ++ [(⟨ia.p, some iId, none, none, none, none⟩ : Arc)])[j]? =
        st.arcs[j]? := List.getElem?_append_left hjlt
    have e1 := (getElem?_modArc_ne _ iId
      (fun a => { a with pnext := some st.arcs.length })
      (fun h => hji h.symm)).trans e0
    exact (getElem?_modArc_ne _ st.arcs.length
      (fun a => { a with s1 := ia.s1 }) (show st.arcs.length ≠ j by omega)).trans e1
  obtain ⟨hYi, hYn, hYd, hYj⟩ := splitTail_profiles X iId st.arcs.length p
    st.segs.length (st.segs ++ [(⟨z, none, false⟩ : Seg)]).length hXi hXd
    (show iId ≠ st.arcs.length by omega)
  have hK : splitStep sq st iId p z true =
      checkPotentialCircleEvent sq (checkPotentialCircleEvent sq
        (checkPotentialCircleEvent sq
          { st with
              arcs := modArc (modArc (modArc (modArc (modArc (modArc
                (X ++ [(⟨p, some iId, some st.arcs.length, none, none, none⟩ : Arc)])
                  st.arcs.length
                  (fun a => { a with pprev := some X.length })) iId
                  (fun a => { a with pnext := some X.length })) iId
                  (fun a => { a with s1 := some st.segs.length })) X.length
                  (fun a => { a with s0 := some st.segs.length })) st.arcs.length
                  (fun a => { a with s0 := some (st.segs ++ [(⟨z, none, false⟩ : Seg)]).length })) X.length
                  (fun a => { a with s1 := some (st.segs ++ [(⟨z, none, false⟩ : Seg)]).length })
              segs := (st.segs ++ [(⟨z, none, false⟩ : Seg)]) ++ [(⟨z, none, false⟩ : Seg)]
              output := (st.output ++ [st.segs.length]) ++
                [(st.segs ++ [(⟨z, none, false⟩ : Seg)]).length] }
          X.length p.x) iId p.x) st.arcs.length p.x := by
    rw [splitStep, hia]
    dsimp only
    rw [show ia.pnext = some oldNx from hin]
    dsimp only
    rw [if_neg (by decide)]
  refine ⟨l₁ ++ [iId, X.length, st.arcs.length], ?_⟩
  rw [hK]
  refine BeachInvL_cPCE _ _ _ _ _ (BeachInvL_cPCE _ _ _ _ _ (BeachInvL_cPCE _ _ _ _ _ ?_))
  refine ⟨?_, ?_, ?_⟩
  · show st.parabolicArc = (l₁ ++ [iId, X.length, st.arcs.length]).head?
    rw [hhead]
    cases l₁ with
    | nil => rfl
    | cons x xs => rfl
  · show (l₁ ++ [iId, X.length, st.arcs.length]).Nodup
    have h1 : (l₁ ++ [iId]) ++ [X.length, st.arcs.length] =
        l₁ ++ [iId, X.length, st.arcs.length] := by
      rw [List.append_assoc, List.singleton_append]
    rw [← h1, List.nodup_append]
    refine ⟨hnd1, ?_, ?_⟩
    · rw [hXlen]
      simp
    · intro a ha hb
      have hmem : a ∈ l₁ ++ iId :: oldNx :: l₃ :=
        (List.Sublist.append_left ((List.nil_sublist _).cons₂ iId) l₁).subset ha
      have halt : a < st.arcs.length := hlt a hmem
      have : a = X.length ∨ a = st.arcs.length := by simpa using hb
      omega
  · show chainB _ none (l₁ ++ [iId, X.length, st.arcs.length]) none = true
    rw [show (l₁ ++ [iId, X.length, st.arcs.length] : List Nat) =
      l₁ ++ iId :: X.length :: st.arcs.length :: [] from rfl]
    rw [chainB_append, Bool.and_eq_true]
    constructor
    · have hagree : ∀ j ∈ l₁, ((modArc (modArc (modArc (modArc (modArc (modArc
          (X ++ [(⟨p, some iId, some st.arcs.length, none, none, none⟩ : Arc)])
            st.arcs.length
            (fun a => { a with pprev := some X.length })) iId
            (fun a => { a with pnext := some X.length })) iId
            (fun a => { a with s1 := some st.segs.length })) X.length
            (fun a => { a with s0 := some st.segs.length })) st.arcs.length
            (fun a => { a with s0 := some (st.segs ++ [(⟨z, none, false⟩ : Seg)]).length })) X.length
            (fun a => { a with s1 := some (st.segs ++ [(⟨z, none, false⟩ : Seg)]).length }))[j]?).map linkOf =
          (st.arcs[j]?).map linkOf := by
        intro j hj
        have hjiId : j ≠ iId := by
          intro he
          rw [List.nodup_append] at hnodup
          exact hnodup.2.2 hj (by simp [he])
        have hjlt : j < st.arcs.length := hlt j (by simp [hj])
        rw [hYj j hjiId (by omega) (by omega), hXj j hjiId hjlt]
      rw [chainB_congrOn _ st.arcs l₁ hagree none _]
      exact hcl
    · rw [chainB_cons, hYi, Option.map_some', Option.getD_some]
      rw [chainB_cons, hYn, Option.map_some', Option.getD_some]
      rw [chainB_cons, hYd, Option.map_some', Option.getD_some]
      simp [hip, hd', chainB]

set_option maxHeartbeats 1000000 in
/-- The site-event split in the lines 136-138 branch (the successor exists
and keeps its arc): the duplicate is spliced between the new arc and the
old successor, whose `pprev` is redirected, and the invariant holds on the
extended chain. -/
theorem splitStep_beach_ins (sq : ℚ → ℚ) (st : VS) (iId : Nat) (p z : Point)
    (l₁ l₃ : List Nat) (oldNx : Nat)
    (hinv : BeachInvL st (l₁ ++ iId :: oldNx :: l₃)) :
    BeachInv (splitStep sq st iId p z false) := by
  obtain ⟨hhead, hnodup, hchain⟩ := hinv
  have hlt := chainB_mem_lt st.arcs (l₁ ++ iId :: oldNx :: l₃) none none hchain
  have hilt : iId < st.arcs.length := hlt iId (by simp)
  have honlt : oldNx < st.arcs.length := hlt oldNx (by simp)
  have hndparts := hnodup
  rw [List.nodup_append] at hndparts
  obtain ⟨ndl₁, ndr, disj⟩ := hndparts
  rw [List.nodup_cons] at ndr
  obtain ⟨hinot, ndr2⟩ := ndr
  have hiO : iId ≠ oldNx := fun h => hinot (h ▸ List.mem_cons_self _ _)
  have honotl₃ : oldNx ∉ l₃ := (List.nodup_cons.mp ndr2).1
  have hnd1 : (l₁ ++ [iId]).Nodup := by
    have hsub : List.Sublist (l₁ ++ [iId]) (l₁ ++ iId :: oldNx :: l₃) :=
      List.Sublist.append_left ((List.nil_sublist _).cons₂ iId) l₁
    exact hsub.nodup hnodup
  rw [chainB_append, Bool.and_eq_true] at hchain
  obtain ⟨hcl, hcr⟩ := hchain
  rw [chainB_cons] at hcr
  cases hia : st.arcs[iId]? with
  | none => rw [hia, Option.map_none', Option.getD_none] at hcr; cases hcr
  | some ia =>
  rw [hia, Option.map_some', Option.getD_some] at hcr
  simp only [Bool.and_eq_true, decide_eq_true_eq] at hcr
  obtain ⟨⟨hip, hin⟩, hc2⟩ := hcr
  rw [chainB_cons] at hc2
  cases hna : st.arcs[oldNx]? with
  | none => rw [hna, Option.map_none', Option.getD_none] at hc2; cases hc2
  | some na =>
  rw [hna, Option.map_some', Option.getD_some] at hc2
  simp only [Bool.and_eq_true, decide_eq_true_eq] at hc2
  obtain ⟨⟨hnp, hnn⟩, hc3⟩ := hc2
  set X : List Arc := modArc (modArc (modArc
      (st.arcs ++ [(⟨ia.p, some iId, some oldNx, none, none, none⟩ : Arc)]) oldNx
      (fun a => { a with pprev := some st.arcs.length })) iId
      (fun a => { a with pnext := some st.arcs.length })) st.arcs.length
      (fun a => { a with s1 := ia.s1 }) with hXdef
  have hXlen : X.length = st.arcs.length + 1 := by
    rw [hXdef, modArc_length, modArc_length, modArc_length, List.length_append]
    rfl
  have hXi : X[iId]? = some { ia with pnext := some st.arcs.length } := by
    rw [hXdef]
    have e0 : (st.arcs ++ [(⟨ia.p, some iId, some oldNx, none, none, none⟩ : Arc)])[iId]? =
        some ia := by rw [List.getElem?_append_left hilt]; exact hia
    have e1 := (getElem?_modArc_ne _ oldNx
      (fun a => { a with pprev := some st.arcs.length })
      (fun h => hiO h.symm)).trans e0
    have e2 := getElem?_modArc_self _ iId
      (fun a => { a with pnext := some st.arcs.length }) e1
    exact (getElem?_modArc_ne _ st.arcs.length
      (fun a => { a with s1 := ia.s1 }) (show st.arcs.length ≠ iId by omega)).trans e2
  have hXd : X[st.arcs.length]? =
      some { (⟨ia.p, some iId, some oldNx, none, none, none⟩ : Arc) with s1 := ia.s1 } := by
    rw [hXdef]
    have e0 : (st.arcs ++ [(⟨ia.p, some iId, some oldNx, none, none, none⟩ : Arc)])[st.arcs.length]? =
        some (⟨ia.p, some iId, some oldNx, none, none, none⟩ : Arc) := by
      rw [List.getElem?_append_right (le_refl _)]
      simp
    have e1 := (getElem?_modArc_ne _ oldNx
      (fun a => { a with pprev := some st.arcs.length })
      (show oldNx ≠ st.arcs.length by omega)).trans e0
    have e2 := (getElem?_modArc_ne _ iId
      (fun a => { a with pnext := some st.arcs.length })
      (show iId ≠ st.arcs.length by omega)).trans e1
    exact getElem?_modArc_self _ st.arcs.length (fun a => { a with s1 := ia.s1 }) e2
  have hXo : X[oldNx]? = some { na with pprev := some st.arcs.length } := by
    rw [hXdef]
    have e0 : (st.arcs ++ [(⟨ia.p, some iId, some oldNx, none, none, none⟩ : Arc)])[oldNx]? =
        some na := by rw [List.getElem?_append_left honlt]; exact hna
    have e1 := getElem?_modArc_self _ oldNx
      (fun a => { a with pprev := some st.arcs.length }) e0
    have e2 := (getElem?_modArc_ne _ iId
      (fun a => { a with pnext := some st.arcs.length }) hiO).trans e1
    exact (getElem?_modArc_ne _ st.arcs.length
      (fun a => { a with s1 := ia.s1 }) (show st.arcs.length ≠ oldNx by omega)).trans e2
  have hXj : ∀ j, j ≠ iId → j ≠ oldNx → j < st.arcs.length → X[j]? = st.arcs[j]? := by
    intro j hji hjo hjlt
    rw [hXdef]
    have e0 : (st.arcs ++ [(⟨ia.p, some iId, some oldNx, none, none, none⟩ : Arc)])[j]? =
        st.arcs[j]? := List.getElem?_append_left hjlt
    have e1 := (getElem?_modArc_ne _ oldNx
      (fun a => { a with pprev := some st.arcs.length })
      (fun h => hjo h.symm)).trans e0
    have e2 := (getElem?_modArc_ne _ iId
      (fun a => { a with pnext := some st.arcs.length })
      (fun h => hji h.symm)).trans e1
    exact (getElem?_modArc_ne _ st.arcs.length
      (fun a => { a with s1 := ia.s1 }) (show st.arcs.length ≠ j by omega)).trans e2
  obtain ⟨hYi, hYn, hYd, hYj⟩ := splitTail_profiles X iId st.arcs.length p
    st.segs.length (st.segs ++ [(⟨z, none, false⟩ : Seg)]).length hXi hXd
    (show iId ≠ st.arcs.length by omega)
  have hYo := (hYj oldNx (fun h => hiO h.symm) (show oldNx ≠ st.arcs.length by omega)
    (show oldNx < X.length by omega)).trans hXo
  have hK : splitStep sq st iId p z false =
      checkPotentialCircleEvent sq (checkPotentialCircleEvent sq
        (checkPotentialCircleEvent sq
          { st with
              arcs := modArc (modArc (modArc (modArc (modArc (modArc
                (X ++ [(⟨p, some iId, some st.arcs.length, none, none, none⟩ : Arc)])
                  st.arcs.length
                  (fun a => { a with pprev := some X.length })) iId
                  (fun a => { a with pnext := some X.length })) iId
                  (fun a => { a with s1 := some st.segs.length })) X.length
                  (fun a => { a with s0 := some st.segs.length })) st.arcs.length
                  (fun a => { a with s0 := some (st.segs ++ [(⟨z, none, false⟩ : Seg)]).length })) X.length
                  (fun a => { a with s1 := some (st.segs ++ [(⟨z, none, false⟩ : Seg)]).length })
              segs := (st.segs ++ [(⟨z, none, false⟩ : Seg)]) ++ [(⟨z, none, false⟩ : Seg)]
              output := (st.output ++ [st.segs.length]) ++
                [(st.segs ++ [(⟨z, none, false⟩ : Seg)]).length] }
          X.length p.x) iId p.x) st.arcs.length p.x := by
    rw [splitStep, hia]
    dsimp only
    rw [show ia.pnext = some oldNx from hin]
    dsimp only
    rw [if_pos (by decide)]
  refine ⟨l₁ ++ iId :: X.length :: st.arcs.length :: oldNx :: l₃, ?_⟩
  rw [hK]
  refine BeachInvL_cPCE _ _ _ _ _ (BeachInvL_cPCE _ _ _ _ _ (BeachInvL_cPCE _ _ _ _ _ ?_))
  refine ⟨?_, ?_, ?_⟩
  · show st.parabolicArc =
      (l₁ ++ iId :: X.length :: st.arcs.length :: oldNx :: l₃).head?
    rw [hhead]
    cases l₁ with
    | nil => rfl
    | cons x xs => rfl
  · show (l₁ ++ iId :: X.length :: st.arcs.length :: oldNx :: l₃).Nodup
    have h1 : (l₁ ++ [iId]) ++ ([X.length, st.arcs.length] ++ (oldNx :: l₃)) =
        l₁ ++ iId :: X.length :: st.arcs.length :: oldNx :: l₃ := by simp
    rw [← h1, List.nodup_append]
    refine ⟨hnd1, ?_, ?_⟩
    · rw [List.nodup_append]
      refine ⟨by rw [hXlen]; simp, ndr2, ?_⟩
      intro a ha hb
      have hblt : a < st.arcs.length :=
        hlt a (List.mem_append.mpr (Or.inr (List.mem_cons_of_mem _ hb)))
      have : a = X.length ∨ a = st.arcs.length := by simpa using ha
      omega
    · intro a ha hb
      rcases List.mem_append.mp hb with hb1 | hb2
      · have halt : a < st.arcs.length :=
          hlt a ((List.Sublist.append_left ((List.nil_sublist _).cons₂ iId) l₁).subset ha)
        have : a = X.length ∨ a = st.arcs.length := by simpa using hb1
        omega
      · rcases List.mem_append.mp ha with hal | hai
        · exact disj hal (List.mem_cons_of_mem _ hb2)
        · have hae : a = iId := by simpa using hai
          subst hae
          exact hinot hb2
  · show chainB _ none (l₁ ++ iId :: X.length :: st.arcs.length :: oldNx :: l₃) none = true
    rw [chainB_append, Bool.and_eq_true]
    constructor
    · have hagree : ∀ j ∈ l₁, ((modArc (modArc (modArc (modArc (modArc (modArc
          (X ++ [(⟨p, some iId, some st.arcs.length, none, none, none⟩ : Arc)])
            st.arcs.length
            (fun a => { a with pprev := some X.length })) iId
            (fun a => { a with pnext := some X.length })) iId
            (fun a => { a with s1 := some st.segs.length })) X.length
            (fun a => { a with s0 := some st.segs.length })) st.arcs.length
            (fun a => { a with s0 := some (st.segs ++ [(⟨z, none, false⟩ : Seg)]).length })) X.length
            (fun a => { a with s1 := some (st.segs ++ [(⟨z, none, false⟩ : Seg)]).length }))[j]?).map linkOf =
          (st.arcs[j]?).map linkOf := by
        intro j hj
        have hjiId : j ≠ iId := fun he => disj hj (by simp [he])
        have hjo : j ≠ oldNx := fun he => disj hj (by simp [he])
        have hjlt : j < st.arcs.length := hlt j (by simp [hj])
        rw [hYj j hjiId (by omega) (by omega), hXj j hjiId hjo hjlt]
      rw [chainB_congrOn _ st.arcs l₁ hagree none _]
      exact hcl
    · have hagree3 : ∀ j ∈ l₃, ((modArc (modArc (modArc (modArc (modArc (modArc
          (X ++ [(⟨p, some iId, some st.arcs.length, none, none, none⟩ : Arc)])
            st.arcs.length
            (fun a => { a with pprev := some X.length })) iId
            (fun a => { a with pnext := some X.length })) iId
            (fun a => { a with s1 := some st.segs.length })) X.length
            (fun a => { a with s0 := some st.segs.length })) st.arcs.length
            (fun a => { a with s0 := some (st.segs ++ [(⟨z, none, false⟩ : Seg)]).length })) X.length
            (fun a => { a with s1 := some (st.segs ++ [(⟨z, none, false⟩ : Seg)]).length }))[j]?).map linkOf =
          (st.arcs[j]?).map linkOf := by
        intro j hj
        have hjiId : j ≠ iId := fun he => hinot (he ▸ List.mem_cons_of_mem _ hj)
        have hjo : j ≠ oldNx := fun he => honotl₃ (he ▸ hj)
        have hjlt : j < st.arcs.length :=
          hlt j (List.mem_append.mpr (Or.inr (by simp [hj])))
        rw [hYj j hjiId (by omega) (by omega), hXj j hjiId hjo hjlt]
      rw [chainB_cons, hYi, Option.map_some', Option.getD_some]
      rw [chainB_cons, hYn, Option.map_some', Option.getD_some]
      rw [chainB_cons, hYd, Option.map_some', Option.getD_some]
      rw [chainB_cons, hYo, Option.map_some', Option.getD_some]
      rw [chainB_congrOn _ st.arcs l₃ hagree3 (some oldNx) none]
      simp [hip, hnn, hc3, hd', chainB]

set_option maxHeartbeats 1000000 in
/-- The circle-event unlink (voronoi.py lines 371-394) performed on an arc
whose `pprev` points at an arc `pr` of the chain and which heads a
link-consistent, `None`-terminated run `aId :: F` of arcs disjoint from the
chain prefix.  This covers both an interior arc of the chain itself
(`F` is then the chain's tail after `aId`) and an arc that the line-139
drop branch cut off the chain together with its former successors (the
drop rewires only the split arc, so the severed run keeps exactly this
shape, and `_check_potential_circle_event` is not called on it, so its
pending event can still fire).  In both cases the unlink rewires `pr` to
the rest of the run and the invariant holds on `l₁ ++ pr :: F`. -/
theorem unlinkStep_beach (sq : ℚ → ℚ) (st : VS) (ex : ℚ) (ep : Point)
    (aId : Nat) (l₁ rest F : List Nat) (pr : Nat)
    (hinv : BeachInvL st (l₁ ++ pr :: rest))
    (hfrag : chainB st.arcs (some pr) (aId :: F) none = true)
    (hnd : (l₁ ++ pr :: aId :: F).Nodup) :
    BeachInv (unlinkStep sq st ex ep aId) := by
  obtain ⟨hhead, hnodup, hchain⟩ := hinv
  rw [chainB_append, Bool.and_eq_true] at hchain
  obtain ⟨hcl, hcr⟩ := hchain
  rw [chainB_cons] at hcr
  cases hpa : st.arcs[pr]? with
  | none => rw [hpa, Option.map_none', Option.getD_none] at hcr; cases hcr
  | some pa =>
  rw [hpa, Option.map_some', Option.getD_some] at hcr
  simp only [Bool.and_eq_true, decide_eq_true_eq] at hcr
  obtain ⟨⟨hpp, -⟩, -⟩ := hcr
  rw [chainB_cons] at hfrag
  cases hiaq : st.arcs[aId]? with
  | none => rw [hiaq, Option.map_none', Option.getD_none] at hfrag; cases hfrag
  | some a =>
  rw [hiaq, Option.map_some', Option.getD_some] at hfrag
  simp only [Bool.and_eq_true, decide_eq_true_eq] at hfrag
  obtain ⟨⟨hap, han⟩, hcF⟩ := hfrag
  have hnd2 := hnd
  rw [List.nodup_append] at hnd2
  obtain ⟨nd1, ndr, disj⟩ := hnd2
  rw [List.nodup_cons] at ndr
  obtain ⟨hprnot, ndr2⟩ := ndr
  rw [List.nodup_cons] at ndr2
  obtain ⟨hanot, ndF⟩ := ndr2
  cases F with
  | nil =>
    set Z : List Arc := modArc st.arcs pr
        (fun x => { x with pnext := none, s1 := some st.segs.length }) with hZdef
    have hex : ∃ st5 : VS, unlinkStep sq st ex ep aId =
        checkPotentialCircleEvent sq st5 pr ex ∧
        st5.arcs = Z ∧ st5.parabolicArc = st.parabolicArc := by
      rw [unlinkStep]
      dsimp only
      rw [show st.arcs[aId]? = some a from hiaq]
      dsimp only
      rw [show a.pprev = some pr from hap, show a.pnext = none from han]
      dsimp only
      cases a.s0 with
      | none =>
        cases a.s1 with
        | none => exact ⟨_, rfl, rfl, rfl⟩
        | some s1id => exact ⟨_, rfl, rfl, rfl⟩
      | some s0id =>
        cases a.s1 with
        | none => exact ⟨_, rfl, rfl, rfl⟩
        | some s1id => exact ⟨_, rfl, rfl, rfl⟩
    obtain ⟨st5, hU, hZarcs, hPar⟩ := hex
    have hZpr : Z[pr]? = some { pa with pnext := none, s1 := some st.segs.length } := by
      rw [hZdef]
      exact getElem?_modArc_self st.arcs pr _ hpa
    have hZj : ∀ j, j ≠ pr → Z[j]? = st.arcs[j]? := by
      intro j hjp
      rw [hZdef]
      exact getElem?_modArc_ne st.arcs pr _ (fun h => hjp h.symm)
    refine ⟨l₁ ++ [pr], ?_⟩
    rw [hU]
    refine BeachInvL_cPCE _ _ _ _ _ ?_
    refine ⟨?_, ?_, ?_⟩
    · rw [hPar, hhead]
      cases l₁ with
      | nil => rfl
      | cons x xs => rfl
    · rw [List.nodup_append]
      refine ⟨nd1, List.nodup_singleton _, ?_⟩
      intro x hx hx2
      have hxx : x = pr := by simpa using hx2
      subst hxx
      exact disj hx (List.mem_cons_self _ _)
    · rw [hZarcs, chainB_append, Bool.and_eq_true]
      constructor
      · have hagree : ∀ j ∈ l₁, (Z[j]?).map linkOf = (st.arcs[j]?).map linkOf := by
          intro j hj
          rw [hZj j (fun he => disj hj (by simp [he]))]
        rw [chainB_congrOn _ st.arcs l₁ hagree none _]
        exact hcl
      · rw [chainB_cons, hZpr, Option.map_some', Option.getD_some]
        simp [hpp, hd', chainB]
  | cons nx F₂ =>
    rw [chainB_cons] at hcF
    cases hna : st.arcs[nx]? with
    | none => rw [hna, Option.map_none', Option.getD_none] at hcF; cases hcF
    | some na =>
    rw [hna, Option.map_some', Option.getD_some] at hcF
    simp only [Bool.and_eq_true, decide_eq_true_eq] at hcF
    obtain ⟨⟨-, hnn⟩, hcF₂⟩ := hcF
    have hprnx : pr ≠ nx := fun h => hprnot (h ▸ by simp)
    have hnxF₂ : nx ∉ F₂ := (List.nodup_cons.mp ndF).1
    set Z : List Arc := modArc (modArc st.arcs pr
        (fun x => { x with pnext := some nx, s1 := some st.segs.length })) nx
        (fun x => { x with pprev := some pr, s0 := some st.segs.length }) with hZdef
    have hex : ∃ st5 : VS, unlinkStep sq st ex ep aId =
        checkPotentialCircleEvent sq (checkPotentialCircleEvent sq st5 pr ex) nx ex ∧
        st5.arcs = Z ∧ st5.parabolicArc = st.parabolicArc := by
      rw [unlinkStep]
      dsimp only
      rw [show st.arcs[aId]? = some a from hiaq]
      dsimp only
      rw [show a.pprev = some pr from hap, show a.pnext = some nx from han]
      dsimp only
      cases a.s0 with
      | none =>
        cases a.s1 with
        | none => exact ⟨_, rfl, rfl, rfl⟩
        | some s1id => exact ⟨_, rfl, rfl, rfl⟩
      | some s0id =>
        cases a.s1 with
        | none => exact ⟨_, rfl, rfl, rfl⟩
        | some s1id => exact ⟨_, rfl, rfl, rfl⟩
    obtain ⟨st5, hU, hZarcs, hPar⟩ := hex
    have hZpr : Z[pr]? = some { pa with pnext := some nx, s1 := some st.segs.length } := by
      rw [hZdef]
      have e1 := getElem?_modArc_self st.arcs pr
        (fun x => { x with pnext := some nx, s1 := some st.segs.length }) hpa
      exact (getElem?_modArc_ne _ nx
        (fun x => { x with pprev := some pr, s0 := some st.segs.length })
        (fun h => hprnx h.symm)).trans e1
    have hZnx : Z[nx]? = some { na with pprev := some pr, s0 := some st.segs.length } := by
      rw [hZdef]
      have e1 := (getElem?_modArc_ne st.arcs pr
        (fun x => { x with pnext := some nx, s1 := some st.segs.length }) hprnx).trans hna
      exact getElem?_modArc_self _ nx
        (fun x => { x with pprev := some pr, s0 := some st.segs.length }) e1
    have hZj : ∀ j, j ≠ pr → j ≠ nx → Z[j]? = st.arcs[j]? := by
      intro j hjp hjn
      rw [hZdef]
      have e1 := getElem?_modArc_ne st.arcs pr
        (fun x => { x with pnext := some nx, s1 := some st.segs.length })
        (fun h => hjp h.symm)
      exact (getElem?_modArc_ne _ nx
        (fun x => { x with pprev := some pr, s0 := some st.segs.length })
        (fun h => hjn h.symm)).trans e1
    refine ⟨l₁ ++ pr :: nx :: F₂, ?_⟩
    rw [hU]
    refine BeachInvL_cPCE _ _ _ _ _ (BeachInvL_cPCE _ _ _ _ _ ?_)
    refine ⟨?_, ?_, ?_⟩
    · rw [hPar, hhead]
      cases l₁ with
      | nil => rfl
      | cons x xs => rfl
    · have hsub : List.Sublist (l₁ ++ pr :: nx :: F₂) (l₁ ++ pr :: aId :: nx :: F₂) :=
        List.Sublist.append_left ((List.sublist_cons_self aId (nx :: F₂)).cons₂ pr) l₁
      exact hsub.nodup hnd
    · rw [hZarcs, chainB_append, Bool.and_eq_true]
      constructor
      · have hagree : ∀ j ∈ l₁, (Z[j]?).map linkOf = (st.arcs[j]?).map linkOf := by
          intro j hj
          have hjp : j ≠ pr := fun he => disj hj (by simp [he])
          have hjn : j ≠ nx := fun he => disj hj (by simp [he])
          rw [hZj j hjp hjn]
        rw [chainB_congrOn _ st.arcs l₁ hagree none _]
        exact hcl
      · have hagree2 : ∀ j ∈ F₂, (Z[j]?).map linkOf = (st.arcs[j]?).map linkOf := by
          intro j hj
          have hjp : j ≠ pr := fun he => hprnot (he ▸ by simp [hj])
          have hjn : j ≠ nx := fun he => hnxF₂ (he ▸ hj)
          rw [hZj j hjp hjn]
        rw [chainB_cons, hZpr, Option.map_some', Option.getD_some]
        rw [chainB_cons, hZnx, Option.map_some', Option.getD_some]
        rw [chainB_congrOn _ st.arcs F₂ hagree2 (some nx) none]
        simp [hpp, hnn, hcF₂, hd', chainB]

set_option maxHeartbeats 1000000 in
/-- The circle-event unlink performed on an arc none of whose neighbour
pointers land on the chain (as for an arc buried inside a run that the
line-139 drop branch severed: its neighbours are other severed arcs).  The
unlink then rewrites only off-chain slots and the chain is untouched. -/
theorem unlinkStep_beach_off (sq : ℚ → ℚ) (st : VS) (ex : ℚ) (ep : Point)
    (aId : Nat) (l : List Nat) (a : Arc)
    (hinv : BeachInvL st l) (hia : st.arcs[aId]? = some a)
    (hpr : ∀ pr, a.pprev = some pr → pr ∉ l)
    (hnx : ∀ nx, a.pnext = some nx → nx ∉ l) :
    BeachInv (unlinkStep sq st ex ep aId) := by
  obtain ⟨hhead, hnodup, hchain⟩ := hinv
  refine ⟨l, ?_⟩
  cases hap : a.pprev with
  | some pr =>
    cases han : a.pnext with
    | some nx =>
      have hex : ∃ st5 : VS, unlinkStep sq st ex ep aId =
          checkPotentialCircleEvent sq (checkPotentialCircleEvent sq st5 pr ex) nx ex ∧
          st5.arcs = modArc (modArc st.arcs pr
            (fun x => { x with pnext := some nx, s1 := some st.segs.length })) nx
            (fun x => { x with pprev := some pr, s0 := some st.segs.length }) ∧
          st5.parabolicArc = st.parabolicArc := by
        rw [unlinkStep]
        dsimp only
        rw [show st.arcs[aId]? = some a from hia]
        dsimp only
        rw [show a.pprev = some pr from hap, show a.pnext = some nx from han]
        dsimp only
        cases a.s0 with
        | none =>
          cases a.s1 with
          | none => exact ⟨_, rfl, rfl, rfl⟩
          | some s1id => exact ⟨_, rfl, rfl, rfl⟩
        | some s0id =>
          cases a.s1 with
          | none => exact ⟨_, rfl, rfl, rfl⟩
          | some s1id => exact ⟨_, rfl, rfl, rfl⟩
      obtain ⟨st5, hU, hZarcs, hPar⟩ := hex
      rw [hU]
      refine BeachInvL_cPCE _ _ _ _ _ (BeachInvL_cPCE _ _ _ _ _ ?_)
      refine ⟨hPar.trans hhead, hnodup, ?_⟩
      rw [hZarcs]
      have hagree : ∀ j ∈ l, ((modArc (modArc st.arcs pr
          (fun x => { x with pnext := some nx, s1 := some st.segs.length })) nx
          (fun x => { x with pprev := some pr, s0 := some st.segs.length }))[j]?).map linkOf =
          (st.arcs[j]?).map linkOf := by
        intro j hj
        have e1 := getElem?_modArc_ne st.arcs pr
          (fun x => { x with pnext := some nx, s1 := some st.segs.length })
          (fun h => hpr pr hap (h ▸ hj))
        rw [(getElem?_modArc_ne _ nx
          (fun x => { x with pprev := some pr, s0 := some st.segs.length })
          (fun h => hnx nx han (h ▸ hj))).trans e1]
      rw [chainB_congrOn _ st.arcs l hagree none none]
      exact hchain
    | none =>
      have hex : ∃ st5 : VS, unlinkStep sq st ex ep aId =
          checkPotentialCircleEvent sq st5 pr ex ∧
          st5.arcs = modArc st.arcs pr
            (fun x => { x with pnext := none, s1 := some st.segs.length }) ∧
          st5.parabolicArc = st.parabolicArc := by
        rw [unlinkStep]
        dsimp only
        rw [show st.arcs[aId]? = some a from hia]
        dsimp only
        rw [show a.pprev = some pr from hap, show a.pnext = none from han]
        dsimp only
        cases a.s0 with
        | none =>
          cases a.s1 with
          | none => exact ⟨_, rfl, rfl, rfl⟩
          | some s1id => exact ⟨_, rfl, rfl, rfl⟩
        | some s0id =>
          cases a.s1 with
          | none => exact ⟨_, rfl, rfl, rfl⟩
          | some s1id => exact ⟨_, rfl, rfl, rfl⟩
      obtain ⟨st5, hU, hZarcs, hPar⟩ := hex
      rw [hU]
      refine BeachInvL_cPCE _ _ _ _ _ ?_
      refine ⟨hPar.trans hhead, hnodup, ?_⟩
      rw [hZarcs]
      have hagree : ∀ j ∈ l, ((modArc st.arcs pr
          (fun x => { x with pnext := none, s1 := some st.segs.length }))[j]?).map linkOf =
          (st.arcs[j]?).map linkOf := by
        intro j hj
        rw [getElem?_modArc_ne st.arcs pr
          (fun x => { x with pnext := none, s1 := some st.segs.length })
          (fun h => hpr pr hap (h ▸ hj))]
      rw [chainB_congrOn _ st.arcs l hagree none none]
      exact hchain
  | none =>
    cases han : a.pnext with
    | some nx =>
      have hex : ∃ st5 : VS, unlinkStep sq st ex ep aId =
          checkPotentialCircleEvent sq st5 nx ex ∧
          st5.arcs = modArc st.arcs nx
            (fun x => { x with pprev := none, s0 := some st.segs.length }) ∧
          st5.parabolicArc = st.parabolicArc := by
        rw [unlinkStep]
        dsimp only
        rw [show st.arcs[aId]? = some a from hia]
        dsimp only
        rw [show a.pprev = none from hap, show a.pnext = some nx from han]
        dsimp only
        cases a.s0 with
        | none =>
          cases a.s1 with
          | none => exact ⟨_, rfl, rfl, rfl⟩
          | some s1id => exact ⟨_, rfl, rfl, rfl⟩
        | some s0id =>
          cases a.s1 with
          | none => exact ⟨_, rfl, rfl, rfl⟩
          | some s1id => exact ⟨_, rfl, rfl, rfl⟩
      obtain ⟨st5, hU, hZarcs, hPar⟩ := hex
      rw [hU]
      refine BeachInvL_cPCE _ _ _ _ _ ?_
      refine ⟨hPar.trans hhead, hnodup, ?_⟩
      rw [hZarcs]
      have hagree : ∀ j ∈ l, ((modArc st.arcs nx
          (fun x => { x with pprev := none, s0 := some st.segs.length }))[j]?).map linkOf =
          (st.arcs[j]?).map linkOf := by
        intro j hj
        rw [getElem?_modArc_ne st.arcs nx
          (fun x => { x with pprev := none, s0 := some st.segs.length })
          (fun h => hnx nx han (h ▸ hj))]
      rw [chainB_congrOn _ st.arcs l hagree none none]
      exact hchain
    | none =>
      have hex : ∃ st5 : VS, unlinkStep sq st ex ep aId = st5 ∧
          st5.arcs = st.arcs ∧ st5.parabolicArc = st.parabolicArc := by
        rw [unlinkStep]
        dsimp only
        rw [show st.arcs[aId]? = some a from hia]
        dsimp only
        rw [show a.pprev = none from hap, show a.pnext = none from han]
        dsimp only
        cases a.s0 with
        | none =>
          cases a.s1 with
          | none => exact ⟨_, rfl, rfl, rfl⟩
          | some s1id => exact ⟨_, rfl, rfl, rfl⟩
        | some s0id =>
          cases a.s1 with
          | none => exact ⟨_, rfl, rfl, rfl⟩
          | some s1id => exact ⟨_, rfl, rfl, rfl⟩
      obtain ⟨st5, hU, hZarcs, hPar⟩ := hex
      rw [hU]
      refine ⟨hPar.trans hhead, hnodup, ?_⟩
      rw [hZarcs]
      exact hchain

instance (st : VS) (l : List Nat) : Decidable (BeachInvL st l) := by
  unfold BeachInvL
  infer_instance

/-- A concrete three-arc beachline (head 0, middle 1, tail 2) satisfying
the invariant, for exercising the mutation theorems. -/
def w8st : VS :=
  { output := []
    segs := []
    arcs := [(⟨⟨0, 0⟩, none, some 1, none, none, none⟩ : Arc),
      (⟨⟨5, 5⟩, some 0, some 2, none, none, none⟩ : Arc),
      (⟨⟨10, 0⟩, some 1, none, none, none, none⟩ : Arc)]
    parabolicArc := some 0
    points := initQ
    events := initQ
    evs := []
    largest := []
    max_circle_radius := 0
    x0 := 0
    y0 := 0
    x1 := 10
    y1 := 10 }

/-- A beachline whose chain is the slots `[0, 3, 4]` while the slots
`[1, 2]` form a severed run hanging off the head (slot 1 keeps its stale
`pprev = 0`), as the line-139 drop branch leaves them. -/
def w8stf : VS :=
  { output := []
    segs := []
    arcs := [(⟨⟨0, 0⟩, none, some 3, none, none, none⟩ : Arc),
      (⟨⟨1, 5⟩, some 0, some 2, none, none, none⟩ : Arc),
      (⟨⟨2, 6⟩, some 1, none, none, none, none⟩ : Arc),
      (⟨⟨5, 5⟩, some 0, some 4, none, none, none⟩ : Arc),
      (⟨⟨10, 0⟩, some 3, none, none, none, none⟩ : Arc)]
    parabolicArc := some 0
    points := initQ
    events := initQ
    evs := []
    largest := []
    max_circle_radius := 0
    x0 := 0
    y0 := 0
    x1 := 10
    y1 := 10 }

end Vor
